import Mathlib

/-!
Shallow embedding of `src/radixsort_lib.cpp` (a hybrid LSD/MSD radix sort library)
and verification of its specification.

Modelling conventions:
* An element type `T` is a type `α`; `Traits::get_key` is a function `key : α → Nat`
  together with a key width `kb` (`sizeof(key)*CHAR_BIT`); key values are below `2 ^ kb`.
* A caller buffer of `n` elements is a `List α` of length `n`; writing `buf[i] = x`
  is `List.set`, reading `buf[i]` is `List.getD _ i default`.
* The pointer-swap ping-pong is tracked by returning the final contents of both
  physical buffers (in the argument order) plus, where the C++ returns a pointer,
  a `Bool` identifying which buffer is returned (`false` = first/src, `true` = second/tmp).
* The interleaved counter array `size_t c[2*SIZE]` is a function `Nat → Nat`
  (zero-initialised), `++c[i]` is `bump`.
* `int destination` is an `Int` at the public entry points; inside the MSD engines it
  only ever holds 0/1 and is modelled as a `Bool` (`false` = 0/src, `true` = 1/tmp).
* The in-place cycle-chasing loop terminates for reasons that depend on the data,
  so it is written with explicit fuel and returns an `Option`; the engine supplies
  fuel that is proved sufficient (`radix_sort_inplace` never returns `none`).
* `radixsort_lookahead`/`radixsort_prefetch` are pure performance hints with no
  effect on the abstract state and are omitted.
-/

namespace RadixSort

variable {α : Type} [Inhabited α]

/-- Digit extraction `size_t(Traits::get_key(x)>>OFFSET)&MASK` with
`MASK = (1<<LOG2SIZE)-1`, as in all three engines. -/
def digitOf (key : α → Nat) (OFFSET LOG2SIZE : Nat) (x : α) : Nat :=
  (key x >>> OFFSET) &&& (2 ^ LOG2SIZE - 1)

/-- One counter increment `++c[i]` on a counter table modelled as a function. -/
def bump (c : Nat → Nat) (i : Nat) : Nat → Nat :=
  fun j => if j = i then c i + 1 else c j

/-- The x2-unrolled counting loop shared by all three engines:
`for(i<n/2){++c[2*k0];++c[2*k1+1];} if(n&1)++c[2*k];` — even-indexed elements are
counted in the even slots of the interleaved table, odd-indexed ones in the odd
slots, and the odd leftover element in its even slot. -/
def countPairs (dig : α → Nat) : List α → (Nat → Nat) → (Nat → Nat)
  | [], c => c
  | [x], c => bump c (2 * dig x)
  | x :: y :: rest, c => countPairs dig rest (bump (bump c (2 * dig x)) (2 * dig y + 1))

/-- The per-digit-value total `c[2*j]+c[2*j+1]` read by the prefix scan. -/
def sumLow (c : Nat → Nat) (j : Nat) : Nat := c (2 * j) + c (2 * j + 1)

/-- Running exclusive prefix sum of `sumLow`: the value the scan loop
`for(j){t=s;s+=c[2*j]+c[2*j+1];c[j]=t;}` stores into `c[j]`. -/
def lowSum (c : Nat → Nat) : Nat → Nat
  | 0 => 0
  | j + 1 => lowSum c j + sumLow c j

/-- The counter table after the in-place prefix scan: slots `j < SIZE` hold the
exclusive prefix sums, higher slots are not rewritten.  (In the scan loop the
write to `c[j]` happens strictly before any read of `c[2*j'],c[2*j'+1]` with
`j' ≥ j`, so the in-place update is equivalent to this functional description.) -/
def cdfTable (c : Nat → Nat) (SIZE : Nat) : Nat → Nat :=
  fun j => if j < SIZE then lowSum c j else c j

/-- The whole counting phase (histogram + scan) of one digit pass, starting from
the zero-initialised table `size_t c[2*SIZE]={0}`. -/
def countingPass (dig : α → Nat) (l : List α) (SIZE : Nat) : Nat → Nat :=
  cdfTable (countPairs dig l (fun _ => 0)) SIZE

/-- The degenerate-bucket check `for(j=0;j+1<SIZE;++j) if(c[j+1]-c[j]==n) ...`:
true iff some digit value `j ≤ SIZE-2` has a bucket spanning the whole range. -/
def allInOneBucket (c : Nat → Nat) (SIZE n : Nat) : Bool :=
  (List.range (SIZE - 1)).any (fun j => c (j + 1) - c j == n)

/-- One step of the scatter loop: `k=digit(src[i]); dst[c[k]++]=src[i];`. -/
def scatterStep (dig : α → Nat) (st : List α × (Nat → Nat)) (x : α) :
    List α × (Nat → Nat) :=
  (st.1.set (st.2 (dig x)) x, bump st.2 (dig x))

/-- The scatter loop of the out-of-place engines: distribute the elements of
`src` into `dst` at the running bucket cursors `c`. -/
def scatter (dig : α → Nat) (src dst : List α) (c : Nat → Nat) :
    List α × (Nat → Nat) :=
  src.foldl (scatterStep dig) (dst, c)

/-- The inner shift of the insertion sort in `fallback_sort`, acting on the
reversed already-sorted prefix `acc` (head of `acc` = `d[j-1]`):
`for(;j>0&&Traits::get_key(t)<Traits::get_key(d[j-1]);--j) d[j]=d[j-1]; d[j]=t;`. -/
def insertRev (key : α → Nat) (t : α) : List α → List α
  | [] => [t]
  | y :: ys => if key t < key y then y :: insertRev key t ys else t :: y :: ys

/-- The insertion-sort loop of `fallback_sort` (`n<=18` branch), with the sorted
prefix `d[0..i)` carried in reversed form. -/
def insertionLoop (key : α → Nat) : List α → List α → List α
  | acc, [] => acc.reverse
  | acc, x :: xs => insertionLoop key (insertRev key x acc) xs

/-- Insertion sort of a whole list into the destination buffer, as in the
`n<=18` branch of `fallback_sort`. -/
def insertionSortC (key : α → Nat) (l : List α) : List α := insertionLoop key [] l

/-- The two-pointer stable merge of `fallback_sort`: takes from the right run
only when its key is strictly smaller (`if(get_key(r[j])<get_key(l[i]))`),
then copies the remainder. -/
def mergeC (key : α → Nat) : List α → List α → List α
  | [], r => r
  | l, [] => l
  | x :: l, y :: r =>
      if key y < key x then y :: mergeC key (x :: l) r else x :: mergeC key l (y :: r)
termination_by l r => l.length + r.length

/-- `fallback_sort(src,tmp,n,destination)`: stable merge sort with insertion sort
below 18 elements, ping-ponging the two buffers; `destination = false` puts the
result in `src`'s buffer, `true` in `tmp`'s.  Returns the final contents of
(`src`'s buffer, `tmp`'s buffer). -/
def fallback_sort (key : α → Nat) (src tmp : List α) (destination : Bool) :
    List α × List α :=
  if src.length ≤ 18 then
    let d := insertionSortC key src
    if destination then (src, d) else (d, tmp)
  else
    let a := src.length / 2
    let p1 := fallback_sort key (src.take a) (tmp.take a) (!destination)
    let p2 := fallback_sort key (src.drop a) (tmp.drop a) (!destination)
    if destination then
      let l := p1.1 ++ p2.1
      (p1.1 ++ p2.1, mergeC key (l.take a) (l.drop a))
    else
      let l := p1.2 ++ p2.2
      (mergeC key (l.take a) (l.drop a), p1.2 ++ p2.2)
termination_by src.length
decreasing_by
  all_goals simp only [List.length_take, List.length_drop]; omega

/-- The previous bucket boundary `b` in the bucket loops
`for(size_t j=0,b=0;j<SIZE;b=c[j++])`. -/
def prevB (c : Nat → Nat) (j : Nat) : Nat := if j = 0 then 0 else c (j - 1)

/-- The sub-range `[b, c j)` of a buffer, as used by the per-bucket loops of the
MSD engines. -/
def segOf (l : List α) (c : Nat → Nat) (j : Nat) : List α :=
  (l.take (c j)).drop (prevB c j)

/-- The two-element conditional swap of the MSD engines
(`flip=(get_key(..b+1..)<get_key(..b..))` resp. the explicit swap in the
in-place engine): sorts a two-element segment, keeping order on equal keys. -/
def condSwap2 (key : α → Nat) (s : List α) : List α :=
  if key (s.getD 1 default) < key (s.getD 0 default) then
    [s.getD 1 default, s.getD 0 default]
  else
    [s.getD 0 default, s.getD 1 default]

/-- The digit of a raw key value; `digitOf key OFFSET LOG2SIZE = digitFn OFFSET
LOG2SIZE ∘ Traits::get_key`. -/
def digitFn (OFFSET LOG2SIZE : Nat) (v : Nat) : Nat :=
  (v >>> OFFSET) &&& (2 ^ LOG2SIZE - 1)

/-- One iteration of the out-of-place MSD per-bucket loop
(`switch(c[j]-b){case 0:…case 1:…case 2:…default:…}`), acting on the bucket's
range `[b, c[j])` of the `dst`-role and `src`-role buffers (the only range the
iteration reads or writes).  The `out` buffer (written by cases 1 and 2) is
the `dst` role iff `dest1`; the `default` case recurses with the roles and the
destination flipped.  Returns the new contents of (the `src`-role range, the
`dst`-role range). -/
def msdBucketStep (key : α → Nat)
    (recur : List α → List α → Bool → List α × List α) (dest1 : Bool)
    (dSeg sSeg : List α) : List α × List α :=
  if dSeg.length = 0 then (sSeg, dSeg)
  else if dSeg.length = 1 then (if dest1 then sSeg else dSeg, dSeg)
  else if dSeg.length = 2 then
    (if dest1 then sSeg else condSwap2 key dSeg,
     if dest1 then condSwap2 key dSeg else dSeg)
  else ((recur dSeg sSeg (!dest1)).2, (recur dSeg sSeg (!dest1)).1)

def msdBucketPhase (key : α → Nat) (recur : List α → List α → Bool → List α × List α)
    (SIZE : Nat) (s1 d1 : List α) (c2 : Nat → Nat) (dest1 : Bool) :
    List α × List α :=
  let parts := (List.range SIZE).map (fun j =>
    msdBucketStep key recur dest1 (segOf d1 c2 j) (segOf s1 c2 j))
  ((parts.map Prod.fst).flatten ++ s1.drop (c2 (SIZE - 1)),
   (parts.map Prod.snd).flatten ++ d1.drop (c2 (SIZE - 1)))

/-- One full digit pass of the out-of-place MSD engine (everything after the
threshold test): counting, degenerate check, scatter or role swap, per-bucket
loop, and the `OFFSET==0` copy-back (`if(OFFSET==0&&destination==0) src=dst`).
`recur`, invoked only when `OFFSET > 0`, is the engine at the next-narrower
width.  Returns the final contents of (`src`'s buffer, `dst`'s buffer). -/
def msdPass (key : α → Nat) (LOG2SIZE OFFSET : Nat)
    (recur : 0 < OFFSET → List α → List α → Bool → List α × List α)
    (src dst : List α) (destination : Bool) : List α × List α :=
  let n := src.length
  let SIZE := 2 ^ LOG2SIZE
  let dig := digitOf key OFFSET LOG2SIZE
  let c1 := countingPass dig src SIZE
  let skip := allInOneBucket c1 SIZE n
  let s1 := if skip then dst else src
  let d1 := if skip then src else (scatter dig src dst c1).1
  let c2 := if skip then c1 else (scatter dig src dst c1).2
  let dest1 := if skip then !destination else destination
  let s2d2 :=
    if hOF : 0 < OFFSET then msdBucketPhase key (recur hOF) SIZE s1 d1 c2 dest1
    else (s1, d1)
  let s3 := if OFFSET = 0 ∧ dest1 = false then s2d2.2 else s2d2.1
  if skip then (s2d2.2, s3) else (s3, s2d2.2)

/-- `radix_sort_msd_impl<T,WIDTH,BITS,THRESHOLD,Traits>(src,dst,n,destination)`:
sorts `src` by its `WIDTH` lower key bits in radix `2^BITS`, using `dst` as the
scratch buffer; `destination = false` asks for the result in `src`'s buffer.
Returns the final contents of (`src`'s buffer, `dst`'s buffer); the C++ return
pointer is `src` if `destination = false` and `dst` otherwise.  `hB` rules out
`BITS = 0`, on which the C++ template recursion would not terminate. -/
def radix_sort_msd_impl (key : α → Nat) (BITS THRESHOLD : Nat) (hB : 0 < BITS) :
    Nat → List α → List α → Bool → List α × List α
  | WIDTH, src, dst, destination =>
    if src.length < THRESHOLD then fallback_sort key src dst destination else
    msdPass key (min BITS WIDTH) (WIDTH - min BITS WIDTH)
      (fun hOF sg dg b =>
        radix_sort_msd_impl key BITS THRESHOLD hB (WIDTH - min BITS WIDTH) sg dg b)
      src dst destination
termination_by W _ _ _ => W
decreasing_by omega

/-- `radix_sort_lsd_impl<T,WIDTH,BITS,Traits>(src,dst,n)`: one pass per digit
from least to most significant (the current pass sorts bits
`[kb-WIDTH, kb-WIDTH+LOG2SIZE)`), ping-ponging the buffers; on a degenerate
pass the buffer roles are swapped instead of scattering.  Returns the final
contents of (`src`'s buffer, `dst`'s buffer) and a flag that is `true` iff the
returned pointer is `dst`'s buffer. -/
def radix_sort_lsd_impl (key : α → Nat) (BITS : Nat) (hB : 0 < BITS) (kb : Nat) :
    Nat → List α → List α → List α × List α × Bool
  | WIDTH, src, dst =>
    let n := src.length
    let OFFSET := kb - WIDTH
    let LOG2SIZE := min BITS WIDTH
    let SIZE := 2 ^ LOG2SIZE
    let dig := digitOf key OFFSET LOG2SIZE
    let c1 := countingPass dig src SIZE
    if allInOneBucket c1 SIZE n then
      if h : BITS < WIDTH then
        radix_sort_lsd_impl key BITS hB kb (WIDTH - BITS) src dst
      else (src, dst, false)
    else
      let dst1 := (scatter dig src dst c1).1
      if h : BITS < WIDTH then
        let r := radix_sort_lsd_impl key BITS hB kb (WIDTH - BITS) dst1 src
        (r.2.1, r.1, !r.2.2)
      else (src, dst1, true)
termination_by W _ _ => W
decreasing_by all_goals omega

/-- `radix_sort_msd<T,BITS,THRESHOLD,Traits>(src,tmp,n,destination)`: normalises
`destination` (`if(destination!=1) destination=0;`) and runs the MSD engine over
the full key width.  Returns both buffers' contents and a flag that is `true`
iff the returned pointer is `tmp`. -/
def radix_sort_msd (key : α → Nat) (kb BITS THRESHOLD : Nat) (hB : 0 < BITS)
    (src tmp : List α) (destination : Int) : List α × List α × Bool :=
  let d : Bool := destination == 1
  let r := radix_sort_msd_impl key BITS THRESHOLD hB kb src tmp d
  (r.1, r.2, d)

/-- `radix_sort_lsd<T,BITS,Traits>(src,tmp,n,destination)`: runs the LSD engine
over the full key width and then forces the requested destination with an
`O(n)` copy if needed. -/
def radix_sort_lsd (key : α → Nat) (kb BITS : Nat) (hB : 0 < BITS)
    (src tmp : List α) (destination : Int) : List α × List α × Bool :=
  let r := radix_sort_lsd_impl key BITS hB kb kb src tmp
  if destination == 0 && r.2.2 then (r.2.1, r.2.1, false)
  else if destination == 1 && !r.2.2 then (r.1, r.1, true)
  else r

/-- The algorithm-selection condition of `radix_sort_stable`:
`mode!=0 && (mode==1 || n<1500 || kb>40 || (sizeof(T)*CHAR_BIT>64 && n>10000000/sizeof(T)))`. -/
def stableSelectsMSD (mode : Int) (n kb sizeofT : Nat) : Bool :=
  mode != 0 &&
    (mode == 1 || decide (n < 1500) || decide (kb > 40) ||
      (decide (sizeofT * 8 > 64) && decide (n > 10000000 / sizeofT)))

/-- The radix-width selection shared verbatim by `radix_sort_stable` and
`radix_sort_inplace`: `bits=8`, bumped to 11 on the two tuned ranges. -/
def msdBitsChoice (n : Nat) : Nat :=
  let bits := 8
  let bits := if 4000 < n ∧ n < 60000 then 11 else bits
  let bits := if 2000000 < n ∧ n < 9000000 then 11 else bits
  bits

/-- `radix_sort_stable<T,Traits>(src,tmp,n,destination,mode)`: the stable entry
point with its dispatch heuristic.  `kb` is the key width in bits, `sizeofT`
is `sizeof(T)` in bytes.  Returns both buffers' contents and a flag that is
`true` iff the returned pointer is `tmp`. -/
def radix_sort_stable (key : α → Nat) (kb sizeofT : Nat) (src tmp : List α)
    (destination mode : Int) : List α × List α × Bool :=
  if stableSelectsMSD mode src.length kb sizeofT then
    if msdBitsChoice src.length = 8 then
      radix_sort_msd key kb 8 128 (by decide) src tmp destination
    else
      radix_sort_msd key kb 11 256 (by decide) src tmp destination
  else
    radix_sort_lsd key kb 8 (by decide) src tmp destination

/-- The cycle-following chase `while(j!=h){t=src[c[h]]; src[c[h]++]=src[k];
src[k]=t; h=...;}` of the in-place engine, with explicit fuel (one unit per
test of the loop condition). -/
def chase (key : α → Nat) (OFFSET LOG2SIZE : Nat) (j k : Nat) :
    Nat → List α → (Nat → Nat) → Option (List α × (Nat → Nat))
  | 0, _, _ => none
  | fuel + 1, arr, c =>
    let h := digitOf key OFFSET LOG2SIZE (arr.getD k default)
    if j = h then some (arr, c)
    else
      let arr1 := (arr.set (c h) (arr.getD k default)).set k (arr.getD (c h) default)
      chase key OFFSET LOG2SIZE j k fuel arr1 (bump c h)

/-- The per-bucket cursor loop `for(;c[j]!=d[j];++c[j])` of the in-place
scatter, with explicit fuel (one unit per cursor increment). -/
def innerScatterLoop (key : α → Nat) (OFFSET LOG2SIZE : Nat) (j : Nat)
    (d : Nat → Nat) : Nat → List α → (Nat → Nat) → Option (List α × (Nat → Nat))
  | 0, arr, c => if c j = d j then some (arr, c) else none
  | fuel + 1, arr, c =>
    if c j = d j then some (arr, c)
    else
      match chase key OFFSET LOG2SIZE j (c j) (arr.length + 1) arr c with
      | none => none
      | some st => innerScatterLoop key OFFSET LOG2SIZE j d fuel st.1 (bump st.2 j)

/-- The outer loop `for(j=0;j<SIZE;++j)` of the in-place cycle-following
scatter. -/
def outerScatterLoop (key : α → Nat) (OFFSET LOG2SIZE SIZE : Nat)
    (d : Nat → Nat) (arr : List α) (c : Nat → Nat) :
    Option (List α × (Nat → Nat)) :=
  (List.range SIZE).foldl
    (fun st j => st.bind (fun p =>
      innerScatterLoop key OFFSET LOG2SIZE j d p.1.length p.1 p.2))
    (some (arr, c))

/-- Sequencing of the per-bucket recursion results of the in-place engine:
`none` if any bucket's recursion ran out of fuel, otherwise the concatenation. -/
def optJoin : List (Option (List α)) → Option (List α)
  | [] => some []
  | none :: _ => none
  | some s :: rest => (optJoin rest).map (fun r => s ++ r)

/-- One iteration of the in-place MSD per-bucket loop
(`switch(d[j]-b){case 0: case 1: break; case 2:…default:…}`), acting on the
bucket's range `[b, d[j])` of the buffer (the only range the iteration reads
or writes); `recur` is the recursive in-place MSD call on the next-narrower
width. -/
def inplaceBucketStep (key : α → Nat) (recur : List α → Option (List α))
    (seg : List α) : Option (List α) :=
  if seg.length = 0 then some seg
  else if seg.length = 1 then some seg
  else if seg.length = 2 then some (condSwap2 key seg)
  else recur seg

def inplaceBucketPhase (key : α → Nat) (recur : List α → Option (List α))
    (SIZE : Nat) (arr : List α) (d : Nat → Nat) : Option (List α) :=
  let parts := (List.range SIZE).map (fun j =>
    inplaceBucketStep key recur (segOf arr d j))
  (optJoin parts).map (fun segs => segs ++ arr.drop (d (SIZE - 1)))

/-- One full digit pass of the in-place MSD engine (everything after the
threshold test): counting, bucket-end table `d`, degenerate check,
cycle-following scatter, and the per-bucket recursion loop.  `recur`, invoked
only when `OFFSET > 0`, is the engine at the next-narrower width. -/
def inplacePass (key : α → Nat) (LOG2SIZE OFFSET : Nat)
    (recur : 0 < OFFSET → List α → Option (List α)) (src : List α) :
    Option (List α) :=
  let n := src.length
  let SIZE := 2 ^ LOG2SIZE
  let dig := digitOf key OFFSET LOG2SIZE
  let c1 := countingPass dig src SIZE
  let d : Nat → Nat := fun j => if j < SIZE - 1 then c1 (j + 1) else n
  let afterScatter :=
    if allInOneBucket c1 SIZE n then some (src, c1)
    else outerScatterLoop key OFFSET LOG2SIZE SIZE d src c1
  afterScatter.bind (fun st =>
    if hOF : 0 < OFFSET then inplaceBucketPhase key (recur hOF) SIZE st.1 d
    else some st.1)

/-- `radix_sort_msd_inplace_impl<T,WIDTH,BITS,THRESHOLD,Traits>(src,n)`: sorts
`src` in place by its `WIDTH` lower key bits.  Below the threshold it falls
back to `fallback_sort` into a stack temporary (whose uninitialised contents
the result does not depend on — `src` itself is passed as the model scratch).
Returns `none` only if some fuel runs out (proved impossible). -/
def radix_sort_msd_inplace_impl (key : α → Nat) (BITS THRESHOLD : Nat)
    (hB : 0 < BITS) : Nat → List α → Option (List α)
  | WIDTH, src =>
    if src.length < THRESHOLD then some (fallback_sort key src src false).1 else
    inplacePass key (min BITS WIDTH) (WIDTH - min BITS WIDTH)
      (fun hOF sg =>
        radix_sort_msd_inplace_impl key BITS THRESHOLD hB (WIDTH - min BITS WIDTH) sg)
      src
termination_by W _ => W
decreasing_by omega

/-- `radix_sort_inplace<T,Traits>(src,n)`: the in-place entry point with the
same radix-width selection as the stable one. -/
def radix_sort_inplace (key : α → Nat) (kb : Nat) (src : List α) :
    Option (List α) :=
  if msdBitsChoice src.length = 8 then
    radix_sort_msd_inplace_impl key 8 128 (by decide) kb src
  else
    radix_sort_msd_inplace_impl key 11 256 (by decide) kb src

/-- The buffer holding the result of `radix_sort_stable`/`radix_sort_lsd`/
`radix_sort_msd`, as identified by the returned pointer flag. -/
def resultOf (r : List α × List α × Bool) : List α :=
  if r.2.2 then r.2.1 else r.1

/-- Number of template-recursion levels of the MSD engines: one per digit pass,
recursing while `OFFSET > 0` with `OFFSET = WIDTH - min BITS WIDTH`. -/
def msdLevels (BITS : Nat) (hB : 0 < BITS) : Nat → Nat
  | WIDTH =>
    if hOF : 0 < WIDTH - min BITS WIDTH then
      1 + msdLevels BITS hB (WIDTH - min BITS WIDTH)
    else 1
termination_by W => W
decreasing_by omega

/-- Plain (non-interleaved) histogram of digit values: the specification-side
count that claim C9 compares the unrolled counting loop against. -/
def plainHist (dig : α → Nat) (l : List α) (j : Nat) : Nat :=
  l.countP (fun x => dig x == j)

/-- Plain exclusive prefix sum of `plainHist`: the specification-side bucket
boundary table of claim C9 (start position of bucket `j`). -/
def plainCdf (dig : α → Nat) (l : List α) : Nat → Nat
  | 0 => 0
  | j + 1 => plainCdf dig l j + plainHist dig l j

/-- Concatenation of the digit-value buckets `j, j+1, ..., j+k-1` of `l`,
each bucket listing its elements in input order. -/
def bucketsFrom (dig : α → Nat) (l : List α) : Nat → Nat → List α
  | _, 0 => []
  | j, k + 1 => l.filter (fun x => dig x == j) ++ bucketsFrom dig l (j + 1) k

/-- The stable partition of `l` by digit value: bucket 0 first, then bucket 1,
…, bucket `SIZE-1`; this is what one out-of-place counting/scatter pass
produces in the destination buffer. -/
def bucketed (dig : α → Nat) (l : List α) (SIZE : Nat) : List α :=
  bucketsFrom dig l 0 SIZE

/-- Sortedness by key in unsigned integer order: every adjacent (indeed every
in-order) pair of the list is weakly increasing in key. -/
def sortedByKey (key : α → Nat) (l : List α) : Prop :=
  l.Pairwise (fun a b => key a ≤ key b)

/-- Stability of `out` with respect to the input `inp`: for every key value,
the subsequence of elements having that key is the same (same elements, same
relative order) in `out` and in `inp`. -/
def stableWrt (key : α → Nat) (out inp : List α) : Prop :=
  ∀ k, out.filter (fun x => key x == k) = inp.filter (fun x => key x == k)

/-- Static facts about the bucket boundary tables of the in-place scatter:
`start` and `d` delimit disjoint consecutive regions, region `h` has room for
all digit-`h` elements of `src`, and everything fits in the buffer. -/
def ScatterCtx (dig : α → Nat) (SIZE : Nat) (start d : Nat → Nat)
    (src : List α) : Prop :=
  (∀ x : α, dig x < SIZE) ∧
  (∀ h, h < SIZE → start h + src.countP (fun x => dig x == h) ≤ d h) ∧
  (∀ h, h + 1 < SIZE → d h ≤ start (h + 1)) ∧
  (∀ h h', h ≤ h' → start h ≤ start h') ∧
  (∀ h, h < SIZE → d h ≤ src.length) ∧
  (∑ h in Finset.range SIZE, (d h - start h)) ≤ src.length

/-- The loop invariant of the in-place cycle-following scatter: the buffer is
a permutation of the input of unchanged length, every cursor sits inside its
region, and everything strictly below a cursor already has the right digit. -/
def ScatterInv (dig : α → Nat) (SIZE : Nat) (start d : Nat → Nat)
    (src arr : List α) (c : Nat → Nat) : Prop :=
  arr.length = src.length ∧
  List.Perm arr src ∧
  (∀ h, h < SIZE → start h ≤ c h ∧ c h ≤ d h) ∧
  (∀ h, h < SIZE → ∀ i, start h ≤ i → i < c h → dig (arr.getD i default) = h)

end RadixSort

namespace RadixSort

variable {α : Type}

/-! ### Digit arithmetic -/

theorem digitOf_eq_div_mod (key : α → Nat) (OFFSET LOG2SIZE : Nat) (x : α) :
    digitOf key OFFSET LOG2SIZE x = key x / 2 ^ OFFSET % 2 ^ LOG2SIZE := by
  simp [digitOf, Nat.shiftRight_eq_div_pow, Nat.and_pow_two_sub_one_eq_mod]

theorem digitOf_lt (key : α → Nat) (OFFSET LOG2SIZE : Nat) (x : α) :
    digitOf key OFFSET LOG2SIZE x < 2 ^ LOG2SIZE := by
  rw [digitOf_eq_div_mod]
  exact Nat.mod_lt _ (Nat.two_pow_pos _)

/-! ### The counting pass -/

theorem bump_self (c : Nat → Nat) (i : Nat) : bump c i i = c i + 1 := by
  simp [bump]

theorem bump_ne (c : Nat → Nat) {i k : Nat} (h : k ≠ i) : bump c i k = c k := by
  simp [bump, h]

theorem sumLow_bump_even (c : Nat → Nat) (i j : Nat) :
    sumLow (bump c (2 * i)) j = sumLow c j + if j = i then 1 else 0 := by
  unfold sumLow
  rcases Decidable.em (j = i) with h | h
  · subst h
    rw [bump_self, bump_ne c (by omega)]
    simp
    omega
  · rw [bump_ne c (by omega), bump_ne c (by omega)]
    simp [h]

theorem sumLow_bump_odd (c : Nat → Nat) (i j : Nat) :
    sumLow (bump c (2 * i + 1)) j = sumLow c j + if j = i then 1 else 0 := by
  unfold sumLow
  rcases Decidable.em (j = i) with h | h
  · subst h
    rw [bump_self, bump_ne c (by omega)]
    simp
    omega
  · rw [bump_ne c (by omega), bump_ne c (by omega)]
    simp [h]

theorem sumLow_countPairs (dig : α → Nat) :
    ∀ (l : List α) (c : Nat → Nat) (j : Nat),
      sumLow (countPairs dig l c) j = sumLow c j + plainHist dig l j
  | [], c, j => by simp [countPairs, plainHist]
  | [x], c, j => by
      simp only [countPairs, plainHist, sumLow_bump_even, List.countP_cons,
        List.countP_nil]
      rcases Decidable.em (dig x = j) with h | h <;> simp [h, Ne.symm]
  | x :: y :: rest, c, j => by
      rw [countPairs, sumLow_countPairs dig rest _ j, sumLow_bump_odd,
        sumLow_bump_even]
      simp only [plainHist, List.countP_cons]
      rcases Decidable.em (dig x = j) with h1 | h1 <;>
        rcases Decidable.em (dig y = j) with h2 | h2 <;>
          simp [h1, h2, Ne.symm] <;> omega

theorem lowSum_countPairs (dig : α → Nat) (l : List α) (j : Nat) :
    lowSum (countPairs dig l (fun _ => 0)) j = plainCdf dig l j := by
  induction j with
  | zero => rfl
  | succ j ih =>
      rw [lowSum, ih, sumLow_countPairs, plainCdf]
      simp [sumLow]

theorem countingPass_eq_plainCdf (dig : α → Nat) (l : List α) (SIZE : Nat)
    {j : Nat} (hj : j < SIZE) :
    countingPass dig l SIZE j = plainCdf dig l j := by
  simp [countingPass, cdfTable, hj, lowSum_countPairs]

theorem countP_digit_lt_succ (dig : α → Nat) (j : Nat) :
    ∀ l : List α,
      l.countP (fun x => decide (dig x < j + 1)) =
        l.countP (fun x => decide (dig x < j)) + l.countP (fun x => dig x == j)
  | [] => by simp
  | a :: t => by
      simp only [List.countP_cons, countP_digit_lt_succ dig j t, decide_eq_true_eq,
        beq_iff_eq]
      by_cases h1 : dig a < j + 1 <;> by_cases h2 : dig a < j <;>
        by_cases h3 : dig a = j <;> simp [h1, h2, h3] <;> omega

theorem plainCdf_eq_countP (dig : α → Nat) (l : List α) :
    ∀ j, plainCdf dig l j = l.countP (fun x => decide (dig x < j))
  | 0 => by simp [plainCdf]
  | j + 1 => by
      rw [plainCdf, plainCdf_eq_countP dig l j, plainHist, countP_digit_lt_succ]

theorem plainCdf_mono (dig : α → Nat) (l : List α) {i j : Nat} (h : i ≤ j) :
    plainCdf dig l i ≤ plainCdf dig l j := by
  rw [plainCdf_eq_countP, plainCdf_eq_countP]
  apply List.countP_mono_left
  intro x _ hx
  simp only [decide_eq_true_eq] at *
  omega

theorem plainCdf_total (dig : α → Nat) (l : List α) {SIZE : Nat}
    (hd : ∀ x ∈ l, dig x < SIZE) : plainCdf dig l SIZE = l.length := by
  rw [plainCdf_eq_countP]
  rw [List.countP_eq_length]
  intro x hx
  simp [hd x hx]

theorem plainCdf_succ (dig : α → Nat) (l : List α) (j : Nat) :
    plainCdf dig l (j + 1) = plainCdf dig l j + plainHist dig l j := rfl

theorem plainCdf_le_length (dig : α → Nat) (l : List α) (j : Nat) :
    plainCdf dig l j ≤ l.length := by
  rw [plainCdf_eq_countP]
  exact List.countP_le_length _

theorem plainHist_eq_length_filter (dig : α → Nat) (l : List α) (j : Nat) :
    plainHist dig l j = (l.filter (fun x => dig x == j)).length :=
  List.countP_eq_length_filter _ _

/-! ### The stable partition `bucketed` -/

theorem bucketsFrom_append (dig : α → Nat) (l : List α) :
    ∀ (k1 : Nat) (j k2 : Nat),
      bucketsFrom dig l j (k1 + k2) =
        bucketsFrom dig l j k1 ++ bucketsFrom dig l (j + k1) k2
  | 0, j, k2 => by simp [bucketsFrom]
  | k1 + 1, j, k2 => by
      rw [(by omega : k1 + 1 + k2 = (k1 + k2) + 1)]
      rw [bucketsFrom, bucketsFrom, bucketsFrom_append dig l k1 (j + 1) k2]
      simp [List.append_assoc]
      rw [(by omega : j + 1 + k1 = j + (k1 + 1))]

theorem bucketsFrom_length (dig : α → Nat) (l : List α) :
    ∀ (k j : Nat),
      plainCdf dig l j + (bucketsFrom dig l j k).length = plainCdf dig l (j + k)
  | 0, j => by simp [bucketsFrom]
  | k + 1, j => by
      rw [bucketsFrom, List.length_append, ← plainHist_eq_length_filter,
        (by omega : j + (k + 1) = (j + 1) + k), ← bucketsFrom_length dig l k (j + 1),
        plainCdf_succ]
      omega

theorem bucketed_length (dig : α → Nat) (l : List α) (SIZE : Nat) :
    (bucketed dig l SIZE).length = plainCdf dig l SIZE := by
  have := bucketsFrom_length dig l SIZE 0
  simpa [bucketed, plainCdf] using this

theorem bucketsFrom_one (dig : α → Nat) (l : List α) (m : Nat) :
    bucketsFrom dig l m 1 = l.filter (fun x => dig x == m) := by
  simp [bucketsFrom]

theorem bucketsFrom_zero_length (dig : α → Nat) (l : List α) (j : Nat) :
    (bucketsFrom dig l 0 j).length = plainCdf dig l j := by
  have := bucketsFrom_length dig l j 0
  simpa [plainCdf] using this

theorem bucketsFrom_zero_succ (dig : α → Nat) (l : List α) (j : Nat) :
    bucketsFrom dig l 0 (j + 1) =
      bucketsFrom dig l 0 j ++ l.filter (fun x => dig x == j) := by
  have h := bucketsFrom_append dig l j 0 1
  rw [Nat.zero_add, bucketsFrom_one] at h
  exact h

theorem bucketed_split (dig : α → Nat) (l : List α) {SIZE j : Nat}
    (hj : j < SIZE) :
    bucketed dig l SIZE =
      (bucketsFrom dig l 0 j ++ l.filter (fun x => dig x == j)) ++
        bucketsFrom dig l (j + 1) (SIZE - (j + 1)) := by
  have h1 := bucketsFrom_append dig l (j + 1) 0 (SIZE - (j + 1))
  rw [(by omega : j + 1 + (SIZE - (j + 1)) = SIZE), Nat.zero_add] at h1
  rw [bucketed, h1, bucketsFrom_zero_succ]

theorem bucketed_seg (dig : α → Nat) (l : List α) {SIZE j : Nat} (hj : j < SIZE) :
    ((bucketed dig l SIZE).take (plainCdf dig l (j + 1))).drop (plainCdf dig l j) =
      l.filter (fun x => dig x == j) := by
  have htake : (bucketed dig l SIZE).take (plainCdf dig l (j + 1)) =
      bucketsFrom dig l 0 j ++ l.filter (fun x => dig x == j) := by
    rw [bucketed_split dig l hj]
    apply List.take_left'
    rw [List.length_append, bucketsFrom_zero_length, ← plainHist_eq_length_filter,
      plainCdf_succ]
  rw [htake]
  apply List.drop_left'
  exact bucketsFrom_zero_length dig l j

theorem bucketed_getElem (dig : α → Nat) (l : List α) {SIZE j : Nat} (hj : j < SIZE)
    {i : Nat} (hi : i < plainHist dig l j) :
    (bucketed dig l SIZE)[plainCdf dig l j + i]? =
      (l.filter (fun x => dig x == j))[i]? := by
  rw [bucketed_split dig l hj]
  rw [List.getElem?_append_left, List.getElem?_append_right
    (by rw [bucketsFrom_zero_length]; omega)]
  · rw [bucketsFrom_zero_length]
    congr 1
    omega
  · rw [List.length_append, bucketsFrom_zero_length, ← plainHist_eq_length_filter]
    omega

/-- Sub-lemma of the stability argument: key-filtering commutes with digit
bucketing, because the digit is a function of the key. -/
theorem bucketsFrom_filter_key (key : α → Nat) (dg : Nat → Nat) (l : List α)
    (k : Nat) :
    ∀ (cnt j : Nat),
      (bucketsFrom (fun x => dg (key x)) l j cnt).filter (fun x => key x == k) =
        if j ≤ dg k ∧ dg k < j + cnt then l.filter (fun x => key x == k) else []
  | 0, j => by simp [bucketsFrom, (by omega : ¬ (j ≤ dg k ∧ dg k < j + 0))]
  | cnt + 1, j => by
      rw [bucketsFrom, List.filter_append, bucketsFrom_filter_key key dg l k cnt (j + 1)]
      by_cases hj : dg k = j
      · have h1 : (l.filter (fun x => dg (key x) == j)).filter
            (fun x => key x == k) = l.filter (fun x => key x == k) := by
          rw [List.filter_filter]
          apply List.filter_congr
          intro x _
          by_cases hxk : key x = k <;> simp [hxk, hj.symm]
        rw [h1, if_neg (by omega), if_pos (by omega), List.append_nil]
      · have h1 : (l.filter (fun x => dg (key x) == j)).filter
            (fun x => key x == k) = [] := by
          rw [List.filter_filter, List.filter_eq_nil_iff]
          intro x _
          simp only [Bool.and_eq_true, beq_iff_eq, not_and]
          intro hxk hdg
          rw [hxk] at hdg
          exact hj hdg
        rw [h1, List.nil_append]
        by_cases hrange : j + 1 ≤ dg k ∧ dg k < j + 1 + cnt
        · rw [if_pos hrange, if_pos (by omega)]
        · rw [if_neg hrange, if_neg (by omega)]

theorem bucketed_filter_key (key : α → Nat) (dg : Nat → Nat) (l : List α)
    (SIZE : Nat) (hd : ∀ x ∈ l, dg (key x) < SIZE) (k : Nat) :
    (bucketed (fun x => dg (key x)) l SIZE).filter (fun x => key x == k) =
      l.filter (fun x => key x == k) := by
  rw [bucketed, bucketsFrom_filter_key]
  by_cases hk : dg k < SIZE
  · rw [if_pos (by omega)]
  · rw [if_neg (by omega)]
    rw [eq_comm, List.filter_eq_nil_iff]
    intro x hx
    simp only [beq_iff_eq]
    intro hxk
    apply hk
    rw [← hxk]
    exact hd x hx

/-! ### The out-of-place scatter -/

theorem scatter_go (dig : α → Nat) (SIZE : Nat) (full : List α)
    (hd : ∀ x ∈ full, dig x < SIZE) :
    ∀ (rest done dst : List α) (c : Nat → Nat),
      full = done ++ rest →
      dst.length = full.length →
      (∀ j, j < SIZE → c j =
        plainCdf dig full j + done.countP (fun x => dig x == j)) →
      (∀ j, j < SIZE → ∀ i, i < done.countP (fun x => dig x == j) →
        dst[plainCdf dig full j + i]? = (done.filter (fun x => dig x == j))[i]?) →
      (scatter dig rest dst c).1.length = full.length ∧
      (∀ j, j < SIZE → (scatter dig rest dst c).2 j =
        plainCdf dig full j + full.countP (fun x => dig x == j)) ∧
      (∀ j, j < SIZE → ∀ i, i < full.countP (fun x => dig x == j) →
        (scatter dig rest dst c).1[plainCdf dig full j + i]? =
          (full.filter (fun x => dig x == j))[i]?)
  | [], done, dst, c => by
      intro hfull hlen hc hdst
      rw [List.append_nil] at hfull
      subst hfull
      exact ⟨hlen, hc, hdst⟩
  | x :: rest, done, dst, c => by
      intro hfull hlen hc hdst
      have hkS : dig x < SIZE := hd x (by rw [hfull]; simp)
      have hcntx : done.countP (fun y => dig y == dig x) <
          full.countP (fun y => dig y == dig x) := by
        rw [hfull, List.countP_append, List.countP_cons]
        simp
      have hcnt_le : ∀ j, done.countP (fun y => dig y == j) ≤
          full.countP (fun y => dig y == j) := by
        intro j
        rw [hfull, List.countP_append]
        omega
      have hp0 : c (dig x) < full.length := by
        rw [hc (dig x) hkS]
        have h1 := plainCdf_le_length dig full (dig x + 1)
        rw [plainCdf_succ, plainHist] at h1
        omega
      have step : scatter dig (x :: rest) dst c =
          scatter dig rest (dst.set (c (dig x)) x) (bump c (dig x)) := rfl
      rw [step]
      refine scatter_go dig SIZE full hd rest (done ++ [x])
        (dst.set (c (dig x)) x) (bump c (dig x))
        (by rw [hfull]; simp) (by simp [hlen]) ?_ ?_
      · intro j hj
        by_cases hjk : j = dig x
        · rw [hjk, bump_self, hc (dig x) hkS, List.countP_append,
            List.countP_singleton]
          simp
          omega
        · rw [bump_ne c hjk, hc j hj, List.countP_append, List.countP_singleton]
          simp [Ne.symm hjk]
      · intro j hj i hi
        rw [List.countP_append, List.countP_singleton] at hi
        by_cases hjk : j = dig x
        · rw [hjk] at hi ⊢
          simp only [beq_self_eq_true, if_pos] at hi
          rcases Nat.lt_or_ge i (done.countP (fun y => dig y == dig x)) with hi2 | hi2
          · have hne : c (dig x) ≠ plainCdf dig full (dig x) + i := by
              rw [hc (dig x) hkS]
              omega
            rw [List.getElem?_set_ne hne, hdst (dig x) hkS i hi2,
              List.filter_append,
              List.getElem?_append_left
                (by rw [← List.countP_eq_length_filter]; exact hi2)]
          · have hieq : i = done.countP (fun y => dig y == dig x) := by omega
            subst hieq
            rw [← hc (dig x) hkS,
              List.getElem?_set_self (by rw [hlen]; exact hp0),
              List.filter_append]
            have hfx : List.filter (fun y => dig y == dig x) [x] = [x] := by simp
            rw [hfx, List.countP_eq_length_filter, List.getElem?_concat_length]
        · have hi2 : i < done.countP (fun y => dig y == j) := by
            simp [Ne.symm hjk] at hi
            exact hi
          have hA : plainCdf dig full (j + 1) = plainCdf dig full j +
              full.countP (fun y => dig y == j) := by
            rw [plainCdf_succ, plainHist]
          have hB : plainCdf dig full (dig x + 1) = plainCdf dig full (dig x) +
              full.countP (fun y => dig y == dig x) := by
            rw [plainCdf_succ, plainHist]
          have hne : c (dig x) ≠ plainCdf dig full j + i := by
            rw [hc (dig x) hkS]
            rcases Nat.lt_or_ge j (dig x) with hlt | hge
            · have hm := plainCdf_mono dig full (show j + 1 ≤ dig x by omega)
              have := hcnt_le j
              omega
            · have hm := plainCdf_mono dig full (show dig x + 1 ≤ j by omega)
              omega
          rw [List.getElem?_set_ne hne, hdst j hj i hi2, List.filter_append]
          have hfx : List.filter (fun y => dig y == j) [x] = [] := by
            simp [Ne.symm hjk]
          rw [hfx, List.append_nil]
/-- Helper: find the bucket containing a given output position. -/
theorem pos_bucket (dig : α → Nat) (l : List α) :
    ∀ (SIZE p : Nat), p < plainCdf dig l SIZE →
      ∃ j, j < SIZE ∧ plainCdf dig l j ≤ p ∧ p < plainCdf dig l (j + 1)
  | 0, p => by simp [plainCdf]
  | SIZE + 1, p => by
      intro hp
      rcases Nat.lt_or_ge p (plainCdf dig l SIZE) with h | h
      · rcases pos_bucket dig l SIZE p h with ⟨j, hj, h1, h2⟩
        exact ⟨j, by omega, h1, h2⟩
      · exact ⟨SIZE, by omega, h, hp⟩

/-- The scatter loop of the out-of-place engines produces exactly the stable
partition by digit value in the destination buffer, and leaves each cursor at
the end of its bucket. -/
theorem scatter_spec (dig : α → Nat) (SIZE : Nat) (src dst : List α)
    (c : Nat → Nat) (hd : ∀ x ∈ src, dig x < SIZE)
    (hlen : dst.length = src.length)
    (hc : ∀ j, j < SIZE → c j = plainCdf dig src j) :
    (scatter dig src dst c).1 = bucketed dig src SIZE ∧
    (∀ j, j < SIZE → (scatter dig src dst c).2 j = plainCdf dig src (j + 1)) := by
  have hgo := scatter_go dig SIZE src hd src [] dst c (by simp) hlen
    (by intro j hj; simpa using hc j hj)
    (by intro j hj i hi; simp at hi)
  rcases hgo with ⟨h1, h2, h3⟩
  constructor
  · apply List.ext_getElem?
    intro p
    rcases Nat.lt_or_ge p src.length with hp | hp
    · have hpb : p < plainCdf dig src SIZE := by
        rw [plainCdf_total dig src hd]
        exact hp
      rcases pos_bucket dig src SIZE p hpb with ⟨j, hj, hj1, hj2⟩
      have hi : p - plainCdf dig src j < plainHist dig src j := by
        rw [plainCdf_succ] at hj2
        omega
      have hp_eq : p = plainCdf dig src j + (p - plainCdf dig src j) := by omega
      rw [hp_eq, h3 j hj _ hi, bucketed_getElem dig src hj hi]
    · rw [List.getElem?_eq_none (by omega : (scatter dig src dst c).1.length ≤ p),
        List.getElem?_eq_none]
      rw [bucketed_length, plainCdf_total dig src hd]
      omega
  · intro j hj
    rw [h2 j hj, plainCdf_succ, plainHist]

end RadixSort

namespace RadixSort

variable {α : Type}

/-! ### Insertion sort (`fallback_sort`, small branch) -/

theorem insertRev_perm (key : α → Nat) (t : α) :
    ∀ acc : List α, List.Perm (insertRev key t acc) (t :: acc)
  | [] => List.Perm.refl _
  | y :: ys => by
      rw [insertRev]
      by_cases h : key t < key y
      · rw [if_pos h]
        exact ((insertRev_perm key t ys).cons y).trans (List.Perm.swap t y ys)
      · rw [if_neg h]

theorem insertRev_rsorted (key : α → Nat) (t : α) :
    ∀ acc : List α, acc.Pairwise (fun a b => key b ≤ key a) →
      (insertRev key t acc).Pairwise (fun a b => key b ≤ key a)
  | [], _ => by simp [insertRev]
  | y :: ys, hp => by
      rw [insertRev]
      rcases List.pairwise_cons.mp hp with ⟨hy, hys⟩
      by_cases h : key t < key y
      · rw [if_pos h]
        refine List.pairwise_cons.mpr ⟨?_, insertRev_rsorted key t ys hys⟩
        intro z hz
        rcases List.mem_cons.mp ((insertRev_perm key t ys).mem_iff.mp hz) with hz2 | hz2
        · rw [hz2]; omega
        · exact hy z hz2
      · rw [if_neg h]
        refine List.pairwise_cons.mpr ⟨?_, hp⟩
        intro z hz
        rcases List.mem_cons.mp hz with hz2 | hz2
        · rw [hz2]; omega
        · have := hy z hz2; omega

theorem insertRev_filter (key : α → Nat) (t : α) (k : Nat) :
    ∀ acc : List α,
      (insertRev key t acc).filter (fun a => key a == k) =
        (t :: acc).filter (fun a => key a == k)
  | [] => rfl
  | y :: ys => by
      rw [insertRev]
      by_cases h : key t < key y
      · rw [if_pos h]
        by_cases h1 : key t = k <;> by_cases h2 : key y = k
        · omega
        · simp [List.filter_cons, h1, h2, insertRev_filter key t k ys]
        · simp [List.filter_cons, h1, h2, insertRev_filter key t k ys]
        · simp [List.filter_cons, h1, h2, insertRev_filter key t k ys]
      · rw [if_neg h]

theorem insertionLoop_perm (key : α → Nat) :
    ∀ (xs acc : List α), List.Perm (insertionLoop key acc xs) (acc.reverse ++ xs)
  | [], acc => by simp [insertionLoop]
  | x :: xs, acc => by
      rw [insertionLoop]
      refine (insertionLoop_perm key xs (insertRev key x acc)).trans ?_
      refine List.Perm.trans (((List.reverse_perm _).trans
        (insertRev_perm key x acc)).append_right xs) ?_
      refine List.Perm.trans (((List.reverse_perm acc).symm.cons x).append_right xs) ?_
      exact List.perm_middle.symm

theorem insertionLoop_sorted (key : α → Nat) :
    ∀ (xs acc : List α), acc.Pairwise (fun a b => key b ≤ key a) →
      (insertionLoop key acc xs).Pairwise (fun a b => key a ≤ key b)
  | [], acc, hp => by
      rw [insertionLoop]
      exact List.pairwise_reverse.mpr hp
  | x :: xs, acc, hp => by
      rw [insertionLoop]
      exact insertionLoop_sorted key xs _ (insertRev_rsorted key x acc hp)

theorem insertionLoop_filter (key : α → Nat) (k : Nat) :
    ∀ (xs acc : List α),
      (insertionLoop key acc xs).filter (fun a => key a == k) =
        (acc.reverse).filter (fun a => key a == k) ++
          xs.filter (fun a => key a == k)
  | [], acc => by simp [insertionLoop]
  | x :: xs, acc => by
      rw [insertionLoop, insertionLoop_filter key k xs]
      rw [List.filter_reverse, insertRev_filter, ← List.filter_reverse]
      by_cases h : key x = k <;>
        simp [List.filter_cons, h, List.append_assoc]

theorem insertionSortC_perm (key : α → Nat) (l : List α) :
    List.Perm (insertionSortC key l) l := by
  simpa [insertionSortC] using insertionLoop_perm key l []

theorem insertionSortC_sorted (key : α → Nat) (l : List α) :
    sortedByKey key (insertionSortC key l) :=
  insertionLoop_sorted key l [] (by simp)

theorem insertionSortC_filter (key : α → Nat) (l : List α) (k : Nat) :
    (insertionSortC key l).filter (fun a => key a == k) =
      l.filter (fun a => key a == k) := by
  simpa [insertionSortC] using insertionLoop_filter key k l []

theorem insertionSortC_length (key : α → Nat) (l : List α) :
    (insertionSortC key l).length = l.length :=
  (insertionSortC_perm key l).length_eq

/-! ### The stable two-pointer merge (`fallback_sort`, large branch) -/

theorem mergeC_perm (key : α → Nat) :
    ∀ l r : List α, List.Perm (mergeC key l r) (l ++ r)
  | [], r => by simp [mergeC]
  | x :: l, [] => by simp [mergeC]
  | x :: l, y :: r => by
      rw [mergeC]
      by_cases h : key y < key x
      · rw [if_pos h]
        refine ((mergeC_perm key (x :: l) r).cons y).trans ?_
        exact List.perm_middle.symm
      · rw [if_neg h]
        exact (mergeC_perm key l (y :: r)).cons x
termination_by l r => l.length + r.length

theorem mergeC_sorted (key : α → Nat) :
    ∀ l r : List α, l.Pairwise (fun a b => key a ≤ key b) →
      r.Pairwise (fun a b => key a ≤ key b) →
      (mergeC key l r).Pairwise (fun a b => key a ≤ key b)
  | [], r, _, hr => by simpa [mergeC] using hr
  | x :: l, [], hl, _ => by simpa [mergeC] using hl
  | x :: l, y :: r, hl, hr => by
      rw [mergeC]
      rcases List.pairwise_cons.mp hl with ⟨hx, hl2⟩
      rcases List.pairwise_cons.mp hr with ⟨hy, hr2⟩
      by_cases h : key y < key x
      · rw [if_pos h]
        refine List.pairwise_cons.mpr ⟨?_, mergeC_sorted key (x :: l) r hl hr2⟩
        intro z hz
        rcases List.mem_append.mp ((mergeC_perm key (x :: l) r).mem_iff.mp hz)
          with hz2 | hz2
        · rcases List.mem_cons.mp hz2 with hz3 | hz3
          · rw [hz3]; omega
          · have := hx z hz3; omega
        · exact hy z hz2
      · rw [if_neg h]
        refine List.pairwise_cons.mpr ⟨?_, mergeC_sorted key l (y :: r) hl2 hr⟩
        intro z hz
        rcases List.mem_append.mp ((mergeC_perm key l (y :: r)).mem_iff.mp hz)
          with hz2 | hz2
        · exact hx z hz2
        · rcases List.mem_cons.mp hz2 with hz3 | hz3
          · rw [hz3]; omega
          · have := hy z hz3; omega
termination_by l r => l.length + r.length

theorem mergeC_filter (key : α → Nat) (k : Nat) :
    ∀ l r : List α, l.Pairwise (fun a b => key a ≤ key b) →
      r.Pairwise (fun a b => key a ≤ key b) →
      (mergeC key l r).filter (fun a => key a == k) =
        l.filter (fun a => key a == k) ++ r.filter (fun a => key a == k)
  | [], r, _, _ => by simp [mergeC]
  | x :: l, [], _, _ => by simp [mergeC]
  | x :: l, y :: r, hl, hr => by
      rw [mergeC]
      rcases List.pairwise_cons.mp hl with ⟨hx, hl2⟩
      rcases List.pairwise_cons.mp hr with ⟨hy, hr2⟩
      by_cases h : key y < key x
      · rw [if_pos h]
        rw [List.filter_cons, mergeC_filter key k (x :: l) r hl hr2]
        by_cases h2 : key y = k
        · have hnil : (x :: l).filter (fun a => key a == k) = [] := by
            rw [List.filter_eq_nil_iff]
            intro z hz
            simp only [beq_iff_eq]
            rcases List.mem_cons.mp hz with hz2 | hz2
            · subst hz2; omega
            · have := hx z hz2; omega
          simp [h2, hnil]
        · simp [h2]
      · rw [if_neg h]
        rw [List.filter_cons, mergeC_filter key k l (y :: r) hl2 hr]
        by_cases h2 : key x = k <;> simp [h2]
termination_by l r => l.length + r.length

end RadixSort

namespace RadixSort

variable {α : Type}

/-! ### Correctness of `fallback_sort` -/

theorem fallback_spec (key : α → Nat) :
    ∀ (src tmp : List α) (dest : Bool), tmp.length = src.length →
      (fallback_sort key src tmp dest).1.length = src.length ∧
      (fallback_sort key src tmp dest).2.length = src.length ∧
      sortedByKey key
        (if dest then (fallback_sort key src tmp dest).2
         else (fallback_sort key src tmp dest).1) ∧
      stableWrt key
        (if dest then (fallback_sort key src tmp dest).2
         else (fallback_sort key src tmp dest).1) src
  | src, tmp, dest => by
      intro hlen
      rw [fallback_sort]
      by_cases hn : src.length ≤ 18
      · rw [if_pos hn]
        cases dest <;>
          simp only [Bool.false_eq_true, if_false, if_true] <;>
          exact ⟨by simp [insertionSortC_length, hlen],
            by simp [insertionSortC_length, hlen],
            insertionSortC_sorted key src,
            fun k => insertionSortC_filter key src k⟩
      · rw [if_neg hn]
        have hlt1 : (src.take (src.length / 2)).length < src.length := by
          simp only [List.length_take]; omega
        have hlt2 : (src.drop (src.length / 2)).length < src.length := by
          simp only [List.length_drop]; omega
        have hIH1 := fallback_spec key (src.take (src.length / 2))
          (tmp.take (src.length / 2)) (!dest)
          (by simp only [List.length_take, hlen])
        have hIH2 := fallback_spec key (src.drop (src.length / 2))
          (tmp.drop (src.length / 2)) (!dest)
          (by simp only [List.length_drop, hlen])
        rcases hIH1 with ⟨hL11, hL12, hS1, hF1⟩
        rcases hIH2 with ⟨hL21, hL22, hS2, hF2⟩
        have hta : (src.take (src.length / 2)).length = src.length / 2 := by
          simp only [List.length_take]; omega
        have htd : (src.drop (src.length / 2)).length =
            src.length - src.length / 2 := by
          simp only [List.length_drop]
        cases dest
        · simp only [Bool.false_eq_true, if_false, Bool.not_false, if_true] at *
          have htake : ((fallback_sort key (src.take (src.length / 2))
                (tmp.take (src.length / 2)) true).2 ++
              (fallback_sort key (src.drop (src.length / 2))
                (tmp.drop (src.length / 2)) true).2).take (src.length / 2) =
              (fallback_sort key (src.take (src.length / 2))
                (tmp.take (src.length / 2)) true).2 :=
            List.take_left' (by rw [hL12, hta])
          have hdrop : ((fallback_sort key (src.take (src.length / 2))
                (tmp.take (src.length / 2)) true).2 ++
              (fallback_sort key (src.drop (src.length / 2))
                (tmp.drop (src.length / 2)) true).2).drop (src.length / 2) =
              (fallback_sort key (src.drop (src.length / 2))
                (tmp.drop (src.length / 2)) true).2 :=
            List.drop_left' (by rw [hL12, hta])
          simp only [htake, hdrop]
          have hmlen : (mergeC key
              (fallback_sort key (src.take (src.length / 2))
                (tmp.take (src.length / 2)) true).2
              (fallback_sort key (src.drop (src.length / 2))
                (tmp.drop (src.length / 2)) true).2).length =
              src.length := by
            rw [(mergeC_perm key _ _).length_eq, List.length_append, hL12, hL22,
              hta, htd]
            omega
          refine ⟨hmlen, ?_, mergeC_sorted key _ _ hS1 hS2, ?_⟩
          · rw [List.length_append, hL12, hL22, hta, htd]
            omega
          · intro k
            rw [mergeC_filter key k _ _ hS1 hS2, hF1 k, hF2 k,
              ← List.filter_append, List.take_append_drop]
        · simp only [if_true, Bool.not_true, Bool.false_eq_true, if_false] at *
          have htake : ((fallback_sort key (src.take (src.length / 2))
                (tmp.take (src.length / 2)) false).1 ++
              (fallback_sort key (src.drop (src.length / 2))
                (tmp.drop (src.length / 2)) false).1).take (src.length / 2) =
              (fallback_sort key (src.take (src.length / 2))
                (tmp.take (src.length / 2)) false).1 :=
            List.take_left' (by rw [hL11, hta])
          have hdrop : ((fallback_sort key (src.take (src.length / 2))
                (tmp.take (src.length / 2)) false).1 ++
              (fallback_sort key (src.drop (src.length / 2))
                (tmp.drop (src.length / 2)) false).1).drop (src.length / 2) =
              (fallback_sort key (src.drop (src.length / 2))
                (tmp.drop (src.length / 2)) false).1 :=
            List.drop_left' (by rw [hL11, hta])
          simp only [htake, hdrop]
          have hmlen : (mergeC key
              (fallback_sort key (src.take (src.length / 2))
                (tmp.take (src.length / 2)) false).1
              (fallback_sort key (src.drop (src.length / 2))
                (tmp.drop (src.length / 2)) false).1).length =
              src.length := by
            rw [(mergeC_perm key _ _).length_eq, List.length_append, hL11, hL21,
              hta, htd]
            omega
          refine ⟨?_, hmlen, mergeC_sorted key _ _ hS1 hS2, ?_⟩
          · rw [List.length_append, hL11, hL21, hta, htd]
            omega
          · intro k
            rw [mergeC_filter key k _ _ hS1 hS2, hF1 k, hF2 k,
              ← List.filter_append, List.take_append_drop]
termination_by src _ _ => src.length
decreasing_by
  all_goals simp only [List.length_take, List.length_drop]; omega

/-- Stability with respect to the input implies the permutation property. -/
theorem stableWrt_perm (key : α → Nat) (out inp : List α)
    (h : stableWrt key out inp) : List.Perm out inp := by
  classical
  rw [List.perm_iff_count]
  intro a
  have h1 : ∀ l : List α, List.count a l =
      List.count a (l.filter (fun x => key x == key a)) := by
    intro l
    rw [List.count_filter]
    simp
  rw [h1 out, h1 inp, h (key a)]

end RadixSort

namespace RadixSort

variable {α : Type}

/-! ### Key arithmetic for the MSD digit split -/

theorem key_mod_split (k O L : Nat) :
    k % 2 ^ (O + L) = k / 2 ^ O % 2 ^ L * 2 ^ O + k % 2 ^ O := by
  rw [pow_add, Nat.mod_mul]
  ring

theorem key_le_iff_of_high_eq {ka kb W : Nat} (h : ka / 2 ^ W = kb / 2 ^ W) :
    (ka ≤ kb ↔ ka % 2 ^ W ≤ kb % 2 ^ W) := by
  have h1 := Nat.div_add_mod ka (2 ^ W)
  have h2 := Nat.div_add_mod kb (2 ^ W)
  rw [← h] at h2
  omega

theorem key_div_split (k O L : Nat) :
    k / 2 ^ O = 2 ^ L * (k / 2 ^ (O + L)) + k / 2 ^ O % 2 ^ L := by
  have h1 := Nat.div_add_mod (k / 2 ^ O) (2 ^ L)
  rw [Nat.div_div_eq_div_mul, ← pow_add] at h1
  omega

/-- Digit order implies remaining-bits order: if two keys agree above `WIDTH`
bits and the digit (bits `[O, O+L)`, `O + L = WIDTH`) of `a` is smaller, then
`key a ≤ key b`. -/
theorem key_le_of_dig_lt {ka kb O L : Nat}
    (hh : ka / 2 ^ (O + L) = kb / 2 ^ (O + L))
    (hd : ka / 2 ^ O % 2 ^ L < kb / 2 ^ O % 2 ^ L) : ka ≤ kb := by
  rw [key_le_iff_of_high_eq hh]
  rw [key_mod_split ka O L, key_mod_split kb O L]
  have h1 : ka % 2 ^ O < 2 ^ O := Nat.mod_lt _ (Nat.two_pow_pos _)
  have h2 : (ka / 2 ^ O % 2 ^ L + 1) * 2 ^ O ≤ kb / 2 ^ O % 2 ^ L * 2 ^ O :=
    Nat.mul_le_mul_right _ hd
  have h3 : (ka / 2 ^ O % 2 ^ L + 1) * 2 ^ O =
      ka / 2 ^ O % 2 ^ L * 2 ^ O + 2 ^ O := by ring
  omega

/-- Equal digits and equal high bits propagate downward: the keys then also
agree above `O` bits (the recursion hypothesis of the MSD engines). -/
theorem key_high_propagate {ka kb O L : Nat}
    (hh : ka / 2 ^ (O + L) = kb / 2 ^ (O + L))
    (hd : ka / 2 ^ O % 2 ^ L = kb / 2 ^ O % 2 ^ L) :
    ka / 2 ^ O = kb / 2 ^ O := by
  rw [key_div_split ka O L, key_div_split kb O L, hh, hd]

/-- With `OFFSET = 0` (the last digit), equal digits and equal high bits make
the keys equal. -/
theorem key_eq_of_dig_eq {ka kb L : Nat}
    (hh : ka / 2 ^ L = kb / 2 ^ L) (hd : ka % 2 ^ L = kb % 2 ^ L) : ka = kb := by
  have h1 := Nat.div_add_mod ka (2 ^ L)
  have h2 := Nat.div_add_mod kb (2 ^ L)
  rw [← hh] at h2
  omega

theorem digitOf_eq_digitFn (key : α → Nat) (O L : Nat) :
    digitOf key O L = fun x => digitFn O L (key x) := rfl

theorem digitFn_eq_div_mod (O L v : Nat) :
    digitFn O L v = v / 2 ^ O % 2 ^ L := by
  simp [digitFn, Nat.shiftRight_eq_div_pow, Nat.and_pow_two_sub_one_eq_mod]

/-! ### The two-element conditional swap -/

theorem condSwap2_spec (key : α → Nat) [Inhabited α] (a b : α) :
    (condSwap2 key [a, b]).length = 2 ∧
    sortedByKey key (condSwap2 key [a, b]) ∧
    stableWrt key (condSwap2 key [a, b]) [a, b] := by
  unfold condSwap2
  simp only [List.getD_cons_succ, List.getD_cons_zero]
  by_cases h : key b < key a
  · rw [if_pos h]
    refine ⟨rfl, ?_, ?_⟩
    · unfold sortedByKey
      simp [List.pairwise_cons]
      omega
    · intro k
      by_cases h1 : key a = k <;> by_cases h2 : key b = k <;>
        simp [List.filter_cons, h1, h2] <;> omega
  · rw [if_neg h]
    refine ⟨rfl, ?_, ?_⟩
    · unfold sortedByKey
      simp [List.pairwise_cons]
      omega
    · intro k
      rfl

/-! ### `bucketed` as a mapped flatten -/

theorem bucketsFrom_eq_flatten (dig : α → Nat) (l : List α) :
    ∀ (k j : Nat), bucketsFrom dig l j k =
      ((List.range' j k).map (fun i => l.filter (fun x => dig x == i))).flatten
  | 0, j => rfl
  | k + 1, j => by
      rw [bucketsFrom, List.range'_succ, List.map_cons, List.flatten_cons,
        bucketsFrom_eq_flatten dig l k (j + 1)]

theorem bucketed_eq_flatten (dig : α → Nat) (l : List α) (SIZE : Nat) :
    bucketed dig l SIZE =
      ((List.range SIZE).map (fun i => l.filter (fun x => dig x == i))).flatten := by
  rw [bucketed, bucketsFrom_eq_flatten, List.range_eq_range']

/-! ### The degenerate-bucket check -/

theorem allInOneBucket_true_iff (c : Nat → Nat) (SIZE n : Nat) :
    allInOneBucket c SIZE n = true ↔
      ∃ j, j + 1 < SIZE ∧ c (j + 1) - c j = n := by
  unfold allInOneBucket
  rw [List.any_eq_true]
  constructor
  · rintro ⟨j, hj, hcj⟩
    rw [List.mem_range] at hj
    exact ⟨j, by omega, by simpa using hcj⟩
  · rintro ⟨j, hj, hcj⟩
    exact ⟨j, List.mem_range.mpr (by omega), by simpa using hcj⟩

/-- When the degenerate check fires on the counting pass of a range, every
element of the range has the digit value found by the check. -/
theorem allInOneBucket_all_eq (dig : α → Nat) (l : List α) (SIZE : Nat)
    (hd : ∀ x ∈ l, dig x < SIZE)
    (h : allInOneBucket (countingPass dig l SIZE) SIZE l.length = true) :
    ∃ j0, j0 + 1 < SIZE ∧ ∀ x ∈ l, dig x = j0 := by
  rcases (allInOneBucket_true_iff _ _ _).mp h with ⟨j0, hj0, hc⟩
  refine ⟨j0, hj0, ?_⟩
  rw [countingPass_eq_plainCdf dig l SIZE (by omega),
    countingPass_eq_plainCdf dig l SIZE (by omega), plainCdf_succ] at hc
  have hcnt : plainHist dig l j0 = l.length := by
    have := plainCdf_le_length dig l j0
    have := plainCdf_le_length dig l (j0 + 1)
    have h2 := plainCdf_succ dig l j0
    omega
  intro x hx
  have := List.countP_eq_length.mp hcnt x hx
  simpa using this

/-- When all elements share one digit value `j0`, the prefix-sum table is a
step function: `0` up to `j0`, the length afterwards. -/
theorem plainCdf_of_const (dig : α → Nat) (l : List α) (j0 : Nat)
    (hall : ∀ x ∈ l, dig x = j0) (j : Nat) :
    plainCdf dig l j = if j0 < j then l.length else 0 := by
  rw [plainCdf_eq_countP]
  by_cases h : j0 < j
  · rw [if_pos h, List.countP_eq_length]
    intro x hx
    simp [hall x hx, h]
  · rw [if_neg h]
    rw [List.countP_eq_zero]
    intro x hx
    simp [hall x hx]
    omega

end RadixSort

namespace RadixSort

variable {α : Type}

/-! ### The out-of-place MSD per-bucket loop -/

theorem msdBucketStep_spec (key : α → Nat) [Inhabited α]
    (recur : List α → List α → Bool → List α × List α) (dest1 : Bool)
    (dSeg sSeg : List α) (hlen : sSeg.length = dSeg.length)
    (hrec : 3 ≤ dSeg.length →
      (recur dSeg sSeg (!dest1)).1.length = dSeg.length ∧
      (recur dSeg sSeg (!dest1)).2.length = dSeg.length ∧
      sortedByKey key (if dest1 then (recur dSeg sSeg (!dest1)).1
        else (recur dSeg sSeg (!dest1)).2) ∧
      stableWrt key (if dest1 then (recur dSeg sSeg (!dest1)).1
        else (recur dSeg sSeg (!dest1)).2) dSeg) :
    (msdBucketStep key recur dest1 dSeg sSeg).1.length = dSeg.length ∧
    (msdBucketStep key recur dest1 dSeg sSeg).2.length = dSeg.length ∧
    sortedByKey key (if dest1 then (msdBucketStep key recur dest1 dSeg sSeg).2
      else (msdBucketStep key recur dest1 dSeg sSeg).1) ∧
    stableWrt key (if dest1 then (msdBucketStep key recur dest1 dSeg sSeg).2
      else (msdBucketStep key recur dest1 dSeg sSeg).1) dSeg := by
  unfold msdBucketStep
  by_cases h0 : dSeg.length = 0
  · rw [if_pos h0]
    have hd0 : dSeg = [] := List.length_eq_zero.mp h0
    have hs0 : sSeg = [] := List.length_eq_zero.mp (by omega)
    subst hd0
    subst hs0
    cases dest1 <;> exact ⟨rfl, rfl, List.Pairwise.nil, fun k => rfl⟩
  · rw [if_neg h0]
    by_cases h1 : dSeg.length = 1
    · rw [if_pos h1]
      rcases List.length_eq_one.mp h1 with ⟨a, ha⟩
      cases dest1
      · refine ⟨rfl, rfl, ?_, fun k => rfl⟩
        show sortedByKey key dSeg
        rw [ha]
        exact List.pairwise_singleton _ _
      · refine ⟨hlen, rfl, ?_, fun k => rfl⟩
        show sortedByKey key dSeg
        rw [ha]
        exact List.pairwise_singleton _ _
    · rw [if_neg h1]
      by_cases h2 : dSeg.length = 2
      · rw [if_pos h2]
        rcases List.length_eq_two.mp h2 with ⟨a, b, hab⟩
        subst hab
        rcases condSwap2_spec key a b with ⟨hc1, hc2, hc3⟩
        cases dest1
        · exact ⟨hc1, rfl, hc2, hc3⟩
        · exact ⟨hlen, hc1, hc2, hc3⟩
      · rw [if_neg h2]
        have h3 : 3 ≤ dSeg.length := by omega
        rcases hrec h3 with ⟨hr1, hr2, hr3, hr4⟩
        cases dest1
        · exact ⟨hr2, hr1, hr3, hr4⟩
        · exact ⟨hr2, hr1, hr3, hr4⟩

theorem msdBucketPhase_spec (key : α → Nat) [Inhabited α]
    (recur : List α → List α → Bool → List α × List α) (SIZE : Nat)
    (s1 d1 : List α) (c2 : Nat → Nat) (dest1 : Bool) (F : Nat → List α)
    (hsegd : ∀ j, j < SIZE → segOf d1 c2 j = F j)
    (hsegs : ∀ j, j < SIZE → (segOf s1 c2 j).length = (F j).length)
    (htails : s1.drop (c2 (SIZE - 1)) = [])
    (htaild : d1.drop (c2 (SIZE - 1)) = [])
    (hrec : ∀ j, j < SIZE → 3 ≤ (F j).length →
      (recur (F j) (segOf s1 c2 j) (!dest1)).1.length = (F j).length ∧
      (recur (F j) (segOf s1 c2 j) (!dest1)).2.length = (F j).length ∧
      sortedByKey key (if dest1 then (recur (F j) (segOf s1 c2 j) (!dest1)).1
        else (recur (F j) (segOf s1 c2 j) (!dest1)).2) ∧
      stableWrt key (if dest1 then (recur (F j) (segOf s1 c2 j) (!dest1)).1
        else (recur (F j) (segOf s1 c2 j) (!dest1)).2) (F j))
    (hcross : ∀ j j', j < j' → j' < SIZE → ∀ a ∈ F j, ∀ b ∈ F j',
      key a ≤ key b) :
    (msdBucketPhase key recur SIZE s1 d1 c2 dest1).1.length =
      ((List.range SIZE).map F).flatten.length ∧
    (msdBucketPhase key recur SIZE s1 d1 c2 dest1).2.length =
      ((List.range SIZE).map F).flatten.length ∧
    sortedByKey key
      (if dest1 then (msdBucketPhase key recur SIZE s1 d1 c2 dest1).2
       else (msdBucketPhase key recur SIZE s1 d1 c2 dest1).1) ∧
    stableWrt key
      (if dest1 then (msdBucketPhase key recur SIZE s1 d1 c2 dest1).2
       else (msdBucketPhase key recur SIZE s1 d1 c2 dest1).1)
      ((List.range SIZE).map F).flatten := by
  have hstep : ∀ j, j < SIZE →
      (msdBucketStep key recur dest1 (F j) (segOf s1 c2 j)).1.length =
        (F j).length ∧
      (msdBucketStep key recur dest1 (F j) (segOf s1 c2 j)).2.length =
        (F j).length ∧
      sortedByKey key
        (if dest1 then (msdBucketStep key recur dest1 (F j) (segOf s1 c2 j)).2
         else (msdBucketStep key recur dest1 (F j) (segOf s1 c2 j)).1) ∧
      stableWrt key
        (if dest1 then (msdBucketStep key recur dest1 (F j) (segOf s1 c2 j)).2
         else (msdBucketStep key recur dest1 (F j) (segOf s1 c2 j)).1)
        (F j) := by
    intro j hj
    exact msdBucketStep_spec key recur dest1 (F j) (segOf s1 c2 j)
      (hsegs j hj) (hrec j hj)
  have hparts : (List.range SIZE).map
      (fun j => msdBucketStep key recur dest1 (segOf d1 c2 j) (segOf s1 c2 j)) =
      (List.range SIZE).map
        (fun j => msdBucketStep key recur dest1 (F j) (segOf s1 c2 j)) := by
    apply List.map_congr_left
    intro j hj
    rw [hsegd j (List.mem_range.mp hj)]
  have hP : msdBucketPhase key recur SIZE s1 d1 c2 dest1 =
      (((List.range SIZE).map
        (fun j => (msdBucketStep key recur dest1 (F j) (segOf s1 c2 j)).1)).flatten,
       ((List.range SIZE).map
        (fun j => (msdBucketStep key recur dest1 (F j) (segOf s1 c2 j)).2)).flatten) := by
    unfold msdBucketPhase
    simp only [hparts, htails, htaild, List.append_nil, List.map_map]
    rfl
  have hlen1 : ∀ pick : (List α × List α) → List α,
      (∀ j, j < SIZE →
        (pick (msdBucketStep key recur dest1 (F j) (segOf s1 c2 j))).length =
          (F j).length) →
      (((List.range SIZE).map
        (fun j => pick (msdBucketStep key recur dest1 (F j) (segOf s1 c2 j)))).flatten).length =
        ((List.range SIZE).map F).flatten.length := by
    intro pick hpick
    rw [List.length_flatten, List.length_flatten, List.map_map, List.map_map]
    congr 1
    apply List.map_congr_left
    intro j hj
    exact hpick j (List.mem_range.mp hj)
  have hpick2 : (if dest1 then (msdBucketPhase key recur SIZE s1 d1 c2 dest1).2
      else (msdBucketPhase key recur SIZE s1 d1 c2 dest1).1) =
      ((List.range SIZE).map (fun j =>
        if dest1 then (msdBucketStep key recur dest1 (F j) (segOf s1 c2 j)).2
        else (msdBucketStep key recur dest1 (F j) (segOf s1 c2 j)).1)).flatten := by
    rw [hP]
    cases dest1 <;> simp
  refine ⟨?_, ?_, ?_, ?_⟩
  · rw [hP]
    exact hlen1 Prod.fst (fun j hj => (hstep j hj).1)
  · rw [hP]
    exact hlen1 Prod.snd (fun j hj => (hstep j hj).2.1)
  · rw [hpick2]
    apply List.pairwise_flatten.mpr
    constructor
    · intro l hl
      rcases List.mem_map.mp hl with ⟨j, hjr, rfl⟩
      exact (hstep j (List.mem_range.mp hjr)).2.2.1
    · refine List.pairwise_map.mpr ?_
      refine List.Pairwise.imp_of_mem ?_ (List.pairwise_lt_range SIZE)
      intro j j' hj hj' hjj a ha b hb
      have hj'S := List.mem_range.mp hj'
      have haF : a ∈ F j :=
        (stableWrt_perm key _ _ (hstep j (by omega)).2.2.2).mem_iff.mp ha
      have hbF : b ∈ F j' :=
        (stableWrt_perm key _ _ (hstep j' hj'S).2.2.2).mem_iff.mp hb
      exact hcross j j' hjj hj'S a haF b hbF
  · intro k
    rw [hpick2, List.filter_flatten, List.filter_flatten, List.map_map,
      List.map_map]
    congr 1
    apply List.map_congr_left
    intro j hj
    exact (hstep j (List.mem_range.mp hj)).2.2.2 k

end RadixSort

namespace RadixSort

variable {α : Type}

/-- Sortedness of the stable partition, from within-bucket and cross-bucket
key comparisons. -/
theorem bucketed_sorted (key : α → Nat) (dig : α → Nat) (l : List α)
    (SIZE : Nat)
    (hwithin : ∀ a ∈ l, ∀ b ∈ l, dig a = dig b → key a ≤ key b)
    (hacross : ∀ a ∈ l, ∀ b ∈ l, dig a < dig b → key a ≤ key b) :
    sortedByKey key (bucketed dig l SIZE) := by
  rw [bucketed_eq_flatten]
  apply List.pairwise_flatten.mpr
  constructor
  · intro seg hseg
    rcases List.mem_map.mp hseg with ⟨j, _, rfl⟩
    apply List.pairwise_of_forall_mem_list
    intro a ha b hb
    rcases List.mem_filter.mp ha with ⟨ha1, ha2⟩
    rcases List.mem_filter.mp hb with ⟨hb1, hb2⟩
    simp only [beq_iff_eq] at ha2 hb2
    exact hwithin a ha1 b hb1 (by omega)
  · refine List.pairwise_map.mpr ?_
    refine List.Pairwise.imp_of_mem ?_ (List.pairwise_lt_range SIZE)
    intro j j' _ _ hjj a ha b hb
    rcases List.mem_filter.mp ha with ⟨ha1, ha2⟩
    rcases List.mem_filter.mp hb with ⟨hb1, hb2⟩
    simp only [beq_iff_eq] at ha2 hb2
    exact hacross a ha1 b hb1 (by omega)

end RadixSort

namespace RadixSort

variable {α : Type}

set_option maxHeartbeats 1000000 in
theorem msdPass_spec (key : α → Nat) [Inhabited α] (L OFF : Nat)
    (recur : 0 < OFF → List α → List α → Bool → List α × List α)
    (src dst : List α) (dest : Bool)
    (hsh : ∀ x ∈ src, ∀ y ∈ src, key x / 2 ^ (OFF + L) = key y / 2 ^ (OFF + L))
    (hlen : dst.length = src.length)
    (hrecspec : ∀ (hOF : 0 < OFF) (sg sc : List α) (b : Bool),
      (∀ x ∈ sg, ∀ y ∈ sg, key x / 2 ^ OFF = key y / 2 ^ OFF) →
      sc.length = sg.length →
      (recur hOF sg sc b).1.length = sg.length ∧
      (recur hOF sg sc b).2.length = sg.length ∧
      sortedByKey key
        (if b then (recur hOF sg sc b).2 else (recur hOF sg sc b).1) ∧
      stableWrt key
        (if b then (recur hOF sg sc b).2 else (recur hOF sg sc b).1) sg) :
    (msdPass key L OFF recur src dst dest).1.length = src.length ∧
    (msdPass key L OFF recur src dst dest).2.length = src.length ∧
    sortedByKey key (if dest then (msdPass key L OFF recur src dst dest).2
      else (msdPass key L OFF recur src dst dest).1) ∧
    stableWrt key (if dest then (msdPass key L OFF recur src dst dest).2
      else (msdPass key L OFF recur src dst dest).1) src := by
  have hdig : ∀ x ∈ src, digitOf key OFF L x < 2 ^ L :=
    fun x _ => digitOf_lt key OFF L x
  have hc1 : ∀ j, j < 2 ^ L →
      countingPass (digitOf key OFF L) src (2 ^ L) j =
        plainCdf (digitOf key OFF L) src j :=
    fun j hj => countingPass_eq_plainCdf _ src _ hj
  have hS1 : 1 ≤ 2 ^ L := Nat.one_le_two_pow
  have hacross : ∀ a ∈ src, ∀ b ∈ src,
      digitOf key OFF L a < digitOf key OFF L b → key a ≤ key b := by
    intro a ha b hb hd
    rw [digitOf_eq_div_mod, digitOf_eq_div_mod] at hd
    exact key_le_of_dig_lt (hsh a ha b hb) hd
  have hprop : ∀ a ∈ src, ∀ b ∈ src,
      digitOf key OFF L a = digitOf key OFF L b →
      key a / 2 ^ OFF = key b / 2 ^ OFF := by
    intro a ha b hb hd
    rw [digitOf_eq_div_mod, digitOf_eq_div_mod] at hd
    exact key_high_propagate (hsh a ha b hb) hd
  by_cases hskip : allInOneBucket (countingPass (digitOf key OFF L) src (2 ^ L))
      (2 ^ L) src.length = true
  · -- degenerate path: buffer roles swapped, no scatter
    rcases allInOneBucket_all_eq _ src _ hdig hskip with ⟨j0, hj0S, hall⟩
    have hstart : ∀ j, plainCdf (digitOf key OFF L) src j =
        if j0 < j then src.length else 0 :=
      plainCdf_of_const _ src j0 hall
    have hc1v : ∀ j, j < 2 ^ L →
        countingPass (digitOf key OFF L) src (2 ^ L) j =
          if j0 < j then src.length else 0 := by
      intro j hj
      rw [hc1 j hj, hstart j]
    by_cases hOF : 0 < OFF
    · -- recurse on the single full bucket (shifted segmentation)
      have hpass : msdPass key L OFF recur src dst dest =
          ((msdBucketPhase key (recur hOF) (2 ^ L) dst src
              (countingPass (digitOf key OFF L) src (2 ^ L)) (!dest)).2,
           (msdBucketPhase key (recur hOF) (2 ^ L) dst src
              (countingPass (digitOf key OFF L) src (2 ^ L)) (!dest)).1) := by
        unfold msdPass
        simp only [hskip, if_true, dif_pos hOF]
        rw [if_neg (fun h => absurd h.1 (by omega : ¬ OFF = 0))]
      have hF : ∀ j, src.filter (fun x => (digitOf key OFF L x + 1) == j) =
          if j = j0 + 1 then src else [] := by
        intro j
        by_cases hj : j = j0 + 1
        · rw [if_pos hj]
          apply List.filter_eq_self.mpr
          intro x hx
          simp [hall x hx, hj]
        · rw [if_neg hj]
          apply List.filter_eq_nil_iff.mpr
          intro x hx
          simp [hall x hx]
          omega
      have hsegd : ∀ j, j < 2 ^ L →
          segOf src (countingPass (digitOf key OFF L) src (2 ^ L)) j =
            src.filter (fun x => (digitOf key OFF L x + 1) == j) := by
        intro j hj
        rw [hF j]
        unfold segOf prevB
        by_cases hj0 : j = 0
        · subst hj0
          rw [if_pos rfl, hc1v 0 hj, if_neg (by omega), if_neg (by omega)]
          simp
        · rw [if_neg hj0, hc1v j hj, hc1v (j - 1) (by omega)]
          by_cases hjle : j ≤ j0
          · rw [if_neg (by omega : ¬ j0 < j - 1), if_neg (by omega : ¬ j0 < j),
              if_neg (by omega : ¬ j = j0 + 1)]
            simp
          · by_cases hje : j = j0 + 1
            · rw [if_neg (by omega : ¬ j0 < j - 1), if_pos (by omega : j0 < j),
                if_pos hje]
              simp
            · rw [if_pos (by omega : j0 < j - 1), if_pos (by omega : j0 < j),
                if_neg hje]
              rw [List.take_of_length_le (Nat.le_refl _)]
              exact List.drop_eq_nil_iff.mpr (Nat.le_refl _)
      have hsegs : ∀ j, j < 2 ^ L →
          (segOf dst (countingPass (digitOf key OFF L) src (2 ^ L)) j).length =
            (src.filter (fun x => (digitOf key OFF L x + 1) == j)).length := by
        intro j hj
        rw [hF j]
        unfold segOf prevB
        simp only [List.length_drop, List.length_take, hlen]
        by_cases hj0 : j = 0
        · subst hj0
          rw [if_pos rfl, hc1v 0 hj, if_neg (by omega), if_neg (by omega)]
          simp
        · rw [if_neg hj0, hc1v j hj, hc1v (j - 1) (by omega)]
          by_cases hjle : j ≤ j0
          · rw [if_neg (by omega : ¬ j0 < j - 1), if_neg (by omega : ¬ j0 < j),
              if_neg (by omega : ¬ j = j0 + 1)]
            simp
          · by_cases hje : j = j0 + 1
            · rw [if_neg (by omega : ¬ j0 < j - 1), if_pos (by omega : j0 < j),
                if_pos hje]
              simp
            · rw [if_pos (by omega : j0 < j - 1), if_pos (by omega : j0 < j),
                if_neg hje]
              simp
      have htails : dst.drop ((countingPass (digitOf key OFF L) src (2 ^ L))
          (2 ^ L - 1)) = [] := by
        rw [hc1v (2 ^ L - 1) (by omega), if_pos (by omega)]
        exact List.drop_eq_nil_iff.mpr (by omega)
      have htaild : src.drop ((countingPass (digitOf key OFF L) src (2 ^ L))
          (2 ^ L - 1)) = [] := by
        rw [hc1v (2 ^ L - 1) (by omega), if_pos (by omega)]
        exact List.drop_eq_nil_iff.mpr (Nat.le_refl _)
      have hrec2 : ∀ j, j < 2 ^ L →
          3 ≤ (src.filter (fun x => (digitOf key OFF L x + 1) == j)).length →
          ((recur hOF) (src.filter (fun x => (digitOf key OFF L x + 1) == j))
            (segOf dst (countingPass (digitOf key OFF L) src (2 ^ L)) j)
            (!(!dest))).1.length =
            (src.filter (fun x => (digitOf key OFF L x + 1) == j)).length ∧
          ((recur hOF) (src.filter (fun x => (digitOf key OFF L x + 1) == j))
            (segOf dst (countingPass (digitOf key OFF L) src (2 ^ L)) j)
            (!(!dest))).2.length =
            (src.filter (fun x => (digitOf key OFF L x + 1) == j)).length ∧
          sortedByKey key
            (if (!dest) then ((recur hOF) (src.filter (fun x => (digitOf key OFF L x + 1) == j))
              (segOf dst (countingPass (digitOf key OFF L) src (2 ^ L)) j)
              (!(!dest))).1
             else ((recur hOF) (src.filter (fun x => (digitOf key OFF L x + 1) == j))
              (segOf dst (countingPass (digitOf key OFF L) src (2 ^ L)) j)
              (!(!dest))).2) ∧
          stableWrt key
            (if (!dest) then ((recur hOF) (src.filter (fun x => (digitOf key OFF L x + 1) == j))
              (segOf dst (countingPass (digitOf key OFF L) src (2 ^ L)) j)
              (!(!dest))).1
             else ((recur hOF) (src.filter (fun x => (digitOf key OFF L x + 1) == j))
              (segOf dst (countingPass (digitOf key OFF L) src (2 ^ L)) j)
              (!(!dest))).2)
            (src.filter (fun x => (digitOf key OFF L x + 1) == j)) := by
        intro j hj h3
        by_cases hje : j = j0 + 1
        · have hFs : src.filter (fun x => (digitOf key OFF L x + 1) == j) = src := by
            rw [hF j, if_pos hje]
          have hlen2 : (segOf dst (countingPass (digitOf key OFF L) src (2 ^ L)) j).length =
              src.length := by
            rw [hsegs j hj, hFs]
          rw [hFs]
          have hr := hrecspec hOF src
            (segOf dst (countingPass (digitOf key OFF L) src (2 ^ L)) j) (!(!dest))
            (fun x hx y hy => hprop x hx y hy (by rw [hall x hx, hall y hy])) hlen2
          cases dest <;> simpa using hr
        · rw [hF j, if_neg hje] at h3
          simp at h3
      have hcross : ∀ j j', j < j' → j' < 2 ^ L →
          ∀ a ∈ src.filter (fun x => (digitOf key OFF L x + 1) == j),
          ∀ b ∈ src.filter (fun x => (digitOf key OFF L x + 1) == j'),
          key a ≤ key b := by
        intro j j' hjj hj'S a ha b hb
        by_cases h1 : j = j0 + 1
        · rw [hF j', if_neg (by omega)] at hb
          simp at hb
        · rw [hF j, if_neg h1] at ha
          simp at ha
      have hphase := msdBucketPhase_spec key (recur hOF) (2 ^ L) dst src
        (countingPass (digitOf key OFF L) src (2 ^ L)) (!dest)
        (fun j => src.filter (fun x => (digitOf key OFF L x + 1) == j))
        hsegd hsegs htails htaild hrec2 hcross
      rcases hphase with ⟨ph1, ph2, ph3, ph4⟩
      have hflateq : ((List.range (2 ^ L)).map
          (fun j => src.filter (fun x => (digitOf key OFF L x + 1) == j))).flatten =
          bucketed (fun x => digitOf key OFF L x + 1) src (2 ^ L) :=
        (bucketed_eq_flatten _ src _).symm
      have hdig1 : ∀ x ∈ src, digitOf key OFF L x + 1 < 2 ^ L := by
        intro x hx
        rw [hall x hx]
        omega
      have hflen : ((List.range (2 ^ L)).map
          (fun j => src.filter (fun x => (digitOf key OFF L x + 1) == j))).flatten.length =
          src.length := by
        rw [hflateq, bucketed_length, plainCdf_total _ _ hdig1]
      rw [hpass]
      refine ⟨by rw [ph2, hflen], by rw [ph1, hflen], ?_, ?_⟩
      · cases dest
        · simpa using ph3
        · simpa using ph3
      · intro k
        have hbf : (bucketed (fun x => digitOf key OFF L x + 1) src (2 ^ L)).filter
            (fun x => key x == k) = src.filter (fun x => key x == k) :=
          bucketed_filter_key key (fun v => digitFn OFF L v + 1) src (2 ^ L) hdig1 k
        have hstep : ∀ out : List α, stableWrt key out
            (((List.range (2 ^ L)).map
              (fun j => src.filter (fun x => (digitOf key OFF L x + 1) == j))).flatten) →
            out.filter (fun x => key x == k) = src.filter (fun x => key x == k) := by
          intro out hst
          rw [hst k, hflateq]
          exact hbf
        cases dest
        · exact hstep _ (by simpa using ph4)
        · exact hstep _ (by simpa using ph4)
    · -- OFFSET = 0 with a degenerate bucket: all keys are equal
      have hOF0 : OFF = 0 := by omega
      have hkeq : ∀ a ∈ src, ∀ b ∈ src, key a = key b := by
        intro a ha b hb
        have hda := hall a ha
        have hdb := hall b hb
        rw [digitOf_eq_div_mod, hOF0, Nat.pow_zero, Nat.div_one] at hda hdb
        have hh := hsh a ha b hb
        rw [hOF0, Nat.zero_add] at hh
        exact key_eq_of_dig_eq hh (by omega)
      have hsort : sortedByKey key src :=
        List.pairwise_of_forall_mem_list
          (fun a ha b hb => Nat.le_of_eq (hkeq a ha b hb))
      cases dest
      · have hpass : msdPass key L OFF recur src dst false = (src, dst) := by
          unfold msdPass
          simp only [hskip, if_true, dif_neg hOF]
          rw [if_neg (fun h => Bool.noConfusion h.2)]
        rw [hpass]
        exact ⟨rfl, hlen, hsort, fun k => rfl⟩
      · have hpass : msdPass key L OFF recur src dst true = (src, src) := by
          unfold msdPass
          simp only [hskip, if_true, dif_neg hOF]
          rw [if_pos ⟨hOF0, rfl⟩]
        rw [hpass]
        exact ⟨rfl, rfl, hsort, fun k => rfl⟩
  · -- scatter path
    have hskipF : allInOneBucket (countingPass (digitOf key OFF L) src (2 ^ L))
        (2 ^ L) src.length = false := by
      revert hskip
      cases allInOneBucket (countingPass (digitOf key OFF L) src (2 ^ L))
          (2 ^ L) src.length <;> simp
    have hsc := scatter_spec (digitOf key OFF L) (2 ^ L) src dst
      (countingPass (digitOf key OFF L) src (2 ^ L)) hdig hlen hc1
    have hsclen : (scatter (digitOf key OFF L) src dst
        (countingPass (digitOf key OFF L) src (2 ^ L))).1.length = src.length := by
      rw [hsc.1, bucketed_length, plainCdf_total _ _ hdig]
    by_cases hOF : 0 < OFF
    · -- scatter then per-bucket recursion
      have hpass : msdPass key L OFF recur src dst dest =
          msdBucketPhase key (recur hOF) (2 ^ L) src
            (scatter (digitOf key OFF L) src dst
              (countingPass (digitOf key OFF L) src (2 ^ L))).1
            (scatter (digitOf key OFF L) src dst
              (countingPass (digitOf key OFF L) src (2 ^ L))).2 dest := by
        unfold msdPass
        simp only [hskipF, Bool.false_eq_true, if_false, dif_pos hOF]
        rw [if_neg (fun h => absurd h.1 (by omega : ¬ OFF = 0))]
      have hsegd : ∀ j, j < 2 ^ L →
          segOf (scatter (digitOf key OFF L) src dst
              (countingPass (digitOf key OFF L) src (2 ^ L))).1
            (scatter (digitOf key OFF L) src dst
              (countingPass (digitOf key OFF L) src (2 ^ L))).2 j =
            src.filter (fun x => digitOf key OFF L x == j) := by
        intro j hj
        unfold segOf prevB
        rw [hsc.1, hsc.2 j hj]
        by_cases hj0 : j = 0
        · subst hj0
          rw [if_pos rfl]
          exact bucketed_seg _ src hj
        · rw [if_neg hj0, hsc.2 (j - 1) (by omega),
            (by omega : j - 1 + 1 = j)]
          exact bucketed_seg _ src hj
      have hsegs : ∀ j, j < 2 ^ L →
          (segOf src (scatter (digitOf key OFF L) src dst
              (countingPass (digitOf key OFF L) src (2 ^ L))).2 j).length =
            (src.filter (fun x => digitOf key OFF L x == j)).length := by
        intro j hj
        unfold segOf prevB
        simp only [List.length_drop, List.length_take]
        rw [← plainHist_eq_length_filter, hsc.2 j hj]
        have hcd1 : plainCdf (digitOf key OFF L) src (j + 1) ≤ src.length :=
          plainCdf_le_length _ _ _
        have hcds := plainCdf_succ (digitOf key OFF L) src j
        by_cases hj0 : j = 0
        · subst hj0
          rw [if_pos rfl]
          have h0 : plainCdf (digitOf key OFF L) src 0 = 0 := rfl
          omega
        · rw [if_neg hj0, hsc.2 (j - 1) (by omega),
            (by omega : j - 1 + 1 = j)]
          have hmono := plainCdf_mono (digitOf key OFF L) src
            (Nat.le_succ j)
          omega
      have htails : src.drop ((scatter (digitOf key OFF L) src dst
          (countingPass (digitOf key OFF L) src (2 ^ L))).2 (2 ^ L - 1)) = [] := by
        rw [hsc.2 (2 ^ L - 1) (by omega), (by omega : 2 ^ L - 1 + 1 = 2 ^ L),
          plainCdf_total _ _ hdig]
        exact List.drop_eq_nil_iff.mpr (Nat.le_refl _)
      have htaild : (scatter (digitOf key OFF L) src dst
          (countingPass (digitOf key OFF L) src (2 ^ L))).1.drop
            ((scatter (digitOf key OFF L) src dst
              (countingPass (digitOf key OFF L) src (2 ^ L))).2 (2 ^ L - 1)) = [] := by
        rw [hsc.2 (2 ^ L - 1) (by omega), (by omega : 2 ^ L - 1 + 1 = 2 ^ L),
          plainCdf_total _ _ hdig]
        exact List.drop_eq_nil_iff.mpr (by omega)
      have hrec2 : ∀ j, j < 2 ^ L →
          3 ≤ (src.filter (fun x => digitOf key OFF L x == j)).length →
          ((recur hOF) (src.filter (fun x => digitOf key OFF L x == j))
            (segOf src (scatter (digitOf key OFF L) src dst
              (countingPass (digitOf key OFF L) src (2 ^ L))).2 j)
            (!dest)).1.length =
            (src.filter (fun x => digitOf key OFF L x == j)).length ∧
          ((recur hOF) (src.filter (fun x => digitOf key OFF L x == j))
            (segOf src (scatter (digitOf key OFF L) src dst
              (countingPass (digitOf key OFF L) src (2 ^ L))).2 j)
            (!dest)).2.length =
            (src.filter (fun x => digitOf key OFF L x == j)).length ∧
          sortedByKey key
            (if dest then ((recur hOF) (src.filter (fun x => digitOf key OFF L x == j))
              (segOf src (scatter (digitOf key OFF L) src dst
                (countingPass (digitOf key OFF L) src (2 ^ L))).2 j)
              (!dest)).1
             else ((recur hOF) (src.filter (fun x => digitOf key OFF L x == j))
              (segOf src (scatter (digitOf key OFF L) src dst
                (countingPass (digitOf key OFF L) src (2 ^ L))).2 j)
              (!dest)).2) ∧
          stableWrt key
            (if dest then ((recur hOF) (src.filter (fun x => digitOf key OFF L x == j))
              (segOf src (scatter (digitOf key OFF L) src dst
                (countingPass (digitOf key OFF L) src (2 ^ L))).2 j)
              (!dest)).1
             else ((recur hOF) (src.filter (fun x => digitOf key OFF L x == j))
              (segOf src (scatter (digitOf key OFF L) src dst
                (countingPass (digitOf key OFF L) src (2 ^ L))).2 j)
              (!dest)).2)
            (src.filter (fun x => digitOf key OFF L x == j)) := by
        intro j hj h3
        have hsub : ∀ x ∈ src.filter (fun x => digitOf key OFF L x == j),
            ∀ y ∈ src.filter (fun x => digitOf key OFF L x == j),
            key x / 2 ^ OFF = key y / 2 ^ OFF := by
          intro x hx y hy
          rcases List.mem_filter.mp hx with ⟨hx1, hx2⟩
          rcases List.mem_filter.mp hy with ⟨hy1, hy2⟩
          simp only [beq_iff_eq] at hx2 hy2
          exact hprop x hx1 y hy1 (by omega)
        have hr := hrecspec hOF (src.filter (fun x => digitOf key OFF L x == j))
          (segOf src (scatter (digitOf key OFF L) src dst
            (countingPass (digitOf key OFF L) src (2 ^ L))).2 j)
          (!dest) hsub (hsegs j hj)
        cases dest <;> simpa using hr
      have hcross : ∀ j j', j < j' → j' < 2 ^ L →
          ∀ a ∈ src.filter (fun x => digitOf key OFF L x == j),
          ∀ b ∈ src.filter (fun x => digitOf key OFF L x == j'),
          key a ≤ key b := by
        intro j j' hjj hj'S a ha b hb
        rcases List.mem_filter.mp ha with ⟨ha1, ha2⟩
        rcases List.mem_filter.mp hb with ⟨hb1, hb2⟩
        simp only [beq_iff_eq] at ha2 hb2
        exact hacross a ha1 b hb1 (by omega)
      have hphase := msdBucketPhase_spec key (recur hOF) (2 ^ L) src
        (scatter (digitOf key OFF L) src dst
          (countingPass (digitOf key OFF L) src (2 ^ L))).1
        (scatter (digitOf key OFF L) src dst
          (countingPass (digitOf key OFF L) src (2 ^ L))).2 dest
        (fun j => src.filter (fun x => digitOf key OFF L x == j))
        hsegd hsegs htails htaild hrec2 hcross
      rcases hphase with ⟨ph1, ph2, ph3, ph4⟩
      have hflateq : ((List.range (2 ^ L)).map
          (fun j => src.filter (fun x => digitOf key OFF L x == j))).flatten =
          bucketed (digitOf key OFF L) src (2 ^ L) :=
        (bucketed_eq_flatten _ src _).symm
      have hflen : ((List.range (2 ^ L)).map
          (fun j => src.filter (fun x => digitOf key OFF L x == j))).flatten.length =
          src.length := by
        rw [hflateq, bucketed_length, plainCdf_total _ _ hdig]
      rw [hpass]
      refine ⟨by rw [ph1, hflen], by rw [ph2, hflen], ph3, ?_⟩
      · intro k
        rw [ph4 k, hflateq]
        exact bucketed_filter_key key (digitFn OFF L) src (2 ^ L) hdig k
    · -- OFFSET = 0, scatter only: the result is the stable partition itself
      have hOF0 : OFF = 0 := by omega
      have hwithin : ∀ a ∈ src, ∀ b ∈ src,
          digitOf key OFF L a = digitOf key OFF L b → key a ≤ key b := by
        intro a ha b hb hd
        rw [digitOf_eq_div_mod, digitOf_eq_div_mod, hOF0, Nat.pow_zero,
          Nat.div_one, Nat.div_one] at hd
        have hh := hsh a ha b hb
        rw [hOF0, Nat.zero_add] at hh
        exact Nat.le_of_eq (key_eq_of_dig_eq hh hd)
      have hsort : sortedByKey key (bucketed (digitOf key OFF L) src (2 ^ L)) :=
        bucketed_sorted key _ src _ hwithin hacross
      have hstab : stableWrt key (bucketed (digitOf key OFF L) src (2 ^ L)) src :=
        fun k => bucketed_filter_key key (digitFn OFF L) src (2 ^ L) hdig k
      have hblen : (bucketed (digitOf key OFF L) src (2 ^ L)).length = src.length := by
        rw [bucketed_length, plainCdf_total _ _ hdig]
      cases dest
      · have hpass : msdPass key L OFF recur src dst false =
            ((scatter (digitOf key OFF L) src dst
                (countingPass (digitOf key OFF L) src (2 ^ L))).1,
             (scatter (digitOf key OFF L) src dst
                (countingPass (digitOf key OFF L) src (2 ^ L))).1) := by
          unfold msdPass
          simp only [hskipF, Bool.false_eq_true, if_false, dif_neg hOF]
          rw [if_pos ⟨hOF0, by simp⟩]
        rw [hpass]
        refine ⟨hsclen, hsclen, ?_, ?_⟩
        · rw [hsc.1]
          exact hsort
        · rw [hsc.1]
          exact hstab
      · have hpass : msdPass key L OFF recur src dst true =
            (src, (scatter (digitOf key OFF L) src dst
                (countingPass (digitOf key OFF L) src (2 ^ L))).1) := by
          unfold msdPass
          simp only [hskipF, Bool.false_eq_true, if_false, dif_neg hOF]
          rw [if_neg (by simp)]
        rw [hpass]
        refine ⟨rfl, hsclen, ?_, ?_⟩
        · rw [hsc.1]
          exact hsort
        · rw [hsc.1]
          exact hstab

/-- Full correctness of the out-of-place MSD engine, by induction on the
remaining key width: whenever all elements agree on the key bits at `WIDTH`
and above, both buffers keep their length and the buffer selected by
`destination` holds a sorted, stable rearrangement of the input. -/
theorem msd_impl_spec (key : α → Nat) [Inhabited α] (BITS THRESHOLD : Nat)
    (hB : 0 < BITS) :
    ∀ (WIDTH : Nat) (src dst : List α) (dest : Bool),
      (∀ x ∈ src, ∀ y ∈ src, key x / 2 ^ WIDTH = key y / 2 ^ WIDTH) →
      dst.length = src.length →
      (radix_sort_msd_impl key BITS THRESHOLD hB WIDTH src dst dest).1.length = src.length ∧
      (radix_sort_msd_impl key BITS THRESHOLD hB WIDTH src dst dest).2.length = src.length ∧
      sortedByKey key
        (if dest then (radix_sort_msd_impl key BITS THRESHOLD hB WIDTH src dst dest).2
         else (radix_sort_msd_impl key BITS THRESHOLD hB WIDTH src dst dest).1) ∧
      stableWrt key
        (if dest then (radix_sort_msd_impl key BITS THRESHOLD hB WIDTH src dst dest).2
         else (radix_sort_msd_impl key BITS THRESHOLD hB WIDTH src dst dest).1) src
  | WIDTH, src, dst, dest => by
    intro hsh hlen
    rw [radix_sort_msd_impl]
    by_cases hth : src.length < THRESHOLD
    · rw [if_pos hth]
      exact fallback_spec key src dst dest hlen
    · rw [if_neg hth]
      refine msdPass_spec key (min BITS WIDTH) (WIDTH - min BITS WIDTH) _ src dst dest
        ?_ hlen ?_
      · intro x hx y hy
        rw [(by omega : WIDTH - min BITS WIDTH + min BITS WIDTH = WIDTH)]
        exact hsh x hx y hy
      · intro hOF sg sc b hsub hsclen
        exact msd_impl_spec key BITS THRESHOLD hB (WIDTH - min BITS WIDTH) sg sc b
          hsub hsclen
termination_by W _ _ _ => W
decreasing_by omega

/-! ### LSD engine: sortedness and stability are built up pass by pass -/

/-- Order refinement: a list sorted on the high key bits whose classes of
equal high bits are each sorted on more bits is sorted on the more bits. -/
theorem pairwise_key_div_of_refine (key : α → Nat) (O B : Nat) :
    ∀ out : List α,
      out.Pairwise (fun a b => key a / 2 ^ (O + B) ≤ key b / 2 ^ (O + B)) →
      (∀ v, (out.filter (fun x => key x / 2 ^ (O + B) == v)).Pairwise
        (fun a b => key a / 2 ^ O ≤ key b / 2 ^ O)) →
      out.Pairwise (fun a b => key a / 2 ^ O ≤ key b / 2 ^ O)
  | [], _, _ => List.Pairwise.nil
  | x :: rest, h1, h2 => by
    rcases List.pairwise_cons.mp h1 with ⟨hx1, hrest1⟩
    refine List.pairwise_cons.mpr ⟨?_, ?_⟩
    · intro y hy
      rcases Nat.lt_or_ge (key x / 2 ^ (O + B)) (key y / 2 ^ (O + B)) with hlt | hge
      · by_contra hgt
        push_neg at hgt
        have hm : key y / 2 ^ O / 2 ^ B ≤ key x / 2 ^ O / 2 ^ B :=
          Nat.div_le_div_right (Nat.le_of_lt hgt)
        rw [Nat.div_div_eq_div_mul, Nat.div_div_eq_div_mul, ← Nat.pow_add] at hm
        omega
      · have heq : key x / 2 ^ (O + B) = key y / 2 ^ (O + B) :=
          Nat.le_antisymm (hx1 y hy) hge
        have h2x := h2 (key x / 2 ^ (O + B))
        rw [List.filter_cons_of_pos (by simp)] at h2x
        exact (List.pairwise_cons.mp h2x).1 y
          (List.mem_filter.mpr ⟨hy, by simp [heq]⟩)
    · refine pairwise_key_div_of_refine key O B rest hrest1 ?_
      intro v
      have h2v := h2 v
      by_cases hxv : key x / 2 ^ (O + B) = v
      · rw [List.filter_cons_of_pos (by simp [hxv])] at h2v
        exact (List.pairwise_cons.mp h2v).2
      · rwa [List.filter_cons_of_neg (by simp [hxv])] at h2v

/-- Filtering on a key-prefix value factors through filtering on fewer bits. -/
theorem filter_key_div_split (key : α → Nat) (O B : Nat) (l : List α) (v : Nat) :
    l.filter (fun x => key x / 2 ^ O == v) =
      (l.filter (fun x => key x / 2 ^ (O + B) == v / 2 ^ B)).filter
        (fun x => key x / 2 ^ O == v) := by
  rw [List.filter_filter]
  apply List.filter_congr
  intro x hx
  rcases Decidable.em (key x / 2 ^ O = v) with h | h
  · have hh : key x / 2 ^ (O + B) = v / 2 ^ B := by
      rw [Nat.pow_add, ← Nat.div_div_eq_div_mul, h]
    simp [h, hh]
  · simp [h]

theorem mem_bucketed (dig : α → Nat) (l : List α) (SIZE : Nat) (x : α)
    (hx : x ∈ bucketed dig l SIZE) : x ∈ l := by
  rw [bucketed_eq_flatten] at hx
  rcases List.mem_flatten.mp hx with ⟨s, hs, hxs⟩
  rcases List.mem_map.mp hs with ⟨j, _, rfl⟩
  exact (List.mem_filter.mp hxs).1

/-- The stable partition is weakly increasing in the digit value itself. -/
theorem bucketed_pairwise_dig (dig : α → Nat) (l : List α) (SIZE : Nat) :
    (bucketed dig l SIZE).Pairwise (fun a b => dig a ≤ dig b) :=
  bucketed_sorted dig dig l SIZE (fun a _ b _ h => Nat.le_of_eq h)
    (fun a _ b _ h => Nat.le_of_lt h)

/-- Lifting an LSD recursion result through the pass below it: a pass that is
digit-stable on bits `≥ O` composed with a recursion that sorts bits `≥ O+B`
stably sorts bits `≥ O` — provided each class of equal `≥ O+B` bits was already
in `≥ O`-bit order after the pass. -/
theorem lsd_lift (key : α → Nat) (O B : Nat) (out mid src : List α)
    (hs : out.Pairwise (fun a b => key a / 2 ^ (O + B) ≤ key b / 2 ^ (O + B)))
    (hf : ∀ v, out.filter (fun x => key x / 2 ^ (O + B) == v) =
      mid.filter (fun x => key x / 2 ^ (O + B) == v))
    (hmid2 : ∀ v, (mid.filter (fun x => key x / 2 ^ (O + B) == v)).Pairwise
      (fun a b => key a / 2 ^ O ≤ key b / 2 ^ O))
    (hmidf : ∀ v, mid.filter (fun x => key x / 2 ^ O == v) =
      src.filter (fun x => key x / 2 ^ O == v)) :
    out.Pairwise (fun a b => key a / 2 ^ O ≤ key b / 2 ^ O) ∧
    ∀ v, out.filter (fun x => key x / 2 ^ O == v) =
      src.filter (fun x => key x / 2 ^ O == v) := by
  constructor
  · apply pairwise_key_div_of_refine key O B out hs
    intro v
    rw [hf v]
    exact hmid2 v
  · intro v
    rw [filter_key_div_split key O B out v, hf (v / 2 ^ B),
      ← filter_key_div_split key O B mid v]
    exact hmidf v

theorem resultOf_swap (r : List α × List α × Bool) :
    resultOf (r.2.1, r.1, !r.2.2) = resultOf r := by
  cases hb : r.2.2 <;> simp [resultOf, hb]

set_option maxHeartbeats 1600000 in
/-- Full correctness of the LSD engine, by induction on the remaining width:
the pass chain keeps both buffers at full length, and the buffer designated by
the returned flag holds the input stably sorted on key bits `kb - WIDTH` and
above. -/
theorem lsd_impl_spec (key : α → Nat) [Inhabited α] (BITS : Nat) (hB : 0 < BITS)
    (kb : Nat) :
    ∀ (WIDTH : Nat) (src dst : List α),
      WIDTH ≤ kb →
      (∀ x ∈ src, key x < 2 ^ kb) →
      dst.length = src.length →
      (radix_sort_lsd_impl key BITS hB kb WIDTH src dst).1.length = src.length ∧
      (radix_sort_lsd_impl key BITS hB kb WIDTH src dst).2.1.length = src.length ∧
      (resultOf (radix_sort_lsd_impl key BITS hB kb WIDTH src dst)).Pairwise
        (fun a b => key a / 2 ^ (kb - WIDTH) ≤ key b / 2 ^ (kb - WIDTH)) ∧
      ∀ v, (resultOf (radix_sort_lsd_impl key BITS hB kb WIDTH src dst)).filter
          (fun x => key x / 2 ^ (kb - WIDTH) == v) =
        src.filter (fun x => key x / 2 ^ (kb - WIDTH) == v)
  | WIDTH, src, dst => by
    intro hWkb hk hlen
    have hdig : ∀ x ∈ src, digitOf key (kb - WIDTH) (min BITS WIDTH) x < 2 ^ (min BITS WIDTH) :=
      fun x _ => digitOf_lt key _ _ x
    have hc1 : ∀ j, j < 2 ^ (min BITS WIDTH) →
        (countingPass (digitOf key (kb - WIDTH) (min BITS WIDTH)) src (2 ^ (min BITS WIDTH))) j = plainCdf (digitOf key (kb - WIDTH) (min BITS WIDTH)) src j :=
      fun j hj => countingPass_eq_plainCdf _ src _ hj
    have hdeq : digitOf key (kb - WIDTH) (min BITS WIDTH) =
        fun x => key x / 2 ^ (kb - WIDTH) % 2 ^ (min BITS WIDTH) :=
      funext (fun x => digitOf_eq_div_mod key _ _ x)
    by_cases hskip : allInOneBucket (countingPass (digitOf key (kb - WIDTH) (min BITS WIDTH)) src (2 ^ (min BITS WIDTH))) (2 ^ (min BITS WIDTH)) src.length = true
    · rcases allInOneBucket_all_eq _ src _ hdig hskip with ⟨j0, hj0S, hall⟩
      by_cases hBW : BITS < WIDTH
      · -- degenerate pass: recurse on the same buffers
        have hpass : radix_sort_lsd_impl key BITS hB kb WIDTH src dst =
            radix_sort_lsd_impl key BITS hB kb (WIDTH - BITS) src dst := by
          rw [radix_sort_lsd_impl]
          simp only [hskip, if_true, dif_pos hBW]
        rcases lsd_impl_spec key BITS hB kb (WIDTH - BITS) src dst (by omega) hk hlen
          with ⟨ih1, ih2, ihs, ihf⟩
        rw [hpass]
        have hOB : kb - (WIDTH - BITS) = kb - WIDTH + BITS := by omega
        rw [hOB] at ihs ihf
        have hLB : min BITS WIDTH = BITS := Nat.min_eq_left (Nat.le_of_lt hBW)
        rw [hLB] at hall
        have hmid2 : ∀ v,
            (src.filter (fun x => key x / 2 ^ (kb - WIDTH + BITS) == v)).Pairwise
              (fun a b => key a / 2 ^ (kb - WIDTH) ≤ key b / 2 ^ (kb - WIDTH)) := by
          intro v
          apply List.pairwise_of_forall_mem_list
          intro a ha b hb
          rcases List.mem_filter.mp ha with ⟨ha1, ha2⟩
          rcases List.mem_filter.mp hb with ⟨hb1, hb2⟩
          simp only [beq_iff_eq] at ha2 hb2
          have hda := hall a ha1
          have hdb := hall b hb1
          rw [digitOf_eq_div_mod] at hda hdb
          have h1 := Nat.div_add_mod (key a / 2 ^ (kb - WIDTH)) (2 ^ BITS)
          have h2 := Nat.div_add_mod (key b / 2 ^ (kb - WIDTH)) (2 ^ BITS)
          have hdd : key a / 2 ^ (kb - WIDTH) / 2 ^ BITS =
              key b / 2 ^ (kb - WIDTH) / 2 ^ BITS := by
            rw [Nat.div_div_eq_div_mul, Nat.div_div_eq_div_mul, ← Nat.pow_add]
            omega
          rw [hdd] at h1
          omega
        have hlift := lsd_lift key (kb - WIDTH) BITS _ src src ihs ihf hmid2
          (fun v => rfl)
        exact ⟨ih1, ih2, hlift.1, hlift.2⟩
      · -- degenerate last pass: nothing to do at all
        have hpass : radix_sort_lsd_impl key BITS hB kb WIDTH src dst =
            (src, dst, false) := by
          rw [radix_sort_lsd_impl]
          simp only [hskip, if_true, dif_neg hBW]
        rw [hpass]
        have hLW : min BITS WIDTH = WIDTH := Nat.min_eq_right (Nat.le_of_not_lt hBW)
        rw [hLW] at hall
        refine ⟨rfl, hlen, ?_, fun v => rfl⟩
        show src.Pairwise (fun a b => key a / 2 ^ (kb - WIDTH) ≤ key b / 2 ^ (kb - WIDTH))
        apply List.pairwise_of_forall_mem_list
        intro a ha b hb
        have hda := hall a ha
        have hdb := hall b hb
        rw [digitOf_eq_div_mod] at hda hdb
        have hba : key a / 2 ^ (kb - WIDTH) < 2 ^ WIDTH := by
          rw [Nat.div_lt_iff_lt_mul (Nat.two_pow_pos _), ← Nat.pow_add,
            (by omega : WIDTH + (kb - WIDTH) = kb)]
          exact hk a ha
        have hbb : key b / 2 ^ (kb - WIDTH) < 2 ^ WIDTH := by
          rw [Nat.div_lt_iff_lt_mul (Nat.two_pow_pos _), ← Nat.pow_add,
            (by omega : WIDTH + (kb - WIDTH) = kb)]
          exact hk b hb
        rw [Nat.mod_eq_of_lt hba] at hda
        rw [Nat.mod_eq_of_lt hbb] at hdb
        omega
    · have hskipF : allInOneBucket (countingPass (digitOf key (kb - WIDTH) (min BITS WIDTH)) src (2 ^ (min BITS WIDTH))) (2 ^ (min BITS WIDTH)) src.length = false := by
        revert hskip
        cases allInOneBucket (countingPass (digitOf key (kb - WIDTH) (min BITS WIDTH)) src (2 ^ (min BITS WIDTH))) (2 ^ (min BITS WIDTH)) src.length <;> simp
      have hsc := scatter_spec (digitOf key (kb - WIDTH) (min BITS WIDTH)) (2 ^ (min BITS WIDTH)) src dst (countingPass (digitOf key (kb - WIDTH) (min BITS WIDTH)) src (2 ^ (min BITS WIDTH)))
        hdig hlen hc1
      have hsclen : ((scatter (digitOf key (kb - WIDTH) (min BITS WIDTH)) src dst (countingPass (digitOf key (kb - WIDTH) (min BITS WIDTH)) src (2 ^ (min BITS WIDTH)))).1).length = src.length := by
        rw [hsc.1, bucketed_length, plainCdf_total _ _ hdig]
      have hmidf : ∀ v, ((scatter (digitOf key (kb - WIDTH) (min BITS WIDTH)) src dst (countingPass (digitOf key (kb - WIDTH) (min BITS WIDTH)) src (2 ^ (min BITS WIDTH)))).1).filter (fun x => key x / 2 ^ (kb - WIDTH) == v) =
          src.filter (fun x => key x / 2 ^ (kb - WIDTH) == v) := by
        intro v
        rw [hsc.1, hdeq]
        exact bucketed_filter_key (fun x => key x / 2 ^ (kb - WIDTH))
          (fun u => u % 2 ^ (min BITS WIDTH)) src (2 ^ (min BITS WIDTH))
          (fun x _ => Nat.mod_lt _ (Nat.two_pow_pos _)) v
      by_cases hBW : BITS < WIDTH
      · -- scatter, then recurse with the roles swapped
        have hLB : min BITS WIDTH = BITS := Nat.min_eq_left (Nat.le_of_lt hBW)
        have hpass : radix_sort_lsd_impl key BITS hB kb WIDTH src dst =
            ((radix_sort_lsd_impl key BITS hB kb (WIDTH - BITS) ((scatter (digitOf key (kb - WIDTH) (min BITS WIDTH)) src dst (countingPass (digitOf key (kb - WIDTH) (min BITS WIDTH)) src (2 ^ (min BITS WIDTH)))).1) src).2.1, (radix_sort_lsd_impl key BITS hB kb (WIDTH - BITS) ((scatter (digitOf key (kb - WIDTH) (min BITS WIDTH)) src dst (countingPass (digitOf key (kb - WIDTH) (min BITS WIDTH)) src (2 ^ (min BITS WIDTH)))).1) src).1, !(radix_sort_lsd_impl key BITS hB kb (WIDTH - BITS) ((scatter (digitOf key (kb - WIDTH) (min BITS WIDTH)) src dst (countingPass (digitOf key (kb - WIDTH) (min BITS WIDTH)) src (2 ^ (min BITS WIDTH)))).1) src).2.2) := by
          rw [radix_sort_lsd_impl]
          simp only [hskipF, Bool.false_eq_true, if_false, dif_pos hBW]
        have hkmid : ∀ x ∈ (scatter (digitOf key (kb - WIDTH) (min BITS WIDTH)) src dst (countingPass (digitOf key (kb - WIDTH) (min BITS WIDTH)) src (2 ^ (min BITS WIDTH)))).1, key x < 2 ^ kb := by
          intro x hx
          rw [hsc.1] at hx
          exact hk x (mem_bucketed _ src _ x hx)
        rcases lsd_impl_spec key BITS hB kb (WIDTH - BITS) ((scatter (digitOf key (kb - WIDTH) (min BITS WIDTH)) src dst (countingPass (digitOf key (kb - WIDTH) (min BITS WIDTH)) src (2 ^ (min BITS WIDTH)))).1) src (by omega)
          hkmid hsclen.symm with ⟨ih1, ih2, ihs, ihf⟩
        rw [hpass]
        refine ⟨by rw [ih2, hsclen], by rw [ih1, hsclen], ?_⟩
        rw [resultOf_swap]
        have hOB : kb - (WIDTH - BITS) = kb - WIDTH + BITS := by omega
        rw [hOB] at ihs ihf
        have hmid2 : ∀ v,
            (((scatter (digitOf key (kb - WIDTH) (min BITS WIDTH)) src dst (countingPass (digitOf key (kb - WIDTH) (min BITS WIDTH)) src (2 ^ (min BITS WIDTH)))).1).filter (fun x => key x / 2 ^ (kb - WIDTH + BITS) == v)).Pairwise
              (fun a b => key a / 2 ^ (kb - WIDTH) ≤ key b / 2 ^ (kb - WIDTH)) := by
          intro v
          have hP : (((scatter (digitOf key (kb - WIDTH) (min BITS WIDTH)) src dst (countingPass (digitOf key (kb - WIDTH) (min BITS WIDTH)) src (2 ^ (min BITS WIDTH)))).1).filter
              (fun x => key x / 2 ^ (kb - WIDTH + BITS) == v)).Pairwise
                (fun a b => digitOf key (kb - WIDTH) (min BITS WIDTH) a ≤ digitOf key (kb - WIDTH) (min BITS WIDTH) b) := by
            apply List.Pairwise.filter
            rw [hsc.1]
            exact bucketed_pairwise_dig _ src _
          refine List.Pairwise.imp_of_mem ?_ hP
          intro a b ha hb hd
          have ha2 := (List.mem_filter.mp ha).2
          have hb2 := (List.mem_filter.mp hb).2
          simp only [beq_iff_eq] at ha2 hb2
          rw [digitOf_eq_div_mod, digitOf_eq_div_mod, hLB] at hd
          have h1 := Nat.div_add_mod (key a / 2 ^ (kb - WIDTH)) (2 ^ BITS)
          have h2 := Nat.div_add_mod (key b / 2 ^ (kb - WIDTH)) (2 ^ BITS)
          have hdd : key a / 2 ^ (kb - WIDTH) / 2 ^ BITS =
              key b / 2 ^ (kb - WIDTH) / 2 ^ BITS := by
            rw [Nat.div_div_eq_div_mul, Nat.div_div_eq_div_mul, ← Nat.pow_add]
            omega
          rw [hdd] at h1
          omega
        have hlift := lsd_lift key (kb - WIDTH) BITS (resultOf (radix_sort_lsd_impl key BITS hB kb (WIDTH - BITS) ((scatter (digitOf key (kb - WIDTH) (min BITS WIDTH)) src dst (countingPass (digitOf key (kb - WIDTH) (min BITS WIDTH)) src (2 ^ (min BITS WIDTH)))).1) src))
          ((scatter (digitOf key (kb - WIDTH) (min BITS WIDTH)) src dst (countingPass (digitOf key (kb - WIDTH) (min BITS WIDTH)) src (2 ^ (min BITS WIDTH)))).1) src ihs ihf hmid2 hmidf
        exact ⟨hlift.1, hlift.2⟩
      · -- last pass: the scatter is the stable sort on the remaining bits
        have hLW : min BITS WIDTH = WIDTH := Nat.min_eq_right (Nat.le_of_not_lt hBW)
        have hpass : radix_sort_lsd_impl key BITS hB kb WIDTH src dst =
            (src, (scatter (digitOf key (kb - WIDTH) (min BITS WIDTH)) src dst (countingPass (digitOf key (kb - WIDTH) (min BITS WIDTH)) src (2 ^ (min BITS WIDTH)))).1, true) := by
          rw [radix_sort_lsd_impl]
          simp only [hskipF, Bool.false_eq_true, if_false, dif_neg hBW]
        rw [hpass]
        refine ⟨rfl, hsclen, ?_, ?_⟩
        · show ((scatter (digitOf key (kb - WIDTH) (min BITS WIDTH)) src dst (countingPass (digitOf key (kb - WIDTH) (min BITS WIDTH)) src (2 ^ (min BITS WIDTH)))).1).Pairwise (fun a b => key a / 2 ^ (kb - WIDTH) ≤ key b / 2 ^ (kb - WIDTH))
          rw [hsc.1]
          refine List.Pairwise.imp_of_mem ?_ (bucketed_pairwise_dig _ src _)
          intro a b ha hb hd
          have ha' := mem_bucketed _ src _ a ha
          have hb' := mem_bucketed _ src _ b hb
          rw [digitOf_eq_div_mod, digitOf_eq_div_mod, hLW] at hd
          have hba : key a / 2 ^ (kb - WIDTH) < 2 ^ WIDTH := by
            rw [Nat.div_lt_iff_lt_mul (Nat.two_pow_pos _), ← Nat.pow_add,
              (by omega : WIDTH + (kb - WIDTH) = kb)]
            exact hk a ha'
          have hbb : key b / 2 ^ (kb - WIDTH) < 2 ^ WIDTH := by
            rw [Nat.div_lt_iff_lt_mul (Nat.two_pow_pos _), ← Nat.pow_add,
              (by omega : WIDTH + (kb - WIDTH) = kb)]
            exact hk b hb'
          rw [Nat.mod_eq_of_lt hba, Nat.mod_eq_of_lt hbb] at hd
          exact hd
        · intro v
          exact hmidf v
termination_by W _ _ => W
decreasing_by all_goals omega

/-- Correctness of the `radix_sort_lsd` wrapper: the result buffer holds a
stable sort of the input, and a forced destination (0 or 1) is honoured by the
returned pointer flag. -/
theorem radix_sort_lsd_spec (key : α → Nat) [Inhabited α] (kb BITS : Nat)
    (hB : 0 < BITS) (src tmp : List α) (destination : Int)
    (hk : ∀ x ∈ src, key x < 2 ^ kb) (hlen : tmp.length = src.length) :
    (radix_sort_lsd key kb BITS hB src tmp destination).1.length = src.length ∧
    (radix_sort_lsd key kb BITS hB src tmp destination).2.1.length = src.length ∧
    sortedByKey key (resultOf (radix_sort_lsd key kb BITS hB src tmp destination)) ∧
    stableWrt key (resultOf (radix_sort_lsd key kb BITS hB src tmp destination)) src ∧
    (destination = 0 → (radix_sort_lsd key kb BITS hB src tmp destination).2.2 = false) ∧
    (destination = 1 → (radix_sort_lsd key kb BITS hB src tmp destination).2.2 = true) := by
  rcases lsd_impl_spec key BITS hB kb kb src tmp (Nat.le_refl _) hk hlen with
    ⟨ih1, ih2, ihs, ihf⟩
  have hconv : ∀ (l : List α) (k : Nat),
      l.filter (fun x => key x / 2 ^ (kb - kb) == k) =
        l.filter (fun x => key x == k) :=
    fun l k => List.filter_congr
      (fun x _ => by rw [Nat.sub_self, Nat.pow_zero, Nat.div_one])
  have hsort : sortedByKey key (resultOf (radix_sort_lsd_impl key BITS hB kb kb src tmp)) := by
    refine List.Pairwise.imp ?_ ihs
    intro a b h
    rwa [Nat.sub_self, Nat.pow_zero, Nat.div_one, Nat.div_one] at h
  have hstab : stableWrt key (resultOf (radix_sort_lsd_impl key BITS hB kb kb src tmp)) src := by
    intro k
    rw [← hconv _ k, ihf k, hconv src k]
  simp only [radix_sort_lsd]
  by_cases h1 : (destination == 0 && (radix_sort_lsd_impl key BITS hB kb kb src tmp).2.2) = true
  · rw [if_pos h1]
    have h1' := h1
    rw [Bool.and_eq_true] at h1'
    rcases h1' with ⟨hd0, hr2⟩
    have hres : resultOf (radix_sort_lsd_impl key BITS hB kb kb src tmp) = (radix_sort_lsd_impl key BITS hB kb kb src tmp).2.1 := by
      simp [resultOf, hr2]
    rw [hres] at hsort hstab
    refine ⟨ih2, ih2, hsort, hstab, fun _ => rfl, fun hd1 => ?_⟩
    rw [hd1] at hd0
    simp at hd0
  · rw [if_neg h1]
    by_cases h2 : (destination == 1 && !(radix_sort_lsd_impl key BITS hB kb kb src tmp).2.2) = true
    · rw [if_pos h2]
      have h2' := h2
      rw [Bool.and_eq_true] at h2'
      rcases h2' with ⟨hd1, hr2⟩
      have hr2f : (radix_sort_lsd_impl key BITS hB kb kb src tmp).2.2 = false := by
        cases hr : (radix_sort_lsd_impl key BITS hB kb kb src tmp).2.2
        · rfl
        · rw [hr] at hr2
          simp at hr2
      have hres : resultOf (radix_sort_lsd_impl key BITS hB kb kb src tmp) = (radix_sort_lsd_impl key BITS hB kb kb src tmp).1 := by
        simp [resultOf, hr2f]
      rw [hres] at hsort hstab
      refine ⟨ih1, ih1, hsort, hstab, fun hd0 => ?_, fun _ => rfl⟩
      rw [hd0] at hd1
      simp at hd1
    · rw [if_neg h2]
      refine ⟨ih1, ih2, hsort, hstab, ?_, ?_⟩
      · intro h0
        subst h0
        cases hr : (radix_sort_lsd_impl key BITS hB kb kb src tmp).2.2
        · rfl
        · exact absurd (by simp [hr]) h1
      · intro h0
        subst h0
        cases hr : (radix_sort_lsd_impl key BITS hB kb kb src tmp).2.2
        · exact absurd (by simp [hr]) h2
        · rfl

/-- Correctness of the `radix_sort_msd` wrapper: the result buffer holds a
stable sort of the input, and the returned pointer is `tmp` exactly when the
(normalised) destination is 1. -/
theorem radix_sort_msd_spec (key : α → Nat) [Inhabited α] (kb BITS THRESHOLD : Nat)
    (hB : 0 < BITS) (src tmp : List α) (destination : Int)
    (hk : ∀ x ∈ src, key x < 2 ^ kb) (hlen : tmp.length = src.length) :
    (radix_sort_msd key kb BITS THRESHOLD hB src tmp destination).1.length = src.length ∧
    (radix_sort_msd key kb BITS THRESHOLD hB src tmp destination).2.1.length = src.length ∧
    sortedByKey key (resultOf (radix_sort_msd key kb BITS THRESHOLD hB src tmp destination)) ∧
    stableWrt key (resultOf (radix_sort_msd key kb BITS THRESHOLD hB src tmp destination)) src ∧
    (radix_sort_msd key kb BITS THRESHOLD hB src tmp destination).2.2 = (destination == 1) := by
  have hsh : ∀ x ∈ src, ∀ y ∈ src, key x / 2 ^ kb = key y / 2 ^ kb := by
    intro x hx y hy
    rw [Nat.div_eq_of_lt (hk x hx), Nat.div_eq_of_lt (hk y hy)]
  rcases msd_impl_spec key BITS THRESHOLD hB kb src tmp (destination == 1) hsh hlen with
    ⟨ih1, ih2, ihs, ihf⟩
  refine ⟨ih1, ih2, ?_, ?_, rfl⟩
  · show sortedByKey key (if (destination == 1) then
      (radix_sort_msd_impl key BITS THRESHOLD hB kb src tmp (destination == 1)).2
      else (radix_sort_msd_impl key BITS THRESHOLD hB kb src tmp (destination == 1)).1)
    exact ihs
  · show stableWrt key (if (destination == 1) then
      (radix_sort_msd_impl key BITS THRESHOLD hB kb src tmp (destination == 1)).2
      else (radix_sort_msd_impl key BITS THRESHOLD hB kb src tmp (destination == 1)).1) src
    exact ihf

/-- Correctness of the stable entry point: for every destination and mode, the
buffer designated by the returned pointer holds the input stably sorted. -/
theorem radix_sort_stable_spec (key : α → Nat) [Inhabited α] (kb sizeofT : Nat)
    (src tmp : List α) (destination mode : Int)
    (hk : ∀ x ∈ src, key x < 2 ^ kb) (hlen : tmp.length = src.length) :
    (radix_sort_stable key kb sizeofT src tmp destination mode).1.length = src.length ∧
    (radix_sort_stable key kb sizeofT src tmp destination mode).2.1.length = src.length ∧
    sortedByKey key (resultOf (radix_sort_stable key kb sizeofT src tmp destination mode)) ∧
    stableWrt key (resultOf (radix_sort_stable key kb sizeofT src tmp destination mode)) src := by
  unfold radix_sort_stable
  by_cases hm : stableSelectsMSD mode src.length kb sizeofT = true
  · rw [if_pos hm]
    by_cases hb : msdBitsChoice src.length = 8
    · rw [if_pos hb]
      have h := radix_sort_msd_spec key kb 8 128 (by decide) src tmp destination hk hlen
      exact ⟨h.1, h.2.1, h.2.2.1, h.2.2.2.1⟩
    · rw [if_neg hb]
      have h := radix_sort_msd_spec key kb 11 256 (by decide) src tmp destination hk hlen
      exact ⟨h.1, h.2.1, h.2.2.1, h.2.2.2.1⟩
  · rw [if_neg hm]
    have h := radix_sort_lsd_spec key kb 8 (by decide) src tmp destination hk hlen
    exact ⟨h.1, h.2.1, h.2.2.1, h.2.2.2.1⟩

/-! ### The in-place cycle-following scatter -/

/-- Every element of a slice `[a, b)` of `arr` satisfies what all the slice's
positions satisfy. -/
theorem slice_all [Inhabited α] {arr : List α} {a b : Nat} {P : α → Prop}
    (h : ∀ i, a ≤ i → i < b → i < arr.length → P (arr.getD i default))
    {x : α} (hx : x ∈ (arr.take b).drop a) : P x := by
  rcases List.getElem_of_mem hx with ⟨i, hi, hget⟩
  rw [List.getElem_drop, List.getElem_take] at hget
  have hlen : i < (arr.take b).length - a := by simpa using hi
  rw [List.length_take] at hlen
  have hia : a + i < arr.length := by omega
  have hgd : arr.getD (a + i) default = x := by
    rw [List.getD_eq_getElem arr default hia]
    exact hget
  rw [← hgd]
  exact h (a + i) (by omega) (by omega) hia

/-- Moving `t[m]` to the front while overwriting position `m` with `x` is, up
to permutation, just consing `x`. -/
theorem perm_set [Inhabited α] : ∀ (t : List α) (m : Nat), m < t.length → ∀ x : α,
    List.Perm (t.getD m default :: t.set m x) (x :: t)
  | y :: s, 0, _, x => by
      simp only [List.getD_cons_zero, List.set_cons_zero]
      exact List.Perm.swap x y s
  | y :: s, m + 1, hm, x => by
      simp only [List.getD_cons_succ, List.set_cons_succ]
      exact (List.Perm.swap y (s.getD m default) (s.set m x)).trans
        (((perm_set s m (by simpa using hm) x).cons y).trans
          (List.Perm.swap x y s))

/-- The two-position swap of the chase loop is a permutation. -/
theorem set_set_perm [Inhabited α] : ∀ (l : List α) (i j : Nat), i < l.length → j < l.length →
    List.Perm ((l.set i (l.getD j default)).set j (l.getD i default)) l
  | [], i, _, hi, _ => absurd hi (by simp)
  | x :: t, 0, 0, _, _ => by simp
  | x :: t, 0, j + 1, _, hj => by
      simp only [List.getD_cons_succ, List.getD_cons_zero, List.set_cons_zero,
        List.set_cons_succ]
      exact perm_set t j (by simpa using hj) x
  | x :: t, i + 1, 0, hi, _ => by
      rw [List.set_comm _ _ _ (by omega)]
      simp only [List.getD_cons_succ, List.getD_cons_zero, List.set_cons_zero,
        List.set_cons_succ]
      exact perm_set t i (by simpa using hi) x
  | x :: t, i + 1, j + 1, hi, hj => by
      simp only [List.getD_cons_succ, List.set_cons_succ]
      exact (set_set_perm t i j (by simpa using hi) (by simpa using hj)).cons x

/-- Capacity: in any invariant state, an unplaced position's digit cursor has
not yet reached the end of its region. -/
theorem scatter_capacity [Inhabited α] {dig : α → Nat} {SIZE : Nat} {start d : Nat → Nat}
    {src arr : List α} {c : Nat → Nat} (k : Nat)
    (hctx : ScatterCtx dig SIZE start d src)
    (hinv : ScatterInv dig SIZE start d src arr c)
    (hk : k < arr.length)
    (hout : ∀ h, h < SIZE → ¬ (start h ≤ k ∧ k < c h)) :
    c (dig (arr.getD k default)) < d (dig (arr.getD k default)) := by
  rcases hctx with ⟨hdig, hsd, hd1, hd2, hd_le, hsum⟩
  rcases hinv with ⟨hlen, hperm, hcur, hplaced⟩
  set h := dig (arr.getD k default) with hh
  have hhS : h < SIZE := hdig _
  have hcount : arr.countP (fun x => dig x == h) =
      src.countP (fun x => dig x == h) := hperm.countP_eq _
  -- decompose arr into the prefix below start h, the placed slice, and the rest
  have hsplit1 : arr = arr.take (c h) ++ arr.drop (c h) :=
    (List.take_append_drop _ _).symm
  have hsplit2 : arr.take (c h) =
      (arr.take (c h)).take (start h) ++ (arr.take (c h)).drop (start h) :=
    (List.take_append_drop _ _).symm
  have htt : (arr.take (c h)).take (start h) = arr.take (start h) := by
    rw [List.take_take, Nat.min_eq_left (hcur h hhS).1]
  have hcA : arr.countP (fun x => dig x == h) =
      (arr.take (start h)).countP (fun x => dig x == h) +
      ((arr.take (c h)).drop (start h)).countP (fun x => dig x == h) +
      (arr.drop (c h)).countP (fun x => dig x == h) := by
    conv_lhs => rw [hsplit1]
    rw [List.countP_append]
    conv_lhs => rw [hsplit2, htt]
    rw [List.countP_append]
  have hslice : ((arr.take (c h)).drop (start h)).countP (fun x => dig x == h) =
      c h - start h := by
    have hall : ∀ x ∈ (arr.take (c h)).drop (start h), dig x = h := by
      intro x hx
      exact slice_all (P := fun y => dig y = h)
        (fun i h1 h2 _ => hplaced h hhS i h1 h2) hx
    have hch : c h ≤ arr.length := by
      have := (hcur h hhS).2
      have := hd_le h hhS
      omega
    have hlen2 : ((arr.take (c h)).drop (start h)).length = c h - start h := by
      rw [List.length_drop, List.length_take, Nat.min_eq_left hch]
    rw [← hlen2, List.countP_eq_length]
    intro x hx
    simp [hall x hx]
  -- the element at k contributes outside the placed slice
  have hextra : 1 ≤ (arr.take (start h)).countP (fun x => dig x == h) +
      (arr.drop (c h)).countP (fun x => dig x == h) := by
    rcases Nat.lt_or_ge k (start h) with hks | hks
    · have hm : arr.getD k default ∈ arr.take (start h) := by
        have hlen2 : k < (arr.take (start h)).length := by
          rw [List.length_take]
          omega
        have hget : (arr.take (start h)).getD k default = arr.getD k default := by
          rw [List.getD_eq_getElem _ _ hlen2, List.getElem_take,
            List.getD_eq_getElem arr default hk]
        rw [← hget, List.getD_eq_getElem _ _ hlen2]
        exact List.getElem_mem _
      have h1 : 0 < (arr.take (start h)).countP (fun x => dig x == h) :=
        List.countP_pos_iff.mpr ⟨_, hm, by simp [hh]⟩
      omega
    · have hkc : c h ≤ k := by
        rcases Nat.lt_or_ge k (c h) with hlt | hge
        · exact absurd ⟨hks, hlt⟩ (hout h hhS)
        · exact hge
      have hm : arr.getD k default ∈ arr.drop (c h) := by
        have hkd : k - c h < (arr.drop (c h)).length := by
          rw [List.length_drop]
          omega
        have hget : (arr.drop (c h)).getD (k - c h) default = arr.getD k default := by
          rw [List.getD_eq_getElem _ _ hkd, List.getElem_drop,
            List.getD_eq_getElem arr default hk]
          congr 1
          omega
        rw [← hget, List.getD_eq_getElem _ _ hkd]
        exact List.getElem_mem _
      have h1 : 0 < (arr.drop (c h)).countP (fun x => dig x == h) :=
        List.countP_pos_iff.mpr ⟨_, hm, by simp [hh]⟩
      omega
  have hcap := hsd h hhS
  have hcs := (hcur h hhS).1
  omega

theorem getD_set_ne [Inhabited α] (l : List α) (i : Nat) (v : α) (i' : Nat)
    (h : i ≠ i') : (l.set i v).getD i' default = l.getD i' default := by
  rw [List.getD_eq_getElem?_getD, List.getD_eq_getElem?_getD,
    List.getElem?_set_ne h]

theorem getD_set_self [Inhabited α] (l : List α) (i : Nat) (v : α)
    (hi : i < l.length) : (l.set i v).getD i default = v := by
  rw [List.getD_eq_getElem?_getD, List.getElem?_set_self hi]
  rfl

/-- Positions of two different bucket regions are distinct. -/
theorem region_ne {dig : α → Nat} {SIZE : Nat} {start d : Nat → Nat}
    {src : List α} (hctx : ScatterCtx dig SIZE start d src) {a b i p : Nat}
    (ha : a < SIZE) (hb : b < SIZE) (hab : a ≠ b)
    (h1 : start a ≤ i) (h2 : i < d a) (h3 : start b ≤ p) (h4 : p < d b) :
    i ≠ p := by
  rcases hctx with ⟨_, _, hchain, hsmono, _, _⟩
  rcases Nat.lt_or_ge a b with hlt | hge
  · have : d a ≤ start b := le_trans (hchain a (by omega)) (hsmono _ _ (by omega))
    omega
  · have : d b ≤ start a := le_trans (hchain b (by omega)) (hsmono _ _ (by omega))
    omega

set_option maxHeartbeats 1000000 in
/-- The cycle-following chase loop terminates within its fuel and preserves the
scatter invariant; it never moves the chased bucket's cursor, and on exit the
chased position holds an element of the wanted digit. -/
theorem chase_some [Inhabited α] (key : α → Nat) (OFF L : Nat)
    {start d : Nat → Nat} {src : List α}
    (hctx : ScatterCtx (digitOf key OFF L) (2 ^ L) start d src) :
    ∀ (fuel : Nat) (arr : List α) (c : Nat → Nat) (j k : Nat),
      ScatterInv (digitOf key OFF L) (2 ^ L) start d src arr c →
      j < 2 ^ L → start j ≤ k → c j ≤ k → k < d j →
      (∑ h in Finset.range (2 ^ L), (if h = j then 0 else d h - c h)) < fuel →
      ∃ arr' c', chase key OFF L j k fuel arr c = some (arr', c') ∧
        ScatterInv (digitOf key OFF L) (2 ^ L) start d src arr' c' ∧
        c' j = c j ∧ (∀ h, c h ≤ c' h) ∧
        digitOf key OFF L (arr'.getD k default) = j
  | 0, arr, c, j, k => by
    intro _ _ _ _ _ hfuel
    omega
  | fuel + 1, arr, c, j, k => by
    intro hinv hj hsk hck hkd hfuel
    by_cases heq : j = digitOf key OFF L (arr.getD k default)
    · refine ⟨arr, c, ?_, hinv, rfl, fun h => Nat.le_refl _, heq.symm⟩
      rw [chase]
      simp [heq]
    · obtain ⟨hdig, hsd, hchain, hsmono, hd_le, hsum⟩ := hctx
      obtain ⟨hlen, hperm, hcur, hplaced⟩ := hinv
      have hctx' : ScatterCtx (digitOf key OFF L) (2 ^ L) start d src :=
        ⟨hdig, hsd, hchain, hsmono, hd_le, hsum⟩
      have hinv' : ScatterInv (digitOf key OFF L) (2 ^ L) start d src arr c :=
        ⟨hlen, hperm, hcur, hplaced⟩
      have hkn : k < arr.length := by
        have := hd_le j hj
        omega
      have hout : ∀ h', h' < 2 ^ L → ¬ (start h' ≤ k ∧ k < c h') := by
        intro h' hh' hcon
        by_cases hj' : h' = j
        · subst hj'
          omega
        · exact region_ne hctx' hh' hj hj' hcon.1
            (by have := (hcur h' hh').2; omega) hsk hkd rfl
      have hcap := scatter_capacity k hctx' hinv' hkn hout
      set h := digitOf key OFF L (arr.getD k default) with hhdef
      have hhS : h < 2 ^ L := hdig _
      have hchn : c h < arr.length := by
        have := hd_le h hhS
        omega
      have hchk : c h ≠ k := by
        refine region_ne hctx' hhS hj (fun hc => heq hc.symm)
          (hcur h hhS).1 hcap hsk hkd
      -- the swapped buffer
      have hlen1 : ((arr.set (c h) (arr.getD k default)).set k
          (arr.getD (c h) default)).length = arr.length := by
        rw [List.length_set, List.length_set]
      have hgd_at : ∀ i, i ≠ c h → i ≠ k →
          ((arr.set (c h) (arr.getD k default)).set k
            (arr.getD (c h) default)).getD i default = arr.getD i default := by
        intro i h1 h2
        rw [getD_set_ne _ _ _ _ (fun hc => h2 hc.symm),
          getD_set_ne _ _ _ _ (fun hc => h1 hc.symm)]
      have hgd_ch : ((arr.set (c h) (arr.getD k default)).set k
          (arr.getD (c h) default)).getD (c h) default = arr.getD k default := by
        rw [getD_set_ne _ _ _ _ (Ne.symm hchk), getD_set_self _ _ _ hchn]
      have hinv1 : ScatterInv (digitOf key OFF L) (2 ^ L) start d src
          ((arr.set (c h) (arr.getD k default)).set k (arr.getD (c h) default))
          (bump c h) := by
        refine ⟨by rw [hlen1, hlen], ?_, ?_, ?_⟩
        · exact (set_set_perm arr (c h) k hchn hkn).trans hperm
        · intro h' hh'
          by_cases hcase : h' = h
          · rw [hcase]
            constructor
            · rw [bump_self]
              have := (hcur h hhS).1
              omega
            · rw [bump_self]
              omega
          · rw [bump_ne c hcase]
            exact hcur h' hh'
        · intro h' hh' i hi1 hi2
          by_cases hcase : h' = h
          · rw [hcase] at hi1 hi2 ⊢
            rw [bump_self] at hi2
            by_cases hic : i = c h
            · subst hic
              rw [hgd_ch]
            · have hic2 : i < c h := by omega
              have hik : i ≠ k := by
                intro hik
                exact hout h hhS ⟨by omega, by omega⟩
              rw [hgd_at i hic hik]
              exact hplaced h hhS i hi1 hic2
          · rw [bump_ne c hcase] at hi2
            have hic : i ≠ c h :=
              region_ne hctx' hh' hhS hcase hi1
                (by have := (hcur h' hh').2; omega) (hcur h hhS).1 hcap
            have hik : i ≠ k := by
              intro hik
              exact hout h' hh' ⟨by omega, by omega⟩
            rw [hgd_at i hic hik]
            exact hplaced h' hh' i hi1 hi2
      have hne' : h ≠ j := fun hc => heq hc.symm
      have hmem : h ∈ Finset.range (2 ^ L) := Finset.mem_range.mpr hhS
      have hsum_step :
          (∑ h' in Finset.range (2 ^ L), (if h' = j then 0 else d h' - bump c h h')) + 1 =
          (∑ h' in Finset.range (2 ^ L), (if h' = j then 0 else d h' - c h')) := by
        rw [← Finset.sum_erase_add _ _ hmem,
          ← Finset.sum_erase_add _ (fun h' => if h' = j then 0 else d h' - c h') hmem]
        have hcong : ∑ h' in (Finset.range (2 ^ L)).erase h,
            (if h' = j then 0 else d h' - bump c h h') =
            ∑ h' in (Finset.range (2 ^ L)).erase h,
            (if h' = j then 0 else d h' - c h') := by
          apply Finset.sum_congr rfl
          intro h' hh'
          rw [bump_ne c (Finset.ne_of_mem_erase hh')]
        rw [hcong, if_neg hne', if_neg hne', bump_self]
        omega
      have hrec := chase_some key OFF L hctx' fuel
        ((arr.set (c h) (arr.getD k default)).set k (arr.getD (c h) default))
        (bump c h) j k hinv1 hj hsk (by rw [bump_ne c heq]; exact hck)
        hkd (by omega)
      rcases hrec with ⟨arr', c', hchase, hinvf, hcj, hmono, hdigk⟩
      refine ⟨arr', c', ?_, hinvf, ?_, ?_, hdigk⟩
      · rw [chase]
        simp only [← hhdef, if_neg heq]
        exact hchase
      · rw [hcj, bump_ne c heq]
      · intro h'
        refine le_trans ?_ (hmono h')
        by_cases hcase : h' = h
        · subst hcase
          rw [bump_self]
          omega
        · rw [bump_ne c hcase]

set_option maxHeartbeats 1000000 in
/-- The per-bucket cursor loop drives the bucket's cursor to the end of its
region, preserving the scatter invariant. -/
theorem inner_some [Inhabited α] (key : α → Nat) (OFF L : Nat)
    {start d : Nat → Nat} {src : List α}
    (hctx : ScatterCtx (digitOf key OFF L) (2 ^ L) start d src)
    (j : Nat) (hj : j < 2 ^ L) :
    ∀ (fuel : Nat) (arr : List α) (c : Nat → Nat),
      ScatterInv (digitOf key OFF L) (2 ^ L) start d src arr c →
      d j - c j ≤ fuel →
      ∃ arr' c', innerScatterLoop key OFF L j d fuel arr c = some (arr', c') ∧
        ScatterInv (digitOf key OFF L) (2 ^ L) start d src arr' c' ∧
        c' j = d j ∧ (∀ h, c h ≤ c' h)
  | 0, arr, c => by
    intro hinv hfuel
    have hc := hinv.2.2.1 j hj
    have hcd : c j = d j := by omega
    refine ⟨arr, c, ?_, hinv, hcd, fun h => Nat.le_refl _⟩
    rw [innerScatterLoop]
    simp [hcd]
  | fuel + 1, arr, c => by
    intro hinv hfuel
    by_cases hcd : c j = d j
    · refine ⟨arr, c, ?_, hinv, hcd, fun h => Nat.le_refl _⟩
      rw [innerScatterLoop]
      simp [hcd]
    · have hcs := (hinv.2.2.1 j hj).1
      have hcd2 := (hinv.2.2.1 j hj).2
      have hcdlt : c j < d j := by omega
      have hMle : (∑ h in Finset.range (2 ^ L), (if h = j then 0 else d h - c h)) <
          arr.length + 1 := by
        have h1 : (∑ h in Finset.range (2 ^ L), (if h = j then 0 else d h - c h)) ≤
            ∑ h in Finset.range (2 ^ L), (d h - start h) := by
          apply Finset.sum_le_sum
          intro h hmem
          have hhS := Finset.mem_range.mp hmem
          have hch := hinv.2.2.1 h hhS
          by_cases hcase : h = j
          · simp [hcase]
          · rw [if_neg hcase]
            omega
        have h2 := hctx.2.2.2.2.2
        have h3 := hinv.1
        omega
      rcases chase_some key OFF L hctx (arr.length + 1) arr c j (c j) hinv hj
        hcs (Nat.le_refl _) hcdlt hMle with
        ⟨arr1, c1, hchase, hinv1, hc1j, hmono1, hdigcj⟩
      have hinv2 : ScatterInv (digitOf key OFF L) (2 ^ L) start d src arr1
          (bump c1 j) := by
        obtain ⟨hlen1, hperm1, hcur1, hplaced1⟩ := hinv1
        refine ⟨hlen1, hperm1, ?_, ?_⟩
        · intro h hh
          by_cases hcase : h = j
          · rw [hcase, bump_self, hc1j]
            exact ⟨by omega, by omega⟩
          · rw [bump_ne c1 hcase]
            exact hcur1 h hh
        · intro h hh i hi1 hi2
          by_cases hcase : h = j
          · rw [hcase] at hi1 hi2 ⊢
            rw [bump_self, hc1j] at hi2
            by_cases hic : i = c j
            · rw [hic]
              exact hdigcj
            · refine hplaced1 j hj i hi1 ?_
              rw [hc1j]
              omega
          · rw [bump_ne c1 hcase] at hi2
            exact hplaced1 h hh i hi1 hi2
      rcases inner_some key OFF L hctx j hj fuel arr1 (bump c1 j) hinv2
        (by rw [bump_self, hc1j]; omega) with
        ⟨arr', c', hloop, hinvf, hcjf, hmonof⟩
      refine ⟨arr', c', ?_, hinvf, hcjf, ?_⟩
      · rw [innerScatterLoop]
        simp only [if_neg hcd, hchase]
        exact hloop
      · intro h
        refine le_trans (hmono1 h) (le_trans ?_ (hmonof h))
        by_cases hcase : h = j
        · rw [hcase, bump_self]
          omega
        · rw [bump_ne c1 hcase]

/-- The outer scatter loop completes the first `m` buckets. -/
theorem outer_partial [Inhabited α] (key : α → Nat) (OFF L : Nat)
    {start d : Nat → Nat} {src : List α}
    (hctx : ScatterCtx (digitOf key OFF L) (2 ^ L) start d src)
    (arr0 : List α) (c0 : Nat → Nat)
    (hinv0 : ScatterInv (digitOf key OFF L) (2 ^ L) start d src arr0 c0) :
    ∀ m, m ≤ 2 ^ L →
      ∃ arr' c',
        (List.range m).foldl (fun st j => st.bind (fun p =>
          innerScatterLoop key OFF L j d p.1.length p.1 p.2)) (some (arr0, c0)) =
          some (arr', c') ∧
        ScatterInv (digitOf key OFF L) (2 ^ L) start d src arr' c' ∧
        (∀ h, h < m → c' h = d h) ∧ (∀ h, c0 h ≤ c' h)
  | 0, _ => ⟨arr0, c0, rfl, hinv0, fun h hh => absurd hh (by omega),
      fun h => Nat.le_refl _⟩
  | m + 1, hm => by
    rcases outer_partial key OFF L hctx arr0 c0 hinv0 m (by omega) with
      ⟨arr1, c1, hfold, hinv1, hdone, hmono⟩
    have hfuel : d m - c1 m ≤ arr1.length := by
      have h1 := hctx.2.2.2.2.1 m (by omega)
      have h2 := hinv1.1
      omega
    rcases inner_some key OFF L hctx m (by omega) arr1.length arr1 c1 hinv1 hfuel with
      ⟨arr2, c2, hloop, hinv2, hcm, hmono2⟩
    refine ⟨arr2, c2, ?_, hinv2, ?_, fun h => le_trans (hmono h) (hmono2 h)⟩
    · rw [List.range_succ, List.foldl_append, hfold]
      simp only [List.foldl_cons, List.foldl_nil, Option.some_bind]
      exact hloop
    · intro h hh
      by_cases hcase : h = m
      · rw [hcase]
        exact hcm
      · have h1 := hdone h (by omega)
        have h2 := hmono2 h
        have h3 := (hinv2.2.2.1 h (by omega)).2
        omega

/-- The histogram sums to the prefix table. -/
theorem sum_hist (dig : α → Nat) (l : List α) :
    ∀ S, ∑ h in Finset.range S, plainHist dig l h = plainCdf dig l S
  | 0 => rfl
  | S + 1 => by
    rw [Finset.sum_range_succ, sum_hist dig l S, plainCdf_succ]

/-- One iteration of the in-place per-bucket loop returns a sorted permutation
of its bucket's range. -/
theorem inplaceBucketStep_spec (key : α → Nat) [Inhabited α]
    (recur : List α → Option (List α)) (seg : List α)
    (hrec : 3 ≤ seg.length → ∃ r, recur seg = some r ∧ r.length = seg.length ∧
      List.Perm r seg ∧ sortedByKey key r) :
    ∃ r, inplaceBucketStep key recur seg = some r ∧ r.length = seg.length ∧
      List.Perm r seg ∧ sortedByKey key r := by
  unfold inplaceBucketStep
  by_cases h0 : seg.length = 0
  · rw [if_pos h0]
    exact ⟨seg, rfl, rfl, List.Perm.refl _, by
      rw [List.length_eq_zero.mp h0]
      exact List.Pairwise.nil⟩
  · rw [if_neg h0]
    by_cases h1 : seg.length = 1
    · rw [if_pos h1]
      rcases List.length_eq_one.mp h1 with ⟨a, rfl⟩
      exact ⟨[a], rfl, rfl, List.Perm.refl _, by simp [sortedByKey]⟩
    · rw [if_neg h1]
      by_cases h2 : seg.length = 2
      · rw [if_pos h2]
        rcases List.length_eq_two.mp h2 with ⟨a, b, rfl⟩
        rcases condSwap2_spec key a b with ⟨hl, hs, hst⟩
        exact ⟨condSwap2 key [a, b], rfl, by rw [hl]; rfl,
          stableWrt_perm key _ _ hst, hs⟩
      · rw [if_neg h2]
        exact hrec (by omega)

theorem optJoin_map (G : Nat → List α) :
    ∀ (js : List Nat) (f : Nat → Option (List α)),
      (∀ j ∈ js, f j = some (G j)) →
      optJoin (js.map f) = some ((js.map G).flatten)
  | [], _, _ => rfl
  | j :: js, f, hf => by
    rw [List.map_cons, hf j (by simp), optJoin,
      optJoin_map G js f (fun a ha => hf a (by simp [ha]))]
    simp

/-- Consecutive segments of a buffer concatenate back to its prefix. -/
theorem segOf_flatten (l : List α) (d : Nat → Nat) :
    ∀ S, 0 < S → (∀ j, j + 1 < S → d j ≤ d (j + 1)) →
      ((List.range S).map (fun j => segOf l d j)).flatten = l.take (d (S - 1))
  | 1, _, _ => by
    have h1 : List.range 1 = [0] := rfl
    rw [h1]
    simp [segOf, prevB]
  | S + 2, _, hmono => by
    rw [List.range_succ, List.map_append, List.flatten_append,
      segOf_flatten l d (S + 1) (by omega) (fun j hj => hmono j (by omega))]
    simp only [List.map_cons, List.map_nil, List.flatten_cons, List.flatten_nil,
      List.append_nil]
    have h21 : S + 2 - 1 = S + 1 := rfl
    have h11 : S + 1 - 1 = S := rfl
    rw [h21, h11]
    unfold segOf prevB
    rw [if_neg (by omega : ¬ S + 1 = 0)]
    have hdd : d S ≤ d (S + 1) := hmono S (by omega)
    have ht : (l.take (d (S + 1))).take (d S) = l.take (d S) := by
      rw [List.take_take, Nat.min_eq_left hdd]
    have h1s : S + 1 - 1 = S := rfl
    rw [h1s]
    conv_lhs => rw [← ht]
    exact List.take_append_drop _ _

theorem flatten_perm_of_forall (G F : Nat → List α) :
    ∀ js : List Nat, (∀ j ∈ js, List.Perm (G j) (F j)) →
      List.Perm ((js.map G).flatten) ((js.map F).flatten)
  | [], _ => List.Perm.refl _
  | j :: js, h => by
    simp only [List.map_cons, List.flatten_cons]
    exact List.Perm.append (h j (by simp))
      (flatten_perm_of_forall G F js (fun a ha => h a (by simp [ha])))

set_option maxHeartbeats 1000000 in
/-- The in-place per-bucket loop: if the segments are in cross-sorted order and
each big segment's recursion sorts it, the loop returns a sorted permutation of
the whole buffer. -/
theorem inplaceBucketPhase_spec (key : α → Nat) [Inhabited α]
    (recur : List α → Option (List α)) (SIZE : Nat) (hS : 0 < SIZE)
    (arr : List α) (d : Nat → Nat)
    (hmono : ∀ j, j + 1 < SIZE → d j ≤ d (j + 1))
    (hlast : d (SIZE - 1) = arr.length)
    (hrec : ∀ j, j < SIZE → 3 ≤ (segOf arr d j).length →
      ∃ r, recur (segOf arr d j) = some r ∧ r.length = (segOf arr d j).length ∧
        List.Perm r (segOf arr d j) ∧ sortedByKey key r)
    (hcross : ∀ j j', j < j' → j' < SIZE → ∀ a ∈ segOf arr d j,
      ∀ b ∈ segOf arr d j', key a ≤ key b) :
    ∃ out, inplaceBucketPhase key recur SIZE arr d = some out ∧
      out.length = arr.length ∧ List.Perm out arr ∧ sortedByKey key out := by
  have hstep : ∀ j, j < SIZE →
      inplaceBucketStep key recur (segOf arr d j) =
        some ((inplaceBucketStep key recur (segOf arr d j)).getD []) ∧
      ((inplaceBucketStep key recur (segOf arr d j)).getD []).length =
        (segOf arr d j).length ∧
      List.Perm ((inplaceBucketStep key recur (segOf arr d j)).getD [])
        (segOf arr d j) ∧
      sortedByKey key ((inplaceBucketStep key recur (segOf arr d j)).getD []) := by
    intro j hj
    rcases inplaceBucketStep_spec key recur (segOf arr d j) (hrec j hj) with
      ⟨r, hr, hrl, hrp, hrs⟩
    rw [hr]
    exact ⟨rfl, hrl, hrp, hrs⟩
  have hjoin : optJoin ((List.range SIZE).map
      (fun j => inplaceBucketStep key recur (segOf arr d j))) =
      some (((List.range SIZE).map
        (fun j => (inplaceBucketStep key recur (segOf arr d j)).getD [])).flatten) :=
    optJoin_map _ (List.range SIZE) _ (fun j hj => (hstep j (List.mem_range.mp hj)).1)
  have hflat : ((List.range SIZE).map (fun j => segOf arr d j)).flatten = arr := by
    rw [segOf_flatten arr d SIZE hS hmono, hlast, List.take_length]
  have hperm : List.Perm (((List.range SIZE).map
      (fun j => (inplaceBucketStep key recur (segOf arr d j)).getD [])).flatten) arr := by
    refine List.Perm.trans (flatten_perm_of_forall _ (fun j => segOf arr d j)
      (List.range SIZE) (fun j hj => (hstep j (List.mem_range.mp hj)).2.2.1)) ?_
    rw [hflat]
  refine ⟨((List.range SIZE).map
      (fun j => (inplaceBucketStep key recur (segOf arr d j)).getD [])).flatten ++
      arr.drop (d (SIZE - 1)), ?_, ?_, ?_, ?_⟩
  · simp only [inplaceBucketPhase]
    rw [hjoin]
    rfl
  · rw [hlast, List.drop_length, List.append_nil]
    exact hperm.length_eq
  · rw [hlast, List.drop_length, List.append_nil]
    exact hperm
  · rw [hlast, List.drop_length, List.append_nil]
    apply List.pairwise_flatten.mpr
    constructor
    · intro l hl
      rcases List.mem_map.mp hl with ⟨j, hjr, rfl⟩
      exact (hstep j (List.mem_range.mp hjr)).2.2.2
    · refine List.pairwise_map.mpr ?_
      refine List.Pairwise.imp_of_mem ?_ (List.pairwise_lt_range SIZE)
      intro j j' hj hj' hjj a ha b hb
      have hj'S := List.mem_range.mp hj'
      have haS : a ∈ segOf arr d j :=
        ((hstep j (by omega)).2.2.1).mem_iff.mp ha
      have hbS : b ∈ segOf arr d j' :=
        ((hstep j' hj'S).2.2.1).mem_iff.mp hb
      exact hcross j j' hjj hj'S a haS b hbS

/-- Sum of region widths against the exclusive prefix table. -/
theorem sum_d_sub_cdf (dig : α → Nat) (l : List α) (T : Nat) (dd : Nat → Nat)
    (hdd : ∀ h, h < T → dd h = plainCdf dig l (h + 1))
    (hlastd : dd T = l.length) :
    (∑ h in Finset.range (T + 1), (dd h - plainCdf dig l h)) ≤ l.length := by
  rw [Finset.sum_range_succ]
  have hcong : ∑ h in Finset.range T, (dd h - plainCdf dig l h) =
      ∑ h in Finset.range T, plainHist dig l h := by
    apply Finset.sum_congr rfl
    intro h hmem
    rw [hdd h (Finset.mem_range.mp hmem), plainCdf_succ]
    omega
  rw [hcong, sum_hist, hlastd]
  have := plainCdf_le_length dig l T
  omega

set_option maxHeartbeats 1600000 in
/-- One full digit pass of the in-place MSD engine returns a sorted permutation
of the range, given that all elements agree above the pass's bits and that the
per-bucket recursion does its job. -/
theorem inplacePass_spec (key : α → Nat) [Inhabited α] (L OFF : Nat)
    (recur : 0 < OFF → List α → Option (List α)) (src : List α)
    (hsh : ∀ x ∈ src, ∀ y ∈ src, key x / 2 ^ (OFF + L) = key y / 2 ^ (OFF + L))
    (hrecspec : ∀ (hOF : 0 < OFF) (sg : List α),
      (∀ x ∈ sg, ∀ y ∈ sg, key x / 2 ^ OFF = key y / 2 ^ OFF) →
      ∃ r, recur hOF sg = some r ∧ r.length = sg.length ∧ List.Perm r sg ∧
        sortedByKey key r) :
    ∃ out, inplacePass key L OFF recur src = some out ∧
      out.length = src.length ∧ List.Perm out src ∧ sortedByKey key out := by
  have hdigx : ∀ x : α, digitOf key OFF L x < 2 ^ L := fun x => digitOf_lt key OFF L x
  have hdig : ∀ x ∈ src, digitOf key OFF L x < 2 ^ L := fun x _ => hdigx x
  have hc1 : ∀ j, j < 2 ^ L → countingPass (digitOf key OFF L) src (2 ^ L) j = plainCdf (digitOf key OFF L) src j :=
    fun j hj => countingPass_eq_plainCdf _ src _ hj
  have hS1 : 0 < 2 ^ L := Nat.two_pow_pos L
  have hctx : ScatterCtx (digitOf key OFF L) (2 ^ L) (plainCdf (digitOf key OFF L) src) (fun j => if j < 2 ^ L - 1 then countingPass (digitOf key OFF L) src (2 ^ L) (j + 1) else src.length) src := by
    refine ⟨hdigx, ?_, ?_, ?_, ?_, ?_⟩
    · intro h hh
      have hsucc := plainCdf_succ (digitOf key OFF L) src h
      have hle := plainCdf_le_length (digitOf key OFF L) src (h + 1)
      have hpc : plainHist (digitOf key OFF L) src h =
          src.countP (fun x => digitOf key OFF L x == h) := rfl
      by_cases hc : h < 2 ^ L - 1
      · simp only [hc, if_true]
        rw [hc1 (h + 1) (by omega)]
        omega
      · simp only [hc, if_false]
        omega
    · intro h hh
      have hf : h < 2 ^ L - 1 := by omega
      simp only [hf, if_true]
      rw [hc1 (h + 1) (by omega)]
    · intro h h' hhh'
      exact plainCdf_mono _ src hhh'
    · intro h hh
      by_cases hc : h < 2 ^ L - 1
      · simp only [hc, if_true]
        rw [hc1 (h + 1) (by omega)]
        exact plainCdf_le_length _ src (h + 1)
      · simp only [hc, if_false]
        exact Nat.le_refl _
    · have h2 := sum_d_sub_cdf (digitOf key OFF L) src (2 ^ L - 1) (fun j => if j < 2 ^ L - 1 then countingPass (digitOf key OFF L) src (2 ^ L) (j + 1) else src.length)
        (fun h hh => by
          simp only [hh, if_true]
          rw [hc1 (h + 1) (by omega)])
        (by simp)
      have h3 : 2 ^ L - 1 + 1 = 2 ^ L := by omega
      rw [h3] at h2
      exact h2
  have hinv0 : ScatterInv (digitOf key OFF L) (2 ^ L) (plainCdf (digitOf key OFF L) src) (fun j => if j < 2 ^ L - 1 then countingPass (digitOf key OFF L) src (2 ^ L) (j + 1) else src.length) src src (countingPass (digitOf key OFF L) src (2 ^ L)) := by
    refine ⟨rfl, List.Perm.refl _, ?_, ?_⟩
    · intro h hh
      rw [hc1 h hh]
      refine ⟨Nat.le_refl _, ?_⟩
      by_cases hc : h < 2 ^ L - 1
      · simp only [hc, if_true]
        rw [hc1 (h + 1) (by omega)]
        exact plainCdf_mono _ src (by omega)
      · simp only [hc, if_false]
        exact plainCdf_le_length _ src h
    · intro h hh i hi1 hi2
      rw [hc1 h hh] at hi2
      omega
  have hdn : ∀ j, j < 2 ^ L → (fun j => if j < 2 ^ L - 1 then countingPass (digitOf key OFF L) src (2 ^ L) (j + 1) else src.length) j ≤ src.length := hctx.2.2.2.2.1
  have hstep1 : ∃ st : List α × (Nat → Nat),
      (if allInOneBucket (countingPass (digitOf key OFF L) src (2 ^ L)) (2 ^ L) src.length = true
        then some (src, countingPass (digitOf key OFF L) src (2 ^ L))
        else outerScatterLoop key OFF L (2 ^ L) (fun j => if j < 2 ^ L - 1 then countingPass (digitOf key OFF L) src (2 ^ L) (j + 1) else src.length) src (countingPass (digitOf key OFF L) src (2 ^ L))) = some st ∧
      st.1.length = src.length ∧ List.Perm st.1 src ∧
      (∀ j, j < 2 ^ L → ∀ i, plainCdf (digitOf key OFF L) src j ≤ i → i < (fun j => if j < 2 ^ L - 1 then countingPass (digitOf key OFF L) src (2 ^ L) (j + 1) else src.length) j →
        digitOf key OFF L (st.1.getD i default) = j) := by
    by_cases hskip : allInOneBucket (countingPass (digitOf key OFF L) src (2 ^ L)) (2 ^ L) src.length = true
    · rw [if_pos hskip]
      rcases allInOneBucket_all_eq _ src _ hdig hskip with ⟨j0, hj0S, hall⟩
      have hstart := plainCdf_of_const (digitOf key OFF L) src j0 hall
      refine ⟨(src, countingPass (digitOf key OFF L) src (2 ^ L)), rfl, rfl, List.Perm.refl _, ?_⟩
      intro j hj i hi1 hi2
      rcases Nat.lt_trichotomy j j0 with hlt | heq | hgt
      · have hf : j < 2 ^ L - 1 := by omega
        simp only [hf, if_true] at hi2
        rw [hc1 (j + 1) (by omega), hstart (j + 1), if_neg (by omega)] at hi2
        omega
      · subst heq
        have hin : i < src.length := by
          have := hdn j hj
          omega
        rw [List.getD_eq_getElem src default hin]
        exact hall _ (List.getElem_mem _)
      · rw [hstart j, if_pos (by omega)] at hi1
        have := hdn j hj
        omega
    · rw [if_neg hskip]
      rcases outer_partial key OFF L hctx src (countingPass (digitOf key OFF L) src (2 ^ L)) hinv0 (2 ^ L)
        (Nat.le_refl _) with ⟨arr', c', hfold, hinvf, hdone, _⟩
      refine ⟨(arr', c'), ?_, hinvf.1, hinvf.2.1, ?_⟩
      · rw [outerScatterLoop]
        exact hfold
      · intro j hj i hi1 hi2
        refine hinvf.2.2.2 j hj i hi1 ?_
        rw [hdone j hj]
        exact hi2
  rcases hstep1 with ⟨st, hafter, hstlen, hstperm, hpure⟩
  have hprevB : ∀ j, j < 2 ^ L → prevB (fun j => if j < 2 ^ L - 1 then countingPass (digitOf key OFF L) src (2 ^ L) (j + 1) else src.length) j = plainCdf (digitOf key OFF L) src j := by
    intro j hj
    unfold prevB
    by_cases hj0 : j = 0
    · rw [if_pos hj0, hj0]
      rfl
    · rw [if_neg hj0]
      have hf : j - 1 < 2 ^ L - 1 := by omega
      simp only [hf, if_true]
      rw [hc1 (j - 1 + 1) (by omega), (by omega : j - 1 + 1 = j)]
  have hsegpure : ∀ j, j < 2 ^ L → ∀ x ∈ segOf st.1 (fun j => if j < 2 ^ L - 1 then countingPass (digitOf key OFF L) src (2 ^ L) (j + 1) else src.length) j,
      digitOf key OFF L x = j := by
    intro j hj x hx
    refine slice_all (P := fun y => digitOf key OFF L y = j)
      (fun i h1 h2 _ => hpure j hj i (by rw [← hprevB j hj]; exact h1) h2) hx
  have hsegsrc : ∀ j, ∀ x ∈ segOf st.1 (fun j => if j < 2 ^ L - 1 then countingPass (digitOf key OFF L) src (2 ^ L) (j + 1) else src.length) j, x ∈ src := by
    intro j x hx
    have hx1 : x ∈ st.1.take ((fun j => if j < 2 ^ L - 1 then countingPass (digitOf key OFF L) src (2 ^ L) (j + 1) else src.length) j) := List.mem_of_mem_drop hx
    exact hstperm.mem_iff.mp (List.mem_of_mem_take hx1)
  have hdmono : ∀ j, j + 1 < 2 ^ L → (fun j => if j < 2 ^ L - 1 then countingPass (digitOf key OFF L) src (2 ^ L) (j + 1) else src.length) j ≤ (fun j => if j < 2 ^ L - 1 then countingPass (digitOf key OFF L) src (2 ^ L) (j + 1) else src.length) (j + 1) := by
    intro j hj
    have hf1 : j < 2 ^ L - 1 := by omega
    simp only [hf1, if_true]
    rw [hc1 (j + 1) (by omega)]
    by_cases hc : j + 1 < 2 ^ L - 1
    · simp only [hc, if_true]
      rw [hc1 (j + 2) (by omega)]
      exact plainCdf_mono _ src (by omega)
    · simp only [hc, if_false]
      exact plainCdf_le_length _ src (j + 1)
  have hdlast : (fun j => if j < 2 ^ L - 1 then countingPass (digitOf key OFF L) src (2 ^ L) (j + 1) else src.length) (2 ^ L - 1) = st.1.length := by
    simp only [lt_irrefl, if_false]
    exact hstlen.symm
  have hcross : ∀ j j', j < j' → j' < 2 ^ L → ∀ a ∈ segOf st.1 (fun j => if j < 2 ^ L - 1 then countingPass (digitOf key OFF L) src (2 ^ L) (j + 1) else src.length) j,
      ∀ b ∈ segOf st.1 (fun j => if j < 2 ^ L - 1 then countingPass (digitOf key OFF L) src (2 ^ L) (j + 1) else src.length) j', key a ≤ key b := by
    intro j j' hjj hj'S a ha b hb
    have hda := hsegpure j (by omega) a ha
    have hdb := hsegpure j' hj'S b hb
    rw [digitOf_eq_div_mod] at hda hdb
    have hh := hsh a (hsegsrc j a ha) b (hsegsrc j' b hb)
    exact key_le_of_dig_lt hh (by omega)
  by_cases hOF : 0 < OFF
  · have hrec2 : ∀ j, j < 2 ^ L → 3 ≤ (segOf st.1 (fun j => if j < 2 ^ L - 1 then countingPass (digitOf key OFF L) src (2 ^ L) (j + 1) else src.length) j).length →
        ∃ r, recur hOF (segOf st.1 (fun j => if j < 2 ^ L - 1 then countingPass (digitOf key OFF L) src (2 ^ L) (j + 1) else src.length) j) = some r ∧
          r.length = (segOf st.1 (fun j => if j < 2 ^ L - 1 then countingPass (digitOf key OFF L) src (2 ^ L) (j + 1) else src.length) j).length ∧
          List.Perm r (segOf st.1 (fun j => if j < 2 ^ L - 1 then countingPass (digitOf key OFF L) src (2 ^ L) (j + 1) else src.length) j) ∧ sortedByKey key r := by
      intro j hj _
      refine hrecspec hOF (segOf st.1 (fun j => if j < 2 ^ L - 1 then countingPass (digitOf key OFF L) src (2 ^ L) (j + 1) else src.length) j) ?_
      intro x hx y hy
      have hdx := hsegpure j hj x hx
      have hdy := hsegpure j hj y hy
      rw [digitOf_eq_div_mod] at hdx hdy
      exact key_high_propagate (hsh x (hsegsrc j x hx) y (hsegsrc j y hy))
        (by omega)
    rcases inplaceBucketPhase_spec key (recur hOF) (2 ^ L) hS1 st.1 (fun j => if j < 2 ^ L - 1 then countingPass (digitOf key OFF L) src (2 ^ L) (j + 1) else src.length)
      hdmono hdlast hrec2 hcross with ⟨out, hout, holen, hoperm, hosort⟩
    refine ⟨out, ?_, by rw [holen, hstlen], hoperm.trans hstperm, hosort⟩
    simp only [inplacePass]
    rw [hafter]
    simp only [Option.some_bind]
    rw [dif_pos hOF]
    exact hout
  · have hOF0 : OFF = 0 := by omega
    have hflat : ((List.range (2 ^ L)).map (fun j => segOf st.1 (fun j => if j < 2 ^ L - 1 then countingPass (digitOf key OFF L) src (2 ^ L) (j + 1) else src.length) j)).flatten =
        st.1 := by
      rw [segOf_flatten st.1 (fun j => if j < 2 ^ L - 1 then countingPass (digitOf key OFF L) src (2 ^ L) (j + 1) else src.length) (2 ^ L) hS1 hdmono]
      simp only [lt_irrefl, if_false]
      rw [← hstlen, List.take_length]
    have hsort : sortedByKey key st.1 := by
      rw [← hflat]
      apply List.pairwise_flatten.mpr
      constructor
      · intro l hl
        rcases List.mem_map.mp hl with ⟨j, hjr, rfl⟩
        apply List.pairwise_of_forall_mem_list
        intro a ha b hb
        have hda := hsegpure j (List.mem_range.mp hjr) a ha
        have hdb := hsegpure j (List.mem_range.mp hjr) b hb
        rw [digitOf_eq_div_mod, hOF0, Nat.pow_zero, Nat.div_one] at hda
        rw [digitOf_eq_div_mod, hOF0, Nat.pow_zero, Nat.div_one] at hdb
        have hh := hsh a (hsegsrc j a ha) b (hsegsrc j b hb)
        rw [hOF0, Nat.zero_add] at hh
        exact Nat.le_of_eq (key_eq_of_dig_eq hh (by omega))
      · refine List.pairwise_map.mpr ?_
        refine List.Pairwise.imp_of_mem ?_ (List.pairwise_lt_range (2 ^ L))
        intro j j' hj hj' hjj a ha b hb
        exact hcross j j' hjj (List.mem_range.mp hj') a ha b hb
    refine ⟨st.1, ?_, hstlen, hstperm, hsort⟩
    simp only [inplacePass]
    rw [hafter]
    simp only [Option.some_bind]
    rw [dif_neg hOF]

/-- Full correctness of the in-place MSD engine: it always returns a result (no
fuel ever runs out), which is a sorted permutation of the input. -/
theorem inplace_impl_spec (key : α → Nat) [Inhabited α] (BITS THRESHOLD : Nat)
    (hB : 0 < BITS) :
    ∀ (WIDTH : Nat) (src : List α),
      (∀ x ∈ src, ∀ y ∈ src, key x / 2 ^ WIDTH = key y / 2 ^ WIDTH) →
      ∃ out, radix_sort_msd_inplace_impl key BITS THRESHOLD hB WIDTH src = some out ∧
        out.length = src.length ∧ List.Perm out src ∧ sortedByKey key out
  | WIDTH, src => by
    intro hsh
    rw [radix_sort_msd_inplace_impl]
    by_cases hth : src.length < THRESHOLD
    · rw [if_pos hth]
      rcases fallback_spec key src src false rfl with ⟨h1, _, hs, hst⟩
      exact ⟨(fallback_sort key src src false).1, rfl, h1,
        stableWrt_perm key _ _ hst, hs⟩
    · rw [if_neg hth]
      refine inplacePass_spec key (min BITS WIDTH) (WIDTH - min BITS WIDTH) _ src
        ?_ ?_
      · intro x hx y hy
        rw [(by omega : WIDTH - min BITS WIDTH + min BITS WIDTH = WIDTH)]
        exact hsh x hx y hy
      · intro hOF sg hsub
        exact inplace_impl_spec key BITS THRESHOLD hB (WIDTH - min BITS WIDTH) sg hsub
termination_by W _ => W
decreasing_by omega

/-- Correctness of the in-place entry point. -/
theorem radix_sort_inplace_spec (key : α → Nat) [Inhabited α] (kb : Nat)
    (src : List α) (hk : ∀ x ∈ src, key x < 2 ^ kb) :
    ∃ out, radix_sort_inplace key kb src = some out ∧ out.length = src.length ∧
      List.Perm out src ∧ sortedByKey key out := by
  have hsh : ∀ x ∈ src, ∀ y ∈ src, key x / 2 ^ kb = key y / 2 ^ kb := by
    intro x hx y hy
    rw [Nat.div_eq_of_lt (hk x hx), Nat.div_eq_of_lt (hk y hy)]
  unfold radix_sort_inplace
  by_cases hb : msdBitsChoice src.length = 8
  · rw [if_pos hb]
    exact inplace_impl_spec key 8 128 (by decide) kb src hsh
  · rw [if_neg hb]
    exact inplace_impl_spec key 11 256 (by decide) kb src hsh

/-- The number of MSD levels is at most `⌈WIDTH / BITS⌉`. -/
theorem msdLevels_le (BITS : Nat) (hB : 0 < BITS) :
    ∀ WIDTH, 0 < WIDTH → msdLevels BITS hB WIDTH ≤ (WIDTH + BITS - 1) / BITS
  | WIDTH, hW => by
    rw [msdLevels]
    by_cases hOF : 0 < WIDTH - min BITS WIDTH
    · rw [dif_pos hOF]
      have hmin : min BITS WIDTH = BITS := by omega
      rw [hmin]
      have hrec := msdLevels_le BITS hB (WIDTH - BITS) (by omega)
      have hdiv : (WIDTH + BITS - 1) / BITS = (WIDTH - BITS + BITS - 1) / BITS + 1 := by
        have h1 : WIDTH + BITS - 1 = (WIDTH - BITS + BITS - 1) + BITS := by omega
        rw [h1, Nat.add_div_right _ hB]
      omega
    · rw [dif_neg hOF]
      have h1 : 1 ≤ (WIDTH + BITS - 1) / BITS :=
        (Nat.le_div_iff_mul_le hB).mpr (by omega)
      omega
termination_by W _ => W
decreasing_by omega

/-! ### The claims -/

/-- C1: for every input array, every destination and every mode argument, the
buffer identified by the pointer `radix_sort_stable` returns is sorted by key
— every adjacent (indeed every in-order) pair of the result is weakly
increasing in unsigned key order — and so is the array `radix_sort_inplace`
leaves in `src`. -/
theorem claim_C1 (key : α → Nat) [Inhabited α] (kb sizeofT : Nat)
    (src tmp : List α) (destination mode : Int)
    (hk : ∀ x ∈ src, key x < 2 ^ kb) (hlen : tmp.length = src.length) :
    sortedByKey key
      (resultOf (radix_sort_stable key kb sizeofT src tmp destination mode)) ∧
    ∀ out, radix_sort_inplace key kb src = some out → sortedByKey key out := by
  refine ⟨(radix_sort_stable_spec key kb sizeofT src tmp destination mode
    hk hlen).2.2.1, ?_⟩
  intro out hout
  rcases radix_sort_inplace_spec key kb src hk with ⟨out2, hout2, _, _, hsort⟩
  rw [hout] at hout2
  injection hout2 with h
  rw [h]
  exact hsort

theorem claim_C1_witness :
    ((∀ x ∈ ([3, 1, 2] : List Nat), (fun n : Nat => n) x < 2 ^ 4) ∧
      ([0, 0, 0] : List Nat).length = ([3, 1, 2] : List Nat).length) ∧
    (sortedByKey (fun n : Nat => n)
      (resultOf (radix_sort_stable (fun n : Nat => n) 4 8 [3, 1, 2] [0, 0, 0] 0 0)) ∧
    ∀ out, radix_sort_inplace (fun n : Nat => n) 4 [3, 1, 2] = some out →
      sortedByKey (fun n : Nat => n) out) :=
  ⟨⟨by decide, rfl⟩,
    claim_C1 (fun n : Nat => n) 4 8 [3, 1, 2] [0, 0, 0] 0 0 (by decide) rfl⟩

/-- C2: for every input and every choice of arguments, the output buffer of
`radix_sort_stable` is a permutation (equal multiset — no element lost or
duplicated) of the input, and so are the contents of `src` after
`radix_sort_inplace`. -/
theorem claim_C2 (key : α → Nat) [Inhabited α] (kb sizeofT : Nat)
    (src tmp : List α) (destination mode : Int)
    (hk : ∀ x ∈ src, key x < 2 ^ kb) (hlen : tmp.length = src.length) :
    List.Perm
      (resultOf (radix_sort_stable key kb sizeofT src tmp destination mode)) src ∧
    ∀ out, radix_sort_inplace key kb src = some out → List.Perm out src := by
  refine ⟨stableWrt_perm key _ _ (radix_sort_stable_spec key kb sizeofT src tmp
    destination mode hk hlen).2.2.2, ?_⟩
  intro out hout
  rcases radix_sort_inplace_spec key kb src hk with ⟨out2, hout2, _, hperm, _⟩
  rw [hout] at hout2
  injection hout2 with h
  rw [h]
  exact hperm

theorem claim_C2_witness :
    ((∀ x ∈ ([5, 4, 4, 7] : List Nat), (fun n : Nat => n) x < 2 ^ 4) ∧
      ([0, 0, 0, 0] : List Nat).length = ([5, 4, 4, 7] : List Nat).length) ∧
    (List.Perm
      (resultOf (radix_sort_stable (fun n : Nat => n) 4 8 [5, 4, 4, 7] [0, 0, 0, 0] 1 2))
      [5, 4, 4, 7] ∧
    ∀ out, radix_sort_inplace (fun n : Nat => n) 4 [5, 4, 4, 7] = some out →
      List.Perm out [5, 4, 4, 7]) :=
  ⟨⟨by decide, rfl⟩,
    claim_C2 (fun n : Nat => n) 4 8 [5, 4, 4, 7] [0, 0, 0, 0] 1 2 (by decide) rfl⟩

/-- C3: `radix_sort_stable` is stable for every input and every
destination/mode argument: for every key value, the subsequence of output
elements carrying that key equals (same elements, same relative order) the
corresponding subsequence of the input — equivalently, equal-key elements
keep their relative input order. -/
theorem claim_C3 (key : α → Nat) [Inhabited α] (kb sizeofT : Nat)
    (src tmp : List α) (destination mode : Int)
    (hk : ∀ x ∈ src, key x < 2 ^ kb) (hlen : tmp.length = src.length) :
    stableWrt key
      (resultOf (radix_sort_stable key kb sizeofT src tmp destination mode)) src :=
  (radix_sort_stable_spec key kb sizeofT src tmp destination mode hk hlen).2.2.2

theorem claim_C3_witness :
    ((∀ x ∈ ([21, 11, 21, 1] : List Nat), (fun n : Nat => n % 10) x < 2 ^ 4) ∧
      ([0, 0, 0, 0] : List Nat).length = ([21, 11, 21, 1] : List Nat).length) ∧
    stableWrt (fun n : Nat => n % 10)
      (resultOf (radix_sort_stable (fun n : Nat => n % 10) 4 8 [21, 11, 21, 1]
        [0, 0, 0, 0] 0 1))
      [21, 11, 21, 1] :=
  ⟨⟨by decide, rfl⟩,
    claim_C3 (fun n : Nat => n % 10) 4 8 [21, 11, 21, 1] [0, 0, 0, 0] 0 1
      (by decide) rfl⟩

/-- C4 (amended): when all elements of the range share one digit value `v` at
the current position, the degenerate check of the counting pass fires exactly
when `v + 1 < 2^B` — the check's loop `for(j=0;j+1<SIZE;++j)` never inspects
the last bucket, so the maximal digit value `2^B - 1` is missed and the pass
then scatters instead of merely swapping the buffer roles. -/
theorem claim_C4 (dig : α → Nat) (l : List α) (SIZE v : Nat)
    (hv : v < SIZE) (hall : ∀ x ∈ l, dig x = v) (hn : 0 < l.length) :
    (allInOneBucket (countingPass dig l SIZE) SIZE l.length = true ↔
      v + 1 < SIZE) := by
  rw [allInOneBucket_true_iff]
  constructor
  · rintro ⟨j, hj, hc⟩
    rw [countingPass_eq_plainCdf dig l SIZE (by omega : j + 1 < SIZE),
      countingPass_eq_plainCdf dig l SIZE (by omega : j < SIZE),
      plainCdf_of_const dig l v hall (j + 1),
      plainCdf_of_const dig l v hall j] at hc
    by_cases hjv : j = v
    · omega
    · rcases Nat.lt_or_ge j v with h1 | h2
      · rw [if_neg (by omega), if_neg (by omega)] at hc
        omega
      · rw [if_pos (by omega), if_pos (by omega)] at hc
        omega
  · intro hvS
    refine ⟨v, hvS, ?_⟩
    rw [countingPass_eq_plainCdf dig l SIZE (by omega : v + 1 < SIZE),
      countingPass_eq_plainCdf dig l SIZE (by omega : v < SIZE),
      plainCdf_of_const dig l v hall (v + 1),
      plainCdf_of_const dig l v hall v]
    simp only [if_pos (by omega : v < v + 1), if_neg (lt_irrefl v)]
    omega

theorem claim_C4_witness :
    ((1 < 4 ∧ (∀ x ∈ ([1, 1, 1] : List Nat), (fun n : Nat => n % 4) x = 1)) ∧
      0 < ([1, 1, 1] : List Nat).length) ∧
    (allInOneBucket (countingPass (fun n : Nat => n % 4) [1, 1, 1] 4) 4
      ([1, 1, 1] : List Nat).length = true ↔ 1 + 1 < 4) :=
  ⟨⟨⟨by decide, by decide⟩, by decide⟩,
    claim_C4 (fun n : Nat => n % 4) [1, 1, 1] 4 1 (by decide) (by decide)
      (by decide)⟩

set_option maxRecDepth 10000 in
/-- C4, counterexample to the original claim: with radix width `B = 8`, an
input whose elements all share the maximal digit value `2^8 - 1 = 255` does
not trigger the degenerate check (`allInOneBucket` is `false` although every
element is in bucket 255), and the LSD pass therefore scatters — the engine
returns the scratch buffer instead of merely swapping roles. -/
theorem claim_C4_counterexample :
    (∀ x ∈ ([255, 255] : List Nat), digitOf (fun n : Nat => n) 0 8 x = 255) ∧
    allInOneBucket (countingPass (digitOf (fun n : Nat => n) 0 8) [255, 255] (2 ^ 8))
      (2 ^ 8) ([255, 255] : List Nat).length = false ∧
    (radix_sort_lsd_impl (fun n : Nat => n) 8 (by decide) 8 8 [255, 255] [0, 0]).2.2 =
      true := by
  refine ⟨by decide, by decide, ?_⟩
  rw [radix_sort_lsd_impl]
  decide

/-- C5: for every input and mode, destination 0 makes `radix_sort_stable`
return the `src` pointer with the sorted stable sequence in `src`'s buffer;
destination 1 makes it return `tmp` with the result in `tmp`'s buffer; and
for every destination the returned pointer (one of the two buffers) holds a
valid stable sort of the input. -/
theorem claim_C5 (key : α → Nat) [Inhabited α] (kb sizeofT : Nat)
    (src tmp : List α) (destination mode : Int)
    (hk : ∀ x ∈ src, key x < 2 ^ kb) (hlen : tmp.length = src.length) :
    (destination = 0 →
      (radix_sort_stable key kb sizeofT src tmp destination mode).2.2 = false ∧
      sortedByKey key (radix_sort_stable key kb sizeofT src tmp destination mode).1 ∧
      stableWrt key (radix_sort_stable key kb sizeofT src tmp destination mode).1 src) ∧
    (destination = 1 →
      (radix_sort_stable key kb sizeofT src tmp destination mode).2.2 = true ∧
      sortedByKey key (radix_sort_stable key kb sizeofT src tmp destination mode).2.1 ∧
      stableWrt key (radix_sort_stable key kb sizeofT src tmp destination mode).2.1 src) ∧
    sortedByKey key (resultOf (radix_sort_stable key kb sizeofT src tmp destination mode)) ∧
    stableWrt key (resultOf (radix_sort_stable key kb sizeofT src tmp destination mode)) src := by
  have hflag : (destination = 0 → (radix_sort_stable key kb sizeofT src tmp destination mode).2.2 = false) ∧
      (destination = 1 → (radix_sort_stable key kb sizeofT src tmp destination mode).2.2 = true) := by
    unfold radix_sort_stable
    by_cases hm : stableSelectsMSD mode src.length kb sizeofT = true
    · rw [if_pos hm]
      by_cases hb : msdBitsChoice src.length = 8
      · rw [if_pos hb]
        exact ⟨fun h0 => by rw [h0]; rfl, fun h1 => by rw [h1]; rfl⟩
      · rw [if_neg hb]
        exact ⟨fun h0 => by rw [h0]; rfl, fun h1 => by rw [h1]; rfl⟩
    · rw [if_neg hm]
      have h := radix_sort_lsd_spec key kb 8 (by decide) src tmp destination hk hlen
      exact ⟨h.2.2.2.2.1, h.2.2.2.2.2⟩
  rcases radix_sort_stable_spec key kb sizeofT src tmp destination mode hk hlen with
    ⟨_, _, hsort, hstab⟩
  refine ⟨?_, ?_, hsort, hstab⟩
  · intro h0
    have hf := hflag.1 h0
    have hres : resultOf (radix_sort_stable key kb sizeofT src tmp destination mode) = (radix_sort_stable key kb sizeofT src tmp destination mode).1 := by
      simp [resultOf, hf]
    exact ⟨hf, by rw [← hres]; exact hsort, by rw [← hres]; exact hstab⟩
  · intro h1
    have hf := hflag.2 h1
    have hres : resultOf (radix_sort_stable key kb sizeofT src tmp destination mode) = (radix_sort_stable key kb sizeofT src tmp destination mode).2.1 := by
      simp [resultOf, hf]
    exact ⟨hf, by rw [← hres]; exact hsort, by rw [← hres]; exact hstab⟩

theorem claim_C5_witness :
    ((∀ x ∈ ([6, 2, 2, 3] : List Nat), (fun n : Nat => n) x < 2 ^ 4) ∧
      ([0, 0, 0, 0] : List Nat).length = ([6, 2, 2, 3] : List Nat).length) ∧
    (((1 : Int) = 0 →
      (radix_sort_stable (fun n : Nat => n) 4 8 [6, 2, 2, 3] [0, 0, 0, 0] 1 5).2.2 = false ∧
      sortedByKey (fun n : Nat => n)
        (radix_sort_stable (fun n : Nat => n) 4 8 [6, 2, 2, 3] [0, 0, 0, 0] 1 5).1 ∧
      stableWrt (fun n : Nat => n)
        (radix_sort_stable (fun n : Nat => n) 4 8 [6, 2, 2, 3] [0, 0, 0, 0] 1 5).1
        [6, 2, 2, 3]) ∧
    ((1 : Int) = 1 →
      (radix_sort_stable (fun n : Nat => n) 4 8 [6, 2, 2, 3] [0, 0, 0, 0] 1 5).2.2 = true ∧
      sortedByKey (fun n : Nat => n)
        (radix_sort_stable (fun n : Nat => n) 4 8 [6, 2, 2, 3] [0, 0, 0, 0] 1 5).2.1 ∧
      stableWrt (fun n : Nat => n)
        (radix_sort_stable (fun n : Nat => n) 4 8 [6, 2, 2, 3] [0, 0, 0, 0] 1 5).2.1
        [6, 2, 2, 3]) ∧
    sortedByKey (fun n : Nat => n)
      (resultOf (radix_sort_stable (fun n : Nat => n) 4 8 [6, 2, 2, 3] [0, 0, 0, 0] 1 5)) ∧
    stableWrt (fun n : Nat => n)
      (resultOf (radix_sort_stable (fun n : Nat => n) 4 8 [6, 2, 2, 3] [0, 0, 0, 0] 1 5))
      [6, 2, 2, 3]) :=
  ⟨⟨by decide, rfl⟩,
    claim_C5 (fun n : Nat => n) 4 8 [6, 2, 2, 3] [0, 0, 0, 0] 1 5 (by decide) rfl⟩

/-- C6: the dispatcher of `radix_sort_stable` selects the MSD engine exactly
when `mode = 1`, or `mode ∉ {0, 1}` and (`n < 1500`, or `kb > 40`, or the
element size exceeds 64 bits and `n > 10000000 / sizeof(T)`); otherwise LSD.
When MSD is selected it runs with 11 bits and threshold 256 exactly on the
two tuned ranges `4000 < n < 60000` and `2000000 < n < 9000000`, and with
8 bits and threshold 128 otherwise. -/
theorem claim_C6 (key : α → Nat) [Inhabited α] (kb sizeofT : Nat)
    (src tmp : List α) (destination mode : Int) :
    (stableSelectsMSD mode src.length kb sizeofT = true ↔
      (mode = 1 ∨ (mode ≠ 0 ∧ mode ≠ 1 ∧ (src.length < 1500 ∨ 40 < kb ∨
        (64 < sizeofT * 8 ∧ 10000000 / sizeofT < src.length))))) ∧
    (radix_sort_stable key kb sizeofT src tmp destination mode =
      if stableSelectsMSD mode src.length kb sizeofT then
        if (4000 < src.length ∧ src.length < 60000) ∨
            (2000000 < src.length ∧ src.length < 9000000) then
          radix_sort_msd key kb 11 256 (by decide) src tmp destination
        else radix_sort_msd key kb 8 128 (by decide) src tmp destination
      else radix_sort_lsd key kb 8 (by decide) src tmp destination) ∧
    (msdBitsChoice src.length = 11 ↔ ((4000 < src.length ∧ src.length < 60000) ∨
      (2000000 < src.length ∧ src.length < 9000000))) ∧
    (msdBitsChoice src.length = 8 ↔ ¬ ((4000 < src.length ∧ src.length < 60000) ∨
      (2000000 < src.length ∧ src.length < 9000000))) := by
  have hbits : ∀ n : Nat, msdBitsChoice n =
      if (4000 < n ∧ n < 60000) ∨ (2000000 < n ∧ n < 9000000) then 11 else 8 := by
    intro n
    unfold msdBitsChoice
    by_cases h1 : 4000 < n ∧ n < 60000
    · by_cases h2 : 2000000 < n ∧ n < 9000000
      · simp [h1, h2]
      · simp [h1, h2]
    · by_cases h2 : 2000000 < n ∧ n < 9000000
      · simp [h1, h2]
      · simp [h1, h2]
  refine ⟨?_, ?_, ?_, ?_⟩
  · simp only [stableSelectsMSD, Bool.and_eq_true, Bool.or_eq_true, bne_iff_ne,
      beq_iff_eq, decide_eq_true_eq]
    constructor
    · rintro ⟨hm0, hrest⟩
      by_cases hm1 : mode = 1
      · exact Or.inl hm1
      · refine Or.inr ⟨hm0, hm1, ?_⟩
        tauto
    · rintro (hm1 | ⟨hm0, hm1, hr⟩)
      · subst hm1
        exact ⟨by decide, by tauto⟩
      · exact ⟨hm0, by tauto⟩
  · unfold radix_sort_stable
    by_cases hm : stableSelectsMSD mode src.length kb sizeofT = true
    · rw [if_pos hm, if_pos hm]
      by_cases hcond : (4000 < src.length ∧ src.length < 60000) ∨
          (2000000 < src.length ∧ src.length < 9000000)
      · rw [if_pos hcond, if_neg (by rw [hbits]; simp [hcond])]
      · rw [if_neg hcond, if_pos (by rw [hbits]; simp [hcond])]
    · rw [if_neg hm, if_neg hm]
  · rw [hbits]
    by_cases hcond : (4000 < src.length ∧ src.length < 60000) ∨
        (2000000 < src.length ∧ src.length < 9000000)
    · simp [hcond]
    · simp [hcond]
  · rw [hbits]
    by_cases hcond : (4000 < src.length ∧ src.length < 60000) ∨
        (2000000 < src.length ∧ src.length < 9000000)
    · simp [hcond]
    · simp [hcond]

/-- C7: both entry points run to completion on every input: the in-place
engine (including its cycle-following chase loops, modelled with fuel) always
returns a result, and the MSD template recursion has depth at most
`⌈WIDTH / BITS⌉ = (WIDTH + BITS - 1) / BITS` levels.  (`radix_sort_stable`
and `fallback_sort` are total functions of the model by construction.) -/
theorem claim_C7 (key : α → Nat) [Inhabited α] (kb : Nat) (src : List α)
    (hk : ∀ x ∈ src, key x < 2 ^ kb) :
    (radix_sort_inplace key kb src).isSome = true ∧
    ∀ (BITS : Nat) (hB : 0 < BITS) (WIDTH : Nat), 0 < WIDTH →
      msdLevels BITS hB WIDTH ≤ (WIDTH + BITS - 1) / BITS := by
  constructor
  · rcases radix_sort_inplace_spec key kb src hk with ⟨out, hout, _, _, _⟩
    rw [hout]
    rfl
  · intro BITS hB WIDTH hW
    exact msdLevels_le BITS hB WIDTH hW

theorem claim_C7_witness :
    (∀ x ∈ ([1, 0, 5] : List Nat), (fun n : Nat => n) x < 2 ^ 3) ∧
    ((radix_sort_inplace (fun n : Nat => n) 3 [1, 0, 5]).isSome = true ∧
    ∀ (BITS : Nat) (hB : 0 < BITS) (WIDTH : Nat), 0 < WIDTH →
      msdLevels BITS hB WIDTH ≤ (WIDTH + BITS - 1) / BITS) :=
  ⟨by decide, claim_C7 (fun n : Nat => n) 3 [1, 0, 5] (by decide)⟩

/-- C8: boundary sizes.  For `n = 0`, both entry points return with no writes
to any caller buffer (both buffers of `radix_sort_stable` come back unchanged
for every destination and mode, and `radix_sort_inplace` leaves `src` empty);
for `n = 1`, the single element is returned unchanged in the result buffer,
and `radix_sort_inplace` leaves `src` as it was. -/
theorem claim_C8 (key : α → Nat) [Inhabited α] (kb sizeofT : Nat)
    (destination mode : Int) (a t : α) (hka : key a < 2 ^ kb) :
    (radix_sort_stable key kb sizeofT ([] : List α) [] destination mode).1 = [] ∧
    (radix_sort_stable key kb sizeofT ([] : List α) [] destination mode).2.1 = [] ∧
    radix_sort_inplace key kb ([] : List α) = some [] ∧
    resultOf (radix_sort_stable key kb sizeofT [a] [t] destination mode) = [a] ∧
    radix_sort_inplace key kb [a] = some [a] := by
  have h0 := radix_sort_stable_spec key kb sizeofT ([] : List α) [] destination mode
    (by intro x hx; simp at hx) rfl
  have h1 := radix_sort_stable_spec key kb sizeofT [a] [t] destination mode
    (by intro x hx; simp at hx; rw [hx]; exact hka) rfl
  refine ⟨List.length_eq_zero.mp h0.1, List.length_eq_zero.mp h0.2.1, ?_, ?_, ?_⟩
  · rcases radix_sort_inplace_spec key kb ([] : List α) (by intro x hx; simp at hx)
      with ⟨out, hout, hlen, _, _⟩
    rw [hout, List.length_eq_zero.mp hlen]
  · exact List.perm_singleton.mp (stableWrt_perm key _ _ h1.2.2.2)
  · rcases radix_sort_inplace_spec key kb [a]
      (by intro x hx; simp at hx; rw [hx]; exact hka) with ⟨out, hout, _, hperm, _⟩
    rw [hout, List.perm_singleton.mp hperm]

theorem claim_C8_witness :
    (fun n : Nat => n) 9 < 2 ^ 5 ∧
    ((radix_sort_stable (fun n : Nat => n) 5 4 ([] : List Nat) [] 7 3).1 = [] ∧
    (radix_sort_stable (fun n : Nat => n) 5 4 ([] : List Nat) [] 7 3).2.1 = [] ∧
    radix_sort_inplace (fun n : Nat => n) 5 ([] : List Nat) = some [] ∧
    resultOf (radix_sort_stable (fun n : Nat => n) 5 4 [9] [0] 7 3) = [9] ∧
    radix_sort_inplace (fun n : Nat => n) 5 [9] = some [9]) :=
  ⟨by decide, claim_C8 (fun n : Nat => n) 5 4 7 3 9 0 (by decide)⟩

/-- C9: for every input range, every digit function and every table size, the
unrolled counting loop (two elements per iteration into the interleaved
even/odd histogram slots, `countPairs`) followed by the scan that sums
`c[2j] + c[2j+1]` (`cdfTable`) yields exactly the plain single histogram of
digit values followed by an exclusive prefix sum, at every bucket index. -/
theorem claim_C9 (dig : α → Nat) (l : List α) (SIZE j : Nat) (hj : j < SIZE) :
    countingPass dig l SIZE j = plainCdf dig l j :=
  countingPass_eq_plainCdf dig l SIZE hj

theorem claim_C9_witness :
    2 < 4 ∧
    countingPass (fun n : Nat => n % 4) [3, 1, 2, 0, 1] 4 2 =
      plainCdf (fun n : Nat => n % 4) [3, 1, 2, 0, 1] 2 :=
  ⟨by decide, claim_C9 (fun n : Nat => n % 4) [3, 1, 2, 0, 1] 4 2 (by decide)⟩

/-- C10: whenever the dispatcher routes to the MSD engine and the destination
argument is neither 0 nor 1 ("don't care"), `radix_sort_stable` returns the
`src` pointer and the sorted stable result resides in `src`'s buffer, because
`radix_sort_msd` normalises every destination other than 1 to 0. -/
theorem claim_C10 (key : α → Nat) [Inhabited α] (kb sizeofT : Nat)
    (src tmp : List α) (destination mode : Int)
    (hk : ∀ x ∈ src, key x < 2 ^ kb) (hlen : tmp.length = src.length)
    (hd0 : destination ≠ 0) (hd1 : destination ≠ 1)
    (hmsd : stableSelectsMSD mode src.length kb sizeofT = true) :
    (radix_sort_stable key kb sizeofT src tmp destination mode).2.2 = false ∧
    sortedByKey key (radix_sort_stable key kb sizeofT src tmp destination mode).1 ∧
    stableWrt key (radix_sort_stable key kb sizeofT src tmp destination mode).1 src := by
  have hbeq : (destination == 1) = false := beq_eq_false_iff_ne.mpr hd1
  have hflag : (radix_sort_stable key kb sizeofT src tmp destination mode).2.2 = false := by
    unfold radix_sort_stable
    rw [if_pos hmsd]
    by_cases hb : msdBitsChoice src.length = 8
    · rw [if_pos hb]
      exact hbeq
    · rw [if_neg hb]
      exact hbeq
  rcases radix_sort_stable_spec key kb sizeofT src tmp destination mode hk hlen with
    ⟨_, _, hsort, hstab⟩
  have hres : resultOf (radix_sort_stable key kb sizeofT src tmp destination mode) = (radix_sort_stable key kb sizeofT src tmp destination mode).1 := by
    simp [resultOf, hflag]
  rw [hres] at hsort hstab
  exact ⟨hflag, hsort, hstab⟩

theorem claim_C10_witness :
    ((∀ x ∈ ([2, 9, 1] : List Nat), (fun n : Nat => n) x < 2 ^ 4) ∧
      ([0, 0, 0] : List Nat).length = ([2, 9, 1] : List Nat).length ∧
      (5 : Int) ≠ 0 ∧ (5 : Int) ≠ 1 ∧
      stableSelectsMSD 1 ([2, 9, 1] : List Nat).length 4 8 = true) ∧
    ((radix_sort_stable (fun n : Nat => n) 4 8 [2, 9, 1] [0, 0, 0] 5 1).2.2 = false ∧
    sortedByKey (fun n : Nat => n)
      (radix_sort_stable (fun n : Nat => n) 4 8 [2, 9, 1] [0, 0, 0] 5 1).1 ∧
    stableWrt (fun n : Nat => n)
      (radix_sort_stable (fun n : Nat => n) 4 8 [2, 9, 1] [0, 0, 0] 5 1).1
      [2, 9, 1]) :=
  ⟨⟨by decide, rfl, by decide, by decide, by decide⟩,
    claim_C10 (fun n : Nat => n) 4 8 [2, 9, 1] [0, 0, 0] 5 1 (by decide) rfl
      (by decide) (by decide) (by decide)⟩

end RadixSort
